import Mathlib

/-!
# libdict: a chained hash table with incremental rehashing

Shallow embedding of `src/dict.c` / `src/dict.h`.

Conventions of the embedding
* A pointer to a chain node is the chain that starts at that node: a bucket is a
  `List (dictEntry K V)`, `NULL` is `[]`, and `e->next` is the tail.
* A bucket array (`dictEntry **entries`) is a list of buckets; `calloc` never returns an
  array of length 0 here (sizes are at least 4), so the `NULL` array is `[]`.
* Every operation returns an `Option`: `none` stands for a crash or undefined behaviour
  (a call through a `NULL` function pointer, a read or write outside an array, a failed
  `assert`, signed overflow) or for an exhausted loop budget.
* `malloc` and `calloc` are assumed to succeed.
* `uint64_t` values are natural numbers; `% 2 ^ 64` is written where the code can wrap
  (`filled * 2`, `i *= 2`, `size - 1`, `iters++`, `iters--`, `start + ms`).  The `filled`
  counters and their sum `dictFilled` count live entries, each a separate allocation of 24
  bytes, so they stay far below `2 ^ 64` and are incremented, decremented and added without
  a reduction.
* The index `iter->i` of a cursor is an integer without a bound: only after `2 ^ 63` calls
  of `dictIteratorNext` on one cursor could `++iter->i` overflow.
* For `dictStats` the memory is a list of bytes and an address is an offset from the start
  of the caller's buffer, which is the first `len` bytes of the memory; what lies after
  them is the memory behind the buffer.  Texts are formatted before they are stored; the
  two renderings of `%.02f` are parameters of the model.
-/

namespace LibDict

/-- Chain node of `dict.h` without its `next` pointer.  `val = none` is a value that has not
been assigned yet (memory fresh from `malloc`). -/
structure dictEntry (K V : Type) where
  key : K
  val : Option V
deriving DecidableEq

/-- The policy `dictType`: a function pointer that is `NULL` is `none`.  Destructors only
release memory and have no effect on the state modelled here. -/
structure dictType (K V : Type) where
  hashFn : Option (K → Nat)
  keyCmp : Option (K → K → Bool)
  keyDup : Option (K → K)
  valDup : Option (V → V)
  keyDestructor : Option (K → Unit)
  valDestructor : Option (V → Unit)

/-- One hash table `dictht`. -/
structure dictht (K V : Type) where
  entries : List (List (dictEntry K V))
  size : Nat
  mask : Nat
  filled : Nat

/-- The dictionary `dict`; `ht0` and `ht1` are `ht[0]` and `ht[1]`. -/
structure dict (K V : Type) where
  type : dictType K V
  ht0 : dictht K V
  ht1 : dictht K V
  rehash : Int
  iters : Nat

/-- The cursor `dictIterator`.  `ht = 0` means `iter->ht == &iter->d->ht[0]`, `ht = 1` means
`&iter->d->ht[1]`; the dictionary `iter->d` is passed to the iterator functions. -/
structure dictIterator (K V : Type) where
  i : Int
  entry : List (dictEntry K V)
  nextEntry : List (dictEntry K V)
  ht : Nat

/-- A pointer to a linked entry, as its position: table, slot, index in the chain. -/
structure EntryRef where
  table : Nat
  slot : Nat
  pos : Nat
deriving DecidableEq

variable {K V : Type}

def DICT_HT_SIZE_MINIMUM : Nat := 4

def LONG_MAX : Nat := 2 ^ 63 - 1

/-- Conversion of a `uint64_t` to `int64_t`. -/
def asInt64 (n : Nat) : Int :=
  if n % 2 ^ 64 < 2 ^ 63 then ((n % 2 ^ 64 : Nat) : Int) else ((n % 2 ^ 64 : Nat) : Int) - 2 ^ 64

/-- Conversion of an `int64_t` to `uint64_t`. -/
def asUInt64 (z : Int) : Nat := (z % 2 ^ 64).toNat

/-- Macro `dictRehashing(d)`. -/
def dictRehashing (d : dict K V) : Bool := d.rehash != -1

/-- Macro `dictFilled(d)`. -/
def dictFilled (d : dict K V) : Nat := d.ht0.filled + d.ht1.filled

/-- Macro `dictSize(d)`. -/
def dictSize (d : dict K V) : Nat := (d.ht0.size + d.ht1.size) % 2 ^ 64

/-- Macro `dictHashKeyGet(d, key)`. -/
def dictHashKeyGet (d : dict K V) (key : K) : Option Nat :=
  match d.type.hashFn with
  | none => none
  | some f => some (f key)

/-- Macro `dictKeySet`: the key stored in a new entry. -/
def dictKeySet (d : dict K V) (key : K) : K :=
  match d.type.keyDup with
  | some f => f key
  | none => key

/-- The value `dictValSet` stores for `val`. -/
def dictValStored (d : dict K V) (val : V) : V :=
  match d.type.valDup with
  | some f => f val
  | none => val

/-- Table `ht[t]`. -/
def getHt (d : dict K V) (t : Nat) : dictht K V := if t = 0 then d.ht0 else d.ht1

/-- Assignment to table `ht[t]`. -/
def setHt (d : dict K V) (t : Nat) (ht : dictht K V) : dict K V :=
  if t = 0 then { d with ht0 := ht } else { d with ht1 := ht }

/-- The loop of `limitedHTSize`; the first argument bounds the number of iterations. -/
def limitedHTSizeLoop : Nat → Nat → Nat → Option Nat
  | 0, _, _ => none
  | fuel + 1, i, size => if i ≥ size then some i else limitedHTSizeLoop fuel ((i * 2) % 2 ^ 64) size

/-- Function `limitedHTSize`. -/
def limitedHTSize (size : Nat) : Option Nat :=
  if size ≥ LONG_MAX then some ((LONG_MAX + 1) % 2 ^ 64)
  else limitedHTSizeLoop 64 DICT_HT_SIZE_MINIMUM size

/-- Function `resetht`, as the value it leaves in the table. -/
def resetht : dictht K V := { entries := [], size := 0, mask := 0, filled := 0 }

/-- The local table `ht` that `expand` builds: `size` zeroed slots (`calloc`), `mask = size - 1`
and `filled = 0`. -/
def newTable (sz : Nat) : dictht K V :=
  { entries := List.replicate sz [], size := sz, mask := (sz + 2 ^ 64 - 1) % 2 ^ 64, filled := 0 }

/-- Function `expand`. -/
def expand (d : dict K V) (size : Nat) : Option (dict K V × Int) :=
  if dictRehashing d || decide (d.ht0.filled > size) then some (d, -1)
  else
    match limitedHTSize size with
    | none => none
    | some sz =>
      if sz = d.ht0.size then some (d, -1)
      else if d.ht0.entries.isEmpty then some ({ d with ht0 := newTable sz }, 0)
      else some ({ d with ht1 := newTable sz, rehash := 0 }, 0)

/-- Function `tryExpand`. -/
def tryExpand (d : dict K V) : Option (dict K V × Int) :=
  if dictRehashing d then some (d, 0)
  else if d.ht0.size = 0 then expand d DICT_HT_SIZE_MINIMUM
  else if d.ht0.filled ≥ d.ht0.size then expand d ((d.ht0.filled * 2) % 2 ^ 64)
  else some (d, 0)

/-- The chain walk `while (e) { if (dictKeyCmp(d, key, e->key)) ...; e = e->next; }`:
the index in the chain of the first entry whose key compares equal, if any. -/
def chainSearch (cmp : Option (K → K → Bool)) (key : K) :
    List (dictEntry K V) → Option (Option Nat)
  | [] => some none
  | e :: es =>
    match cmp with
    | none => none
    | some kc =>
      if kc key e.key then some (some 0)
      else
        match chainSearch cmp key es with
        | none => none
        | some none => some none
        | some (some p) => some (some (p + 1))

/-- Function `getExistingOrIndex`.  `existing` tells whether the out-pointer is non-`NULL`;
the result is the dictionary, the returned index and `*existing`. -/
def getExistingOrIndex (d : dict K V) (key : K) (hash : Nat) (existing : Bool) :
    Option (dict K V × Int × Option EntryRef) :=
  match tryExpand d with
  | none => none
  | some (d1, r) =>
    if r = -1 then some (d1, -1, none)
    else
      let i0 := hash &&& d1.ht0.mask
      match d1.ht0.entries[i0]? with
      | none => none
      | some c0 =>
        match chainSearch d1.type.keyCmp key c0 with
        | none => none
        | some (some p) => some (d1, -1, if existing then some ⟨0, i0, p⟩ else none)
        | some none =>
          if !dictRehashing d1 then some (d1, asInt64 i0, none)
          else
            let i1 := hash &&& d1.ht1.mask
            match d1.ht1.entries[i1]? with
            | none => none
            | some c1 =>
              match chainSearch d1.type.keyCmp key c1 with
              | none => none
              | some (some p) => some (d1, -1, if existing then some ⟨1, i1, p⟩ else none)
              | some none => some (d1, asInt64 i1, none)

/-- Function `dictCreate`; `none` is the `NULL` result. -/
def dictCreate (type : dictType K V) : Option (dict K V) :=
  if type.hashFn.isNone || type.keyCmp.isNone then none
  else some { type := type, ht0 := resetht, ht1 := resetht, rehash := -1, iters := 0 }

/-- The scan `while (d->ht[0].entries[d->rehash] == NULL) { d->rehash++;
if (--emptyVisitCnt == 0) return 1; }` over the slots from the cursor on.  The result is the
new cursor, the new `emptyVisitCnt` and whether `return 1` was taken; `none` is a read
past the end of the array. -/
def skipEmpty : List (List (dictEntry K V)) → Int → Int → Option (Int × Int × Bool)
  | [], _, _ => none
  | (_ :: _) :: _, r, c => some (r, c, false)
  | [] :: rest, r, c => if c - 1 = 0 then some (r + 1, c - 1, true) else skipEmpty rest (r + 1) (c - 1)

/-- The relocation loop `while (e) { ... }` of `rehash` over one chain. -/
def rehashChain (d : dict K V) : List (dictEntry K V) → Option (dict K V)
  | [] => some d
  | e :: nexte =>
    match dictHashKeyGet d e.key with
    | none => none
    | some h =>
      let i := h &&& d.ht1.mask
      match d.ht1.entries[i]? with
      | none => none
      | some c =>
        rehashChain
          { d with
            ht1 := { d.ht1 with entries := d.ht1.entries.set i (e :: c), filled := d.ht1.filled + 1 },
            ht0 := { d.ht0 with filled := d.ht0.filled - 1 } }
          nexte

/-- The loop `while (n-- && d->ht[0].filled != 0) { ... }` of `rehash`.  The second component
of the result tells whether the function returned 1 from inside the scan. -/
def rehashLoop : Nat → dict K V → Int → Option (dict K V × Bool)
  | 0, d, _ => some (d, false)
  | n + 1, d, cnt =>
    if d.ht0.filled = 0 then some (d, false)
    else if ¬ (d.ht0.size > asUInt64 d.rehash) then none
    else
      match skipEmpty (d.ht0.entries.drop d.rehash.toNat) d.rehash cnt with
      | none => none
      | some (r, _, true) => some ({ d with rehash := r }, true)
      | some (r, c, false) =>
        match d.ht0.entries[r.toNat]? with
        | none => none
        | some chain =>
          match rehashChain { d with rehash := r } chain with
          | none => none
          | some d1 =>
            rehashLoop n
              { d1 with
                ht0 := { d1.ht0 with entries := d1.ht0.entries.set r.toNat [] },
                rehash := r + 1 }
              c

/-- Function `rehash`; `n` is one of the constants 1 and 100 at every call site. -/
def rehash (d : dict K V) (n : Nat) : Option (dict K V × Int) :=
  if !dictRehashing d then some (d, 0)
  else
    match rehashLoop n d ((n : Int) * 10) with
    | none => none
    | some (d1, true) => some (d1, 1)
    | some (d1, false) =>
      if d1.ht0.filled = 0 then some ({ d1 with ht0 := d1.ht1, ht1 := resetht, rehash := -1 }, 0)
      else some (d1, 1)

/-- Function `rehashStep`. -/
def rehashStep (d : dict K V) : Option (dict K V) :=
  if d.iters = 0 then
    match rehash d 1 with
    | none => none
    | some (d1, _) => some d1
  else some d

/-- The guard `if (dictRehashing(d)) rehashStep(d);` that opens the public operations. -/
def rehashStepIfRehashing (d : dict K V) : Option (dict K V) :=
  if dictRehashing d then rehashStep d else some d

def INT_MAX : Int := 2 ^ 31 - 1

/-- The loop of `dictRehashms`.  `clock t` is the value of the `t`-th call of `mstime()`
made by the function (`clock 0` is `start`); the first argument bounds the number of
iterations. -/
def dictRehashmsLoop (clock : Nat → Nat) (ms : Int) :
    Nat → dict K V → Nat → Int → Option (dict K V × Int)
  | 0, _, _, _ => none
  | fuel + 1, d, t, cnt =>
    match rehash d 100 with
    | none => none
    | some (d1, r) =>
      if r = 0 then some (d1, cnt)
      else if cnt + 100 > INT_MAX then none
      else if clock t > asUInt64 ((clock 0 : Int) + ms) then some (d1, cnt + 100)
      else dictRehashmsLoop clock ms fuel d1 (t + 1) (cnt + 100)

/-- Function `dictRehashms`.  Every pass of the loop but the last moves the cursor forward,
so `ht[0].size + 1` passes are enough. -/
def dictRehashms (clock : Nat → Nat) (d : dict K V) (ms : Int) : Option (dict K V × Int) :=
  dictRehashmsLoop clock ms (d.ht0.size + 1) d 1 0

/-- The entry a reference points to. -/
def deref (d : dict K V) (r : EntryRef) : Option (dictEntry K V) :=
  match (getHt d r.table).entries[r.slot]? with
  | none => none
  | some ch => ch[r.pos]?

/-- Macro `dictValSet(d, entry, val)` on the entry at `r`. -/
def dictValSet (d : dict K V) (r : EntryRef) (val : V) : Option (dict K V) :=
  let ht := getHt d r.table
  match ht.entries[r.slot]? with
  | none => none
  | some ch =>
    match ch[r.pos]? with
    | none => none
    | some e =>
      some (setHt d r.table
        { ht with entries := ht.entries.set r.slot (ch.set r.pos { e with val := some (dictValStored d val) }) })

/-- Function `dictAddKeyOrGetExistingEntry`.  The result is the dictionary, the returned
entry pointer and `*existing`. -/
def dictAddKeyOrGetExistingEntry (d : dict K V) (key : K) (existing : Bool) :
    Option (dict K V × Option EntryRef × Option EntryRef) :=
  match rehashStepIfRehashing d with
  | none => none
  | some d1 =>
    match dictHashKeyGet d1 key with
    | none => none
    | some h =>
      match getExistingOrIndex d1 key h existing with
      | none => none
      | some (d2, i, ex) =>
        if i = -1 then some (d2, none, ex)
        else if i < 0 then none
        else
          let t := if dictRehashing d2 then 1 else 0
          let ht := getHt d2 t
          match ht.entries[i.toNat]? with
          | none => none
          | some c =>
            let e : dictEntry K V := { key := dictKeySet d2 key, val := none }
            some (setHt d2 t { ht with entries := ht.entries.set i.toNat (e :: c), filled := ht.filled + 1 },
              some ⟨t, i.toNat, 0⟩, ex)

/-- Function `dictAdd`. -/
def dictAdd (d : dict K V) (key : K) (val : V) : Option (dict K V × Int) :=
  match dictAddKeyOrGetExistingEntry d key false with
  | none => none
  | some (d1, none, _) => some (d1, -1)
  | some (d1, some e, _) =>
    match dictValSet d1 e val with
    | none => none
    | some d2 => some (d2, 0)

/-- Function `dictUpdateOrAdd`. -/
def dictUpdateOrAdd (d : dict K V) (key : K) (val : V) : Option (dict K V × Int) :=
  match dictAddKeyOrGetExistingEntry d key true with
  | none => none
  | some (d1, some e, _) =>
    match dictValSet d1 e val with
    | none => none
    | some d2 => some (d2, 1)
  | some (_, none, none) => none
  | some (d1, none, some ex) =>
    match dictValSet d1 ex val with
    | none => none
    | some d2 => some (d2, 0)

/-- One pass of the table loop of `dictEntryDelete` on table `t`: the dictionary without the
first matching entry of the probed chain, and that entry. -/
def deleteInTable (d : dict K V) (t : Nat) (key : K) (h : Nat) :
    Option (Option (dict K V × dictEntry K V)) :=
  let ht := getHt d t
  let i := h &&& ht.mask
  match ht.entries[i]? with
  | none => none
  | some ch =>
    match chainSearch d.type.keyCmp key ch with
    | none => none
    | some none => some none
    | some (some p) =>
      match ch[p]? with
      | none => none
      | some e =>
        some (some (setHt d t { ht with entries := ht.entries.set i (ch.eraseIdx p), filled := ht.filled - 1 }, e))

/-- Function `dictEntryDelete`; the entry in the result is the node the returned pointer
refers to. -/
def dictEntryDelete (d : dict K V) (key : K) (_noEntryFree : Bool) :
    Option (dict K V × Option (dictEntry K V)) :=
  if d.ht0.filled = 0 ∧ d.ht1.filled = 0 then some (d, none)
  else
    match rehashStepIfRehashing d with
    | none => none
    | some d1 =>
      match dictHashKeyGet d1 key with
      | none => none
      | some h =>
        match deleteInTable d1 0 key h with
        | none => none
        | some (some (d2, e)) => some (d2, some e)
        | some none =>
          if !dictRehashing d1 then some (d1, none)
          else
            match deleteInTable d1 1 key h with
            | none => none
            | some (some (d2, e)) => some (d2, some e)
            | some none => some (d1, none)

/-- One pass of the table loop of `dictFind` on table `t`. -/
def findInTable (d : dict K V) (t : Nat) (key : K) (h : Nat) : Option (Option (dictEntry K V)) :=
  let ht := getHt d t
  match ht.entries[h &&& ht.mask]? with
  | none => none
  | some ch =>
    match chainSearch d.type.keyCmp key ch with
    | none => none
    | some none => some none
    | some (some p) =>
      match ch[p]? with
      | none => none
      | some e => some (some e)

/-- Function `dictFind`; the entry in the result is the node the returned pointer refers
to. -/
def dictFind (d : dict K V) (key : K) : Option (dict K V × Option (dictEntry K V)) :=
  if dictFilled d = 0 then some (d, none)
  else
    match rehashStepIfRehashing d with
    | none => none
    | some d1 =>
      match dictHashKeyGet d1 key with
      | none => none
      | some h =>
        match findInTable d1 0 key h with
        | none => none
        | some (some e) => some (d1, some e)
        | some none =>
          if !dictRehashing d1 then some (d1, none)
          else
            match findInTable d1 1 key h with
            | none => none
            | some r => some (d1, r)

/-- Function `iteratorReset`, as the cursor it leaves. -/
def iteratorReset : dictIterator K V := { i := -1, entry := [], nextEntry := [], ht := 0 }

/-- The test `iter->i == -1 && iter->ht == &iter->d->ht[0]`. -/
def iterFresh (it : dictIterator K V) : Bool := it.i == -1 && it.ht == 0

/-- Function `dictIteratorCreate`; the cursor is `none` when `NULL` is returned. -/
def dictIteratorCreate (d : dict K V) : Option (dict K V × Option (dictIterator K V)) :=
  match tryExpand d with
  | none => none
  | some (d1, r) => if r = -1 then some (d1, none) else some (d1, some iteratorReset)

/-- Function `dictIteratorDestroy`, as its effect on the dictionary. -/
def dictIteratorDestroy (d : dict K V) (it : dictIterator K V) : dict K V :=
  if !iterFresh it then { d with iters := (d.iters + 2 ^ 64 - 1) % 2 ^ 64 } else d

/-- Function `dictIteratorRewind`. -/
def dictIteratorRewind (d : dict K V) (it : dictIterator K V) : dict K V × dictIterator K V :=
  (if !iterFresh it then { d with iters := (d.iters + 2 ^ 64 - 1) % 2 ^ 64 } else d, iteratorReset)

/-- The first half of one pass of the loop `for (;;)` of `dictIteratorNext`: the statement
`if (!iter->entry) { ... } else { iter->entry = iter->nextEntry; }`.  The Boolean tells
whether `break` was taken. -/
def iterAdvance (d : dict K V) (it : dictIterator K V) :
    Option (dict K V × dictIterator K V × Bool) :=
  match it.entry with
  | [] =>
    let d1 := if iterFresh it then { d with iters := (d.iters + 1) % 2 ^ 64 } else d
    let i1 := it.i + 1
    if i1 ≥ asInt64 (getHt d1 it.ht).size then
      if dictRehashing d1 && it.ht == 0 then
        match d1.ht1.entries[0]? with
        | none => none
        | some c => some (d1, { it with ht := 1, i := 0, entry := c }, false)
      else some (d1, { it with i := i1 }, true)
    else if i1 < 0 then none
    else
      match (getHt d1 it.ht).entries[i1.toNat]? with
      | none => none
      | some c => some (d1, { it with i := i1, entry := c }, false)
  | _ :: _ => some (d, { it with entry := it.nextEntry }, false)

/-- The loop `for (;;)` of `dictIteratorNext`; the first argument bounds the number of
passes. -/
def dictIteratorNextLoop : Nat → dict K V → dictIterator K V →
    Option (dict K V × dictIterator K V × Option (dictEntry K V))
  | 0, _, _ => none
  | fuel + 1, d, it =>
    match iterAdvance d it with
    | none => none
    | some (d1, it1, true) => some (d1, it1, none)
    | some (d1, it1, false) =>
      match it1.entry with
      | e :: rest => some (d1, { it1 with nextEntry := rest }, some e)
      | [] => dictIteratorNextLoop fuel d1 it1

/-- Function `dictIteratorNext`.  Every pass that does not return moves the cursor to the
next slot, so `ht[0].size + ht[1].size + 2` passes are enough. -/
def dictIteratorNext (d : dict K V) (it : dictIterator K V) :
    Option (dict K V × dictIterator K V × Option (dictEntry K V)) :=
  dictIteratorNextLoop (d.ht0.size + d.ht1.size + 2) d it

/-- A table with the chain of slot `i` replaced and a new `filled` count (proof helper). -/
def withSlot (ht : dictht K V) (i : Nat) (c : List (dictEntry K V)) (fl : Nat) : dictht K V :=
  { entries := ht.entries.set i c, size := ht.size, mask := ht.mask, filled := fl }

/-- All live entries of both tables, in the order a cursor meets them. -/
def allEntries (d : dict K V) : List (dictEntry K V) :=
  d.ht0.entries.flatten ++ d.ht1.entries.flatten

/-- The contract of the policy: both required functions are present, `keyCmp` is an
equivalence, keys that compare equal hash equal, and a duplicated key compares equal to
the key it was copied from. -/
structure Lawful (ty : dictType K V) (hf : K → Nat) (kc : K → K → Bool) : Prop where
  hash_eq : ty.hashFn = some hf
  cmp_eq : ty.keyCmp = some kc
  refl : ∀ a, kc a a = true
  symm : ∀ a b, kc a b = true → kc b a = true
  trans : ∀ a b c, kc a b = true → kc b c = true → kc a c = true
  hash_congr : ∀ a b, kc a b = true → hf a = hf b
  dup : ∀ f, ty.keyDup = some f → ∀ k, kc (f k) k = true

/-- Shape of one table: the array has `size` slots, `size` is 0 or a power of two between
4 and 2^63, `mask = size - 1`, `filled` counts the linked entries, and every entry sits in
the slot its hash selects. -/
structure TableOK (hf : K → Nat) (ht : dictht K V) : Prop where
  len : ht.entries.length = ht.size
  mask : ht.mask = ht.size - 1
  pow2 : ht.size = 0 ∨ ∃ k, 2 ≤ k ∧ k ≤ 63 ∧ ht.size = 2 ^ k
  filled : ht.filled = ht.entries.flatten.length
  slot : ∀ i ch, ht.entries[i]? = some ch → ∀ e ∈ ch, hf e.key &&& ht.mask = i

/-- The invariant of the dictionary. -/
structure WF (hf : K → Nat) (kc : K → K → Bool) (d : dict K V) : Prop where
  t0 : TableOK hf d.ht0
  t1 : TableOK hf d.ht1
  idle : d.rehash = -1 → d.ht1 = resetht
  busy : d.rehash ≠ -1 → 0 ≤ d.rehash ∧ d.rehash ≤ d.ht0.size ∧ 0 < d.ht0.size ∧ 0 < d.ht1.size ∧
    ∀ j : Nat, (j : Int) < d.rehash → d.ht0.entries[j]? = some []
  uniq : (allEntries d).Pairwise (fun a b => kc a.key b.key = false)

/-- The states a client can bring a dictionary created with the policy `ty` into:
`dictCreate` followed by any sequence of public operations, with any arguments, any clock
and any cursor. -/
inductive Reachable (ty : dictType K V) : dict K V → Prop
  | create (d : dict K V) : dictCreate ty = some d → Reachable ty d
  | add (d : dict K V) (k : K) (v : V) (d1 : dict K V) (r : Int) :
      Reachable ty d → dictAdd d k v = some (d1, r) → Reachable ty d1
  | addKey (d : dict K V) (k : K) (ex : Bool) (d1 : dict K V) (r1 r2 : Option EntryRef) :
      Reachable ty d → dictAddKeyOrGetExistingEntry d k ex = some (d1, r1, r2) → Reachable ty d1
  | valSet (d : dict K V) (e : EntryRef) (v : V) (d1 : dict K V) :
      Reachable ty d → dictValSet d e v = some d1 → Reachable ty d1
  | update (d : dict K V) (k : K) (v : V) (d1 : dict K V) (r : Int) :
      Reachable ty d → dictUpdateOrAdd d k v = some (d1, r) → Reachable ty d1
  | find (d : dict K V) (k : K) (d1 : dict K V) (r : Option (dictEntry K V)) :
      Reachable ty d → dictFind d k = some (d1, r) → Reachable ty d1
  | delete (d : dict K V) (k : K) (nf : Bool) (d1 : dict K V) (r : Option (dictEntry K V)) :
      Reachable ty d → dictEntryDelete d k nf = some (d1, r) → Reachable ty d1
  | rehashms (clock : Nat → Nat) (d : dict K V) (ms : Int) (d1 : dict K V) (r : Int) :
      Reachable ty d → dictRehashms clock d ms = some (d1, r) → Reachable ty d1
  | iterCreate (d d1 : dict K V) (it : Option (dictIterator K V)) :
      Reachable ty d → dictIteratorCreate d = some (d1, it) → Reachable ty d1
  | iterNext (d : dict K V) (it : dictIterator K V) (d1 : dict K V) (it1 : dictIterator K V)
      (r : Option (dictEntry K V)) :
      Reachable ty d → dictIteratorNext d it = some (d1, it1, r) → Reachable ty d1
  | iterRewind (d : dict K V) (it : dictIterator K V) :
      Reachable ty d → Reachable ty (dictIteratorRewind d it).1
  | iterDestroy (d : dict K V) (it : dictIterator K V) :
      Reachable ty d → Reachable ty (dictIteratorDestroy d it)

/-- The loop `for (j = 0; j < count; j++) dictAdd(dict, key_j, val_j)` of the benchmark: the
dictionary after all the insertions, and the list of the values `dictAdd` returned. -/
def dictAddAll : dict K V → List (K × V) → Option (dict K V × List Int)
  | d, [] => some (d, [])
  | d, kv :: rest =>
    match dictAdd d kv.1 kv.2 with
    | none => none
    | some (d1, r) =>
      match dictAddAll d1 rest with
      | none => none
      | some (d2, rs) => some (d2, r :: rs)

/-- The loop `for (;;) { e = dictIteratorNext(iter); if (e == NULL) break; cnt++; }` of the
benchmark: the dictionary and the cursor when `NULL` is returned, and the entries returned
before, in order.  The first argument bounds the number of calls. -/
def iterateAll : Nat → dict K V → dictIterator K V →
    Option (dict K V × dictIterator K V × List (dictEntry K V))
  | 0, _, _ => none
  | fuel + 1, d, it =>
    match dictIteratorNext d it with
    | none => none
    | some (d1, it1, none) => some (d1, it1, [])
    | some (d1, it1, some e) =>
      match iterateAll fuel d1 it1 with
      | none => none
      | some (d2, it2, es) => some (d2, it2, e :: es)

/-- The same loop for a caller that, after each entry `e` it is handed, calls
`dictEntryDelete(d, e->key, 0)` when `del e` holds, before the next call of
`dictIteratorNext`. -/
def iterateDeleting (del : dictEntry K V → Bool) : Nat → dict K V → dictIterator K V →
    Option (dict K V × dictIterator K V × List (dictEntry K V))
  | 0, _, _ => none
  | fuel + 1, d, it =>
    match dictIteratorNext d it with
    | none => none
    | some (d1, it1, none) => some (d1, it1, [])
    | some (d1, it1, some e) =>
      if del e then
        match dictEntryDelete d1 e.key false with
        | none => none
        | some (d2, _) =>
          match iterateDeleting del fuel d2 it1 with
          | none => none
          | some (d3, it3, es) => some (d3, it3, e :: es)
      else
        match iterateDeleting del fuel d1 it1 with
        | none => none
        | some (d3, it3, es) => some (d3, it3, e :: es)

/-- The entries a cursor has still to return (proof helper): the rest of the current
chain, the later slots of the current table and, from the first table of a rehashing
dictionary, the whole second table. -/
def pending (d : dict K V) (it : dictIterator K V) : List (dictEntry K V) :=
  (match it.entry with
    | [] => []
    | _ :: _ => it.nextEntry) ++
  ((getHt d it.ht).entries.drop (it.i + 1).toNat).flatten ++
  (if it.ht = 0 ∧ d.rehash ≠ -1 then d.ht1.entries.flatten else [])

/-- A bound on the passes of the loop of `dictIteratorNext` before it returns (proof
helper). -/
def passBudget (d : dict K V) (it : dictIterator K V) : Nat :=
  (match it.entry with
    | [] => 0
    | _ :: _ => 1) +
  ((getHt d it.ht).size - (it.i + 1).toNat) +
  (if it.ht = 0 ∧ d.rehash ≠ -1 then d.ht1.size else 0) + 1

/-- What the cursor functions need of the dictionary (proof helper): both arrays have
`size` slots, the sizes fit `int64_t`, and the second table is allocated during a rehash. -/
structure Shape (d : dict K V) : Prop where
  len0 : d.ht0.entries.length = d.ht0.size
  len1 : d.ht1.entries.length = d.ht1.size
  lt0 : d.ht0.size < 2 ^ 63
  lt1 : d.ht1.size < 2 ^ 63
  pos1 : d.rehash ≠ -1 → 0 < d.ht1.size

/-- A cursor that points into the dictionary (proof helper): it is on one of the two tables,
on the second one only during a rehash, and when it holds an entry, `nextEntry` is the rest
of the chain of its slot. -/
structure CursorOK (d : dict K V) (it : dictIterator K V) : Prop where
  ht01 : it.ht = 0 ∨ it.ht = 1
  ht1 : it.ht = 1 → d.rehash ≠ -1
  ige : -1 ≤ it.i
  held : it.entry ≠ [] → 0 ≤ it.i ∧
    ∃ pre, (getHt d it.ht).entries[it.i.toNat]? = some (pre ++ it.nextEntry)

/-- A client of the cursor interface: `IterSys d0 d cs` says that, starting from the
dictionary `d0` with no cursor, a sequence of calls of `dictIteratorCreate`,
`dictIteratorNext`, `dictIteratorRewind` and `dictIteratorDestroy` leads to the dictionary
`d` with the live cursors `cs` (created and not yet destroyed).  Each cursor carries a flag
that records the history: whether `dictIteratorNext` has been called on it since it was
created or last rewound. -/
inductive IterSys (d0 : dict K V) : dict K V → List (dictIterator K V × Bool) → Prop
  | start : IterSys d0 d0 []
  | create (d d1 : dict K V) (cs : List (dictIterator K V × Bool)) (it : dictIterator K V) :
      IterSys d0 d cs → dictIteratorCreate d = some (d1, some it) →
      IterSys d0 d1 (cs ++ [(it, false)])
  | createNull (d d1 : dict K V) (cs : List (dictIterator K V × Bool)) :
      IterSys d0 d cs → dictIteratorCreate d = some (d1, none) → IterSys d0 d1 cs
  | next (d d1 : dict K V) (cs : List (dictIterator K V × Bool)) (j : Nat)
      (it it1 : dictIterator K V) (u : Bool) (r : Option (dictEntry K V)) :
      IterSys d0 d cs → cs[j]? = some (it, u) → dictIteratorNext d it = some (d1, it1, r) →
      IterSys d0 d1 (cs.set j (it1, true))
  | rewind (d : dict K V) (cs : List (dictIterator K V × Bool)) (j : Nat)
      (it : dictIterator K V) (u : Bool) :
      IterSys d0 d cs → cs[j]? = some (it, u) →
      IterSys d0 (dictIteratorRewind d it).1 (cs.set j ((dictIteratorRewind d it).2, false))
  | destroy (d : dict K V) (cs : List (dictIterator K V × Bool)) (j : Nat)
      (it : dictIterator K V) (u : Bool) :
      IterSys d0 d cs → cs[j]? = some (it, u) →
      IterSys d0 (dictIteratorDestroy d it) (cs.eraseIdx j)

/-- The number of live cursors that are not Fresh, by the test of the code
(`iter->i == -1 && iter->ht == &iter->d->ht[0]`). -/
def activeCursors (cs : List (dictIterator K V × Bool)) : Nat :=
  cs.countP (fun c => !iterFresh c.1)

/-- The chain invariant of one table: `filled` is the number of entries linked from the
chain heads, and every entry in the chain at slot `i` has `hashFn(key) & mask == i`. -/
def ChainsOK (hf : K → Nat) (ht : dictht K V) : Prop :=
  ht.filled = ht.entries.flatten.length ∧
  ∀ (i : Nat) (ch : List (dictEntry K V)), ht.entries[i]? = some ch →
    ∀ e ∈ ch, hf e.key &&& ht.mask = i

/-- The slots of the first table from the cursor position `a` up to, and without, the cursor
position `b`: the slots a call of `rehash` that moves the cursor from `a` to `b` has gone
over. -/
def slotsBetween (d : dict K V) (a b : Int) : List (List (dictEntry K V)) :=
  (d.ht0.entries.drop a.toNat).take (b.toNat - a.toNat)

def DICT_STATS_VEC_SIZE : Nat := 50

/-- The bytes of a string literal of the source. -/
def bytes (s : String) : List Nat := s.toList.map Char.toNat

/-- The digits `printf` writes for `%d` and for a non-negative `%ld`. -/
def decimal (v : Nat) : List Nat := (Nat.toDigits 10 v).map Char.toNat

/-- The text `printf` writes for a `uint64_t` passed to `%ld`: the value read as a signed
64-bit integer. -/
def fmtLong (v : Nat) : List Nat :=
  if v % 2 ^ 64 < 2 ^ 63 then decimal (v % 2 ^ 64) else 45 :: decimal (2 ^ 64 - v % 2 ^ 64)

/-- A store of one byte at the address `p`.  Memory is a list of bytes, addresses are offsets
from the start of the caller's buffer; a store outside the modelled memory is `none`. -/
def writeByte (mem : List Nat) (p b : Nat) : Option (List Nat) :=
  if p < mem.length then some (mem.set p b) else none

/-- Library function `snprintf(mem + off, n, ...)` that formats to `text`: at most `n - 1`
bytes of the text and a terminating NUL are stored when `n > 0`; the result is the length of
the whole text. -/
def snprintf (mem : List Nat) (off n : Nat) (text : List Nat) : Option (List Nat × Nat) :=
  if n = 0 then some (mem, text.length)
  else if off + ((text.take (n - 1)).length + 1) ≤ mem.length then
    some (mem.take off ++ (text.take (n - 1) ++ [0]) ++
      mem.drop (off + ((text.take (n - 1)).length + 1)), text.length)
  else none

/-- Library function `strlen` on the bytes from an address on; `none` when no NUL is found
in the modelled memory. -/
def strlen : List Nat → Option Nat
  | [] => none
  | b :: rest =>
    if b = 0 then some 0
    else
      match strlen rest with
      | none => none
      | some n => some (n + 1)

/-- The local variables `slots`, `maxchainlen`, `totchainlen` and `clvector` of
`_dictGetStatsHt`. -/
structure ChainStats where
  slots : Nat
  maxchainlen : Nat
  totchainlen : Nat
  clvector : List Nat

/-- The statement `clvector[i]++`. -/
def bump (v : List Nat) (i : Nat) : List Nat := v.set i (v.getD i 0 + 1)

/-- The loop `for (i = 0; i < ht->size; i++)` of `_dictGetStatsHt`, from the index `i` on;
the first argument is the number of passes left. -/
def statsLoop (entries : List (List (dictEntry K V))) : Nat → Nat → ChainStats → Option ChainStats
  | 0, _, st => some st
  | k + 1, i, st =>
    match entries[i]? with
    | none => none
    | some [] => statsLoop entries k (i + 1) { st with clvector := bump st.clvector 0 }
    | some (e :: rest) =>
      statsLoop entries k (i + 1)
        { slots := st.slots + 1,
          maxchainlen := if (e :: rest).length > st.maxchainlen then (e :: rest).length
            else st.maxchainlen,
          totchainlen := st.totchainlen + (e :: rest).length,
          clvector := bump st.clvector
            (if (e :: rest).length < DICT_STATS_VEC_SIZE then (e :: rest).length
              else DICT_STATS_VEC_SIZE - 1) }

/-- The text of the first `snprintf` of `_dictGetStatsHt`.  `fl a b` is the text `printf`
writes for `(float)a / b` under `%.02f`. -/
def headerText (fl : Nat → Nat → List Nat) (ht : dictht K V) (table : Nat) (st : ChainStats) :
    List Nat :=
  bytes "Hash table " ++ decimal table ++ bytes ":\n size: " ++ fmtLong ht.size ++
  bytes "\n filled: " ++ fmtLong ht.filled ++ bytes "\n different slots: " ++ fmtLong st.slots ++
  bytes "\n max chain length: " ++ fmtLong st.maxchainlen ++
  bytes "\n avg chain length (counted): " ++ fl st.totchainlen st.slots ++
  bytes "\n avg chain length (computed): " ++ fl ht.filled st.slots ++
  bytes "\n Chain length distribution:\n"

/-- The text of the `snprintf` in the distribution loop.  `fp a b` is the text `printf`
writes for `((float)a / b) * 100` under `%.02f`. -/
def lineText (fp : Nat → Nat → List Nat) (ht : dictht K V) (i c : Nat) : List Nat :=
  bytes "   " ++ (if i = DICT_STATS_VEC_SIZE - 1 then bytes ">= " else []) ++ fmtLong i ++
  bytes ": " ++ fmtLong c ++ bytes " (" ++ fp c ht.size ++ bytes "%)\n"

/-- The loop `for (i = 0; i < DICT_STATS_VEC_SIZE - 1; i++)` of `_dictGetStatsHt`, from the
index `i` on; the result is the memory and `l`. -/
def distLoop (fp : Nat → Nat → List Nat) (ht : dictht K V) (clv : List Nat) (off len : Nat) :
    Nat → Nat → List Nat → Nat → Option (List Nat × Nat)
  | 0, _, mem, l => some (mem, l)
  | k + 1, i, mem, l =>
    match clv[i]? with
    | none => none
    | some 0 => distLoop fp ht clv off len k (i + 1) mem l
    | some (c + 1) =>
      if l ≥ len then some (mem, l)
      else
        match snprintf mem ((off + l) % 2 ^ 64) (len - l) (lineText fp ht i (c + 1)) with
        | none => none
        | some (mem1, w) => distLoop fp ht clv off len k (i + 1) mem1 (l + w)

/-- Function `_dictGetStatsHt(ht, mem + off, len, table)`: the memory it leaves and the value
it returns. -/
def _dictGetStatsHt (fl fp : Nat → Nat → List Nat) (ht : dictht K V) (mem : List Nat)
    (off len table : Nat) : Option (List Nat × Nat) :=
  if ht.filled = 0 then snprintf mem off len (bytes "Empty dict.\n")
  else
    match statsLoop ht.entries ht.size 0
        { slots := 0, maxchainlen := 0, totchainlen := 0,
          clvector := List.replicate DICT_STATS_VEC_SIZE 0 } with
    | none => none
    | some st =>
      match snprintf mem off len (headerText fl ht table st) with
      | none => none
      | some (mem1, l) =>
        match distLoop fp ht st.clvector off len (DICT_STATS_VEC_SIZE - 1) 0 mem1 l with
        | none => none
        | some (mem2, _) =>
          match (if len ≠ 0 then writeByte mem2 ((off + len - 1) % 2 ^ 64) 0 else some mem2) with
          | none => none
          | some mem3 =>
            match strlen (mem3.drop off) with
            | none => none
            | some n => some (mem3, n)

/-- Function `dictStats(d, mem, len)`: the caller's buffer is the first `len` bytes of `mem`;
the result is the memory the call leaves and the value it returns.  Addresses are offsets
from the start of the buffer, reduced modulo `2^64` as `len -= l` and `buf + l` are. -/
def dictStats (fl fp : Nat → Nat → List Nat) (d : dict K V) (mem : List Nat) (len : Nat) :
    Option (List Nat × Int) :=
  match _dictGetStatsHt fl fp d.ht0 mem 0 len 0 with
  | none => none
  | some (mem1, l) =>
    match (if dictRehashing d && decide ((len + 2 ^ 64 - l % 2 ^ 64) % 2 ^ 64 > 0) then
        (match _dictGetStatsHt fl fp d.ht1 mem1 (l % 2 ^ 64)
            ((len + 2 ^ 64 - l % 2 ^ 64) % 2 ^ 64) 1 with
          | none => none
          | some (mem2, _) => some mem2)
        else some mem1) with
    | none => none
    | some mem2 =>
      if len ≠ 0 then
        match writeByte mem2 (len - 1) 0 with
        | none => none
        | some mem3 => some (mem3, 0)
      else some (mem2, 0)

/-- A rendering of `%.02f` for the quotient `a / b`, exact when the quotient has at most two
decimals (the only use made of it here). -/
def fixed2 (a b : Nat) : List Nat :=
  decimal (a * 100 / b / 100) ++ [46] ++ decimal (a * 100 / b % 100 / 10) ++
  decimal (a * 100 / b % 10)

/-- A rendering of `%.02f` for `(a / b) * 100`, exact when the percentage has at most two
decimals. -/
def percent2 (a b : Nat) : List Nat := fixed2 (a * 100) b

/-- The dictionary after `k` successive calls `rehash(d, 100)` that each returned 1; `none`
when one of these `k` calls returned 0 or crashed. -/
def unfinishedBatches : Nat → dict K V → Option (dict K V)
  | 0, d => some d
  | k + 1, d =>
    match rehash d 100 with
    | none => none
    | some (d1, r) => if r = 0 then none else unfinishedBatches k d1

/-! ## A concrete policy and concrete dictionaries

Keys and values are natural numbers, the hash of a key is the key itself and keys are
compared with `==`.  These instances are the inputs on which the statements below are
evaluated. -/

def natHash : Nat → Nat := fun k => k

def natCmp : Nat → Nat → Bool := fun a b => a == b

def natType : dictType Nat Nat :=
  { hashFn := some natHash, keyCmp := some natCmp, keyDup := none, valDup := none,
    keyDestructor := none, valDestructor := none }

/-- The dictionary `dictCreate(&natType)` returns. -/
def natEmpty : dict Nat Nat :=
  { type := natType, ht0 := resetht, ht1 := resetht, rehash := -1, iters := 0 }

/-- The dictionary after `dictAdd` of the keys 0, 1, 2, 3 with the values 0, 10, 20, 30:
the first table has 4 slots and 4 entries, no rehash is in progress. -/
def natFull : dict Nat Nat :=
  { type := natType,
    ht0 := { entries := [[⟨0, some 0⟩], [⟨1, some 10⟩], [⟨2, some 20⟩], [⟨3, some 30⟩]],
             size := 4, mask := 3, filled := 4 },
    ht1 := resetht, rehash := -1, iters := 0 }

/-- The dictionary `natFull` after `dictAdd` of the key 4 with the value 40: the insertion
started a rehash into a second table of 8 slots, which holds the new entry. -/
def natBusy : dict Nat Nat :=
  { type := natType,
    ht0 := { entries := [[⟨0, some 0⟩], [⟨1, some 10⟩], [⟨2, some 20⟩], [⟨3, some 30⟩]],
             size := 4, mask := 3, filled := 4 },
    ht1 := { entries := [[], [], [], [], [⟨4, some 40⟩], [], [], []],
             size := 8, mask := 7, filled := 1 },
    rehash := 0, iters := 0 }

/-- The dictionary `natBusy` once the rehash has been completed. -/
def natDone : dict Nat Nat :=
  { type := natType,
    ht0 := { entries := [[⟨0, some 0⟩], [⟨1, some 10⟩], [⟨2, some 20⟩], [⟨3, some 30⟩],
                         [⟨4, some 40⟩], [], [], []],
             size := 8, mask := 7, filled := 5 },
    ht1 := resetht, rehash := -1, iters := 0 }

/-- The dictionary `natFull` with a second table of 8 empty slots allocated and the rehash
cursor at 0: a rehash has been started and no entry has been moved yet. -/
def natStarted : dict Nat Nat :=
  { type := natType,
    ht0 := { entries := [[⟨0, some 0⟩], [⟨1, some 10⟩], [⟨2, some 20⟩], [⟨3, some 30⟩]],
             size := 4, mask := 3, filled := 4 },
    ht1 := { entries := [[], [], [], [], [], [], [], []], size := 8, mask := 7, filled := 0 },
    rehash := 0, iters := 0 }

/-- The dictionary `natBusy` while one cursor is active (`iters == 1`): the state after
`dictIteratorCreate` and a first `dictIteratorNext`. -/
def natBusyIter : dict Nat Nat :=
  { type := natType,
    ht0 := { entries := [[⟨0, some 0⟩], [⟨1, some 10⟩], [⟨2, some 20⟩], [⟨3, some 30⟩]],
             size := 4, mask := 3, filled := 4 },
    ht1 := { entries := [[], [], [], [], [⟨4, some 40⟩], [], [], []],
             size := 8, mask := 7, filled := 1 },
    rehash := 0, iters := 1 }

/-- The dictionary `natBusyIter` once the rehash has been completed, the cursor still
active. -/
def natDoneIter : dict Nat Nat :=
  { type := natType,
    ht0 := { entries := [[⟨0, some 0⟩], [⟨1, some 10⟩], [⟨2, some 20⟩], [⟨3, some 30⟩],
                         [⟨4, some 40⟩], [], [], []],
             size := 8, mask := 7, filled := 5 },
    ht1 := resetht, rehash := -1, iters := 1 }

/-- The dictionary `natBusy` after `dictEntryDelete` of the key 3: the rehash step of the
call has moved the slot 0. -/
def natHalf : dict Nat Nat :=
  { type := natType,
    ht0 := { entries := [[], [⟨1, some 10⟩], [⟨2, some 20⟩], []], size := 4, mask := 3, filled := 2 },
    ht1 := { entries := [[⟨0, some 0⟩], [], [], [], [⟨4, some 40⟩], [], [], []],
             size := 8, mask := 7, filled := 2 },
    rehash := 1, iters := 0 }

/-- The dictionary `natHalf` after `dictEntryDelete` of the key 2: the rehash step has moved
the slot 1 and the deletion has emptied the first table, which the rehash has not left
yet. -/
def natDrained : dict Nat Nat :=
  { type := natType,
    ht0 := { entries := [[], [], [], []], size := 4, mask := 3, filled := 0 },
    ht1 := { entries := [[⟨0, some 0⟩], [⟨1, some 10⟩], [], [], [⟨4, some 40⟩], [], [], []],
             size := 8, mask := 7, filled := 3 },
    rehash := 2, iters := 0 }

/-- A policy with a value duplicator: `valDup` returns its argument plus 1, so that the copy
a dictionary stores can be told from the value passed in. -/
def natDupType : dictType Nat Nat :=
  { hashFn := some natHash, keyCmp := some natCmp, keyDup := none,
    valDup := some (fun v => v + 1), keyDestructor := none, valDestructor := none }

/-- The dictionary `dictCreate(&natDupType)` returns. -/
def natDupEmpty : dict Nat Nat :=
  { type := natDupType, ht0 := resetht, ht1 := resetht, rehash := -1, iters := 0 }

/-- The dictionary `natDupEmpty` after `dictAdd` of the keys 0, 1, 2, 3 with the values 0,
10, 20, 30: the stored values are the copies 1, 11, 21, 31. -/
def natDupFull : dict Nat Nat :=
  { type := natDupType,
    ht0 := { entries := [[⟨0, some 1⟩], [⟨1, some 11⟩], [⟨2, some 21⟩], [⟨3, some 31⟩]],
             size := 4, mask := 3, filled := 4 },
    ht1 := resetht, rehash := -1, iters := 0 }

/-! ## Lists of chains -/

theorem chainSearch_spec (kc : K → K → Bool) (key : K) (c : List (dictEntry K V)) :
    (chainSearch (some kc) key c = some none ∧ ∀ e ∈ c, kc key e.key = false) ∨
    (∃ pre e post, c = pre ++ e :: post ∧ chainSearch (some kc) key c = some (some pre.length) ∧
      kc key e.key = true ∧ ∀ x ∈ pre, kc key x.key = false) := by
  induction c with
  | nil => left; simp [chainSearch]
  | cons a c ih =>
    by_cases h : kc key a.key = true
    · right
      exact ⟨[], a, c, rfl, by simp [chainSearch, h], h, by simp⟩
    · rcases ih with ⟨h1, h2⟩ | ⟨pre, e, post, h1, h2, h3, h4⟩
      · left
        refine ⟨by simp [chainSearch, h, h1], ?_⟩
        intro e he
        rcases List.mem_cons.1 he with rfl | he
        · simpa using h
        · exact h2 e he
      · right
        refine ⟨a :: pre, e, post, by simp [h1], by simp [chainSearch, h, h2], h3, ?_⟩
        intro x hx
        rcases List.mem_cons.1 hx with rfl | hx
        · simpa using h
        · exact h4 x hx

theorem flatten_split {α : Type} (L : List (List α)) (i : Nat) (c : List α) (h : L[i]? = some c) :
    L.flatten = (L.take i).flatten ++ c ++ (L.drop (i + 1)).flatten := by
  obtain ⟨hi, hc⟩ := List.getElem?_eq_some.1 h
  conv_lhs => rw [← List.take_append_drop i L, List.drop_eq_getElem_cons hi, hc]
  simp

theorem flatten_set {α : Type} (L : List (List α)) (i : Nat) (c : List α) (hi : i < L.length) :
    (L.set i c).flatten = (L.take i).flatten ++ c ++ (L.drop (i + 1)).flatten := by
  rw [List.set_eq_take_append_cons_drop, if_pos hi]
  simp

theorem flatten_replicate_nil {α : Type} (n : Nat) :
    (List.replicate n ([] : List α)).flatten = [] := by
  induction n with
  | zero => rfl
  | succ n ih => simp [List.replicate_succ, ih]

/-! ## Capacity rounding and expansion -/

theorem limitedHTSizeLoop_spec (size : Nat) (hs : size ≤ 2 ^ 63) :
    ∀ (fuel k : Nat), 2 ≤ k → k ≤ 63 → 63 - k < fuel →
      ∃ j, k ≤ j ∧ j ≤ 63 ∧ limitedHTSizeLoop fuel (2 ^ k) size = some (2 ^ j) ∧ size ≤ 2 ^ j ∧
        (j = k ∨ 2 ^ (j - 1) < size) := by
  intro fuel
  induction fuel with
  | zero => intro k _ _ h; omega
  | succ f ih =>
    intro k h2 h63 hf
    by_cases hge : 2 ^ k ≥ size
    · exact ⟨k, le_refl _, h63, by simp [limitedHTSizeLoop, hge], hge, Or.inl rfl⟩
    · have hlt : 2 ^ k < size := by omega
      have hk : k < 63 := by
        by_contra hc
        have : k = 63 := by omega
        subst this
        omega
      have hpow : (2 ^ k * 2) % 2 ^ 64 = 2 ^ (k + 1) := by
        rw [← pow_succ]
        apply Nat.mod_eq_of_lt
        exact Nat.pow_lt_pow_right (by norm_num) (by omega)
      obtain ⟨j, hj1, hj2, hj3, hj4, hj5⟩ := ih (k + 1) (by omega) (by omega) (by omega)
      refine ⟨j, by omega, hj2, ?_, hj4, ?_⟩
      · simp only [limitedHTSizeLoop, if_neg hge, hpow, hj3]
      · right
        rcases hj5 with h | h
        · subst h; simpa using hlt
        · exact h

theorem limitedHTSize_spec (size : Nat) :
    ∃ j, 2 ≤ j ∧ j ≤ 63 ∧ limitedHTSize size = some (2 ^ j) ∧
      (size < LONG_MAX → size ≤ 2 ^ j ∧ (j = 2 ∨ 2 ^ (j - 1) < size)) := by
  by_cases h : size ≥ LONG_MAX
  · refine ⟨63, by norm_num, le_refl _, ?_, fun h2 => absurd h (by omega)⟩
    simp only [limitedHTSize, if_pos h]
    norm_num [LONG_MAX]
  · have hs : size ≤ 2 ^ 63 := by
      simp only [LONG_MAX] at h
      omega
    obtain ⟨j, hj1, hj2, hj3, hj4, hj5⟩ := limitedHTSizeLoop_spec size hs 64 2 (le_refl _) (by norm_num) (by norm_num)
    refine ⟨j, hj1, hj2, ?_, fun _ => ⟨hj4, hj5⟩⟩
    simp only [limitedHTSize, if_neg h, DICT_HT_SIZE_MINIMUM]
    simpa using hj3

theorem newTable_ok (hf : K → Nat) (j : Nat) (h2 : 2 ≤ j) (h63 : j ≤ 63) :
    TableOK hf (newTable (2 ^ j) : dictht K V) := by
  have hpos : 0 < 2 ^ j := Nat.pos_pow_of_pos _ (by norm_num)
  have hle : 2 ^ j ≤ 2 ^ 63 := Nat.pow_le_pow_right (by norm_num) h63
  refine ⟨by simp [newTable], ?_, Or.inr ⟨j, h2, h63, rfl⟩, ?_, ?_⟩
  · show (2 ^ j + 2 ^ 64 - 1) % 2 ^ 64 = 2 ^ j - 1
    have : 2 ^ j + 2 ^ 64 - 1 = (2 ^ j - 1) + 2 ^ 64 := by omega
    rw [this, Nat.add_mod_right]
    apply Nat.mod_eq_of_lt
    omega
  · simp [newTable, flatten_replicate_nil]
  · intro i ch hch e he
    simp only [newTable, List.getElem?_replicate] at hch
    split at hch
    · cases hch; cases he
    · cases hch

theorem resetht_ok (hf : K → Nat) : TableOK hf (resetht : dictht K V) :=
  ⟨rfl, rfl, Or.inl rfl, rfl, by intro i ch h; simp [resetht] at h⟩

theorem dictRehashing_true {d : dict K V} : dictRehashing d = true ↔ d.rehash ≠ -1 := by
  simp [dictRehashing]

theorem dictRehashing_false {d : dict K V} : dictRehashing d = false ↔ d.rehash = -1 := by
  simp [dictRehashing]

theorem TableOK.four_le {hf : K → Nat} {ht : dictht K V} (h : TableOK hf ht) (hs : ht.size ≠ 0) :
    4 ≤ ht.size := by
  rcases h.pow2 with h0 | ⟨k, hk, _, he⟩
  · exact absurd h0 hs
  · rw [he]
    calc 4 = 2 ^ 2 := by norm_num
      _ ≤ 2 ^ k := Nat.pow_le_pow_right (by norm_num) hk

theorem TableOK.le_pow {hf : K → Nat} {ht : dictht K V} (h : TableOK hf ht) :
    ht.size ≤ 2 ^ 63 := by
  rcases h.pow2 with h0 | ⟨k, _, hk, he⟩
  · rw [h0]; exact Nat.zero_le _
  · rw [he]
    exact Nat.pow_le_pow_right (by norm_num) hk

theorem expand_fail_filled (d : dict K V) (size : Nat) (h : d.ht0.filled > size) :
    expand d size = some (d, -1) := by
  simp [expand, h]

theorem expand_fail_same (d : dict K V) (size sz : Nat) (hl : limitedHTSize size = some sz)
    (h : sz = d.ht0.size) : expand d size = some (d, -1) := by
  unfold expand
  split
  · rfl
  · simp [hl, h]

theorem expand_first (d : dict K V) (size sz : Nat) (hr : d.rehash = -1)
    (hfs : ¬ d.ht0.filled > size) (hl : limitedHTSize size = some sz) (h : sz ≠ d.ht0.size)
    (hnil : d.ht0.entries = []) : expand d size = some ({ d with ht0 := newTable sz }, 0) := by
  simp [expand, dictRehashing_false.2 hr, hfs, hl, h, hnil]

theorem expand_second (d : dict K V) (size sz : Nat) (hr : d.rehash = -1)
    (hfs : ¬ d.ht0.filled > size) (hl : limitedHTSize size = some sz) (h : sz ≠ d.ht0.size)
    (hnil : d.ht0.entries ≠ []) :
    expand d size = some ({ d with ht1 := newTable sz, rehash := 0 }, 0) := by
  have hie : d.ht0.entries.isEmpty = false := by
    cases hh : d.ht0.entries with
    | nil => exact absurd hh hnil
    | cons a l => rfl
  simp [expand, dictRehashing_false.2 hr, hfs, hl, h, hie]

theorem tryExpand_cases {hf : K → Nat} {kc : K → K → Bool} {d : dict K V} (hw : WF hf kc d) :
    (d.rehash ≠ -1 ∧ tryExpand d = some (d, 0)) ∨
    (d.rehash = -1 ∧ d.ht0.size = 0 ∧ tryExpand d = some ({ d with ht0 := newTable (2 ^ 2) }, 0)) ∨
    (d.rehash = -1 ∧ 0 < d.ht0.size ∧ d.ht0.filled < d.ht0.size ∧ tryExpand d = some (d, 0)) ∨
    (d.rehash = -1 ∧ 0 < d.ht0.size ∧ d.ht0.size ≤ d.ht0.filled ∧ ∃ j, 2 ≤ j ∧ j ≤ 63 ∧
      (d.ht0.filled < 2 ^ 62 → 2 * d.ht0.filled ≤ 2 ^ j ∧ 2 ^ (j - 1) < 2 * d.ht0.filled) ∧
      tryExpand d = some ({ d with ht1 := newTable (2 ^ j), rehash := 0 }, 0)) ∨
    (d.rehash = -1 ∧ 0 < d.ht0.size ∧ d.ht0.size ≤ d.ht0.filled ∧ 2 ^ 62 ≤ d.ht0.filled ∧
      tryExpand d = some (d, -1)) := by
  by_cases hr : d.rehash = -1
  · have hrf : dictRehashing d = false := dictRehashing_false.2 hr
    by_cases hs : d.ht0.size = 0
    · right; left
      have hlen := hw.t0.len
      rw [hs] at hlen
      have hnil : d.ht0.entries = [] := List.length_eq_zero.1 hlen
      have hfill : d.ht0.filled = 0 := by rw [hw.t0.filled, hnil]; rfl
      refine ⟨hr, hs, ?_⟩
      have h4 : limitedHTSize DICT_HT_SIZE_MINIMUM = some (2 ^ 2) := by
        simp [limitedHTSize, limitedHTSizeLoop, LONG_MAX, DICT_HT_SIZE_MINIMUM]
      have he := expand_first d DICT_HT_SIZE_MINIMUM (2 ^ 2) hr (by rw [hfill]; exact Nat.not_lt_zero _)
        h4 (by rw [hs]; norm_num) hnil
      simp only [tryExpand, hrf, hs, if_true, Bool.false_eq_true, if_false]
      exact he
    · have hpos : 0 < d.ht0.size := Nat.pos_of_ne_zero hs
      by_cases hfull : d.ht0.filled ≥ d.ht0.size
      · have hne : d.ht0.entries ≠ [] := by
          intro h
          have := hw.t0.len
          rw [h] at this
          simp at this
          omega
        have hte : tryExpand d = expand d ((d.ht0.filled * 2) % 2 ^ 64) := by
          simp only [tryExpand, hrf, hs, hfull, if_true, Bool.false_eq_true, if_false]
        rw [hte]
        generalize hsz : (d.ht0.filled * 2) % 2 ^ 64 = size
        obtain ⟨j, hj2, hj63, hj, hjb⟩ := limitedHTSize_spec size
        by_cases hbig : d.ht0.filled < 2 ^ 62
        · right; right; right; left
          have hmod : size = 2 * d.ht0.filled := by
            rw [← hsz, Nat.mod_eq_of_lt (by omega)]; ring
          have hb := hjb (by show size < 2 ^ 63 - 1; omega)
          have h4 := hw.t0.four_le hs
          have hjk : 2 ^ (j - 1) < 2 * d.ht0.filled := by
            rcases hb.2 with h | h
            · subst h
              norm_num
              omega
            · omega
          refine ⟨hr, hpos, hfull, j, hj2, hj63, fun _ => ⟨by omega, hjk⟩, ?_⟩
          exact expand_second d size (2 ^ j) hr (by omega) hj (by omega) hne
        · by_cases hfail : d.ht0.filled > size ∨ 2 ^ j = d.ht0.size
          · right; right; right; right
            refine ⟨hr, hpos, hfull, by omega, ?_⟩
            rcases hfail with h | h
            · exact expand_fail_filled d size h
            · exact expand_fail_same d size (2 ^ j) hj h
          · right; right; right; left
            push_neg at hfail
            refine ⟨hr, hpos, hfull, j, hj2, hj63, fun h => absurd h hbig, ?_⟩
            exact expand_second d size (2 ^ j) hr (by omega) hj hfail.2 hne
      · right; right; left
        refine ⟨hr, hpos, by omega, ?_⟩
        simp only [tryExpand, hrf, hs, hfull, if_true, Bool.false_eq_true, if_false]
  · left
    exact ⟨hr, by simp [tryExpand, dictRehashing_true.2 hr]⟩

theorem tryExpand_spec {hf : K → Nat} {kc : K → K → Bool} {d : dict K V} (hw : WF hf kc d) :
    ∃ d1 r, tryExpand d = some (d1, r) ∧ WF hf kc d1 ∧ d1.type = d.type ∧ d1.iters = d.iters ∧
      d1.ht0.entries.flatten = d.ht0.entries.flatten ∧
      d1.ht1.entries.flatten = d.ht1.entries.flatten ∧
      d1.ht0.filled = d.ht0.filled ∧ d1.ht1.filled = d.ht1.filled ∧
      (r = 0 ∨ (r = -1 ∧ d1 = d ∧ 2 ^ 62 ≤ d.ht0.filled)) ∧ (r = 0 → 0 < d1.ht0.size) ∧
      (d.rehash ≠ -1 → d1 = d) := by
  have hpos0 : d.rehash ≠ -1 → 0 < d.ht0.size := fun h => (hw.busy h).2.2.1
  rcases tryExpand_cases hw with ⟨hr, h⟩ | ⟨hr, hs, h⟩ | ⟨hr, hp, _, h⟩ | ⟨hr, hp, _, j, hj2, hj63, _, h⟩ |
    ⟨hr, hp, _, hb, h⟩
  · exact ⟨d, 0, h, hw, rfl, rfl, rfl, rfl, rfl, rfl, Or.inl rfl, fun _ => hpos0 hr, fun _ => rfl⟩
  · have hlen := hw.t0.len
    rw [hs] at hlen
    have hnil : d.ht0.entries = [] := List.length_eq_zero.1 hlen
    have hfill : d.ht0.filled = 0 := by rw [hw.t0.filled, hnil]; rfl
    have hfl : (newTable (2 ^ 2) : dictht K V).entries.flatten = d.ht0.entries.flatten := by
      rw [hnil]; exact flatten_replicate_nil _
    refine ⟨_, 0, h, ⟨newTable_ok hf 2 (le_refl _) (by norm_num), hw.t1, hw.idle,
      fun h2 => absurd hr h2, ?_⟩, rfl, rfl, hfl, rfl, hfill.symm, rfl, Or.inl rfl,
      fun _ => by show 0 < 2 ^ 2; norm_num, fun h2 => absurd hr h2⟩
    show ((newTable (2 ^ 2) : dictht K V).entries.flatten ++ d.ht1.entries.flatten).Pairwise _
    rw [hfl]
    exact hw.uniq
  · exact ⟨d, 0, h, hw, rfl, rfl, rfl, rfl, rfl, rfl, Or.inl rfl, fun _ => hp, fun _ => rfl⟩
  · have h1 := hw.idle hr
    have hfl : (newTable (2 ^ j) : dictht K V).entries.flatten = d.ht1.entries.flatten := by
      rw [h1]; exact flatten_replicate_nil _
    have hfill : d.ht1.filled = 0 := by rw [h1]; rfl
    refine ⟨_, 0, h, ⟨hw.t0, newTable_ok hf j hj2 hj63, fun h2 => by simp at h2,
      fun _ => ⟨le_refl _, by simp, hp, by show 0 < 2 ^ j; exact Nat.pos_pow_of_pos _ (by norm_num),
        fun i hi => by simp at hi; omega⟩, ?_⟩,
      rfl, rfl, rfl, hfl, rfl, hfill.symm, Or.inl rfl, fun _ => hp, fun h2 => absurd hr h2⟩
    show (d.ht0.entries.flatten ++ (newTable (2 ^ j) : dictht K V).entries.flatten).Pairwise _
    rw [hfl]
    exact hw.uniq
  · exact ⟨d, -1, h, hw, rfl, rfl, rfl, rfl, rfl, rfl, Or.inr ⟨rfl, rfl, hb⟩,
      fun h2 => by simp at h2, fun _ => rfl⟩

/-! ## Updating one slot of a table -/

theorem land_mask_lt {hf : K → Nat} {ht : dictht K V} (h : TableOK hf ht) (hs : 0 < ht.size)
    (x : Nat) : x &&& ht.mask < ht.entries.length := by
  have h1 : x &&& ht.mask ≤ ht.mask := Nat.and_le_right
  rw [h.len]
  have := h.mask
  omega

theorem slot_exists {hf : K → Nat} {ht : dictht K V} (h : TableOK hf ht) (hs : 0 < ht.size)
    (x : Nat) : ∃ ch, ht.entries[x &&& ht.mask]? = some ch :=
  ⟨_, List.getElem?_eq_getElem (land_mask_lt h hs x)⟩

theorem flatten_set_perm {α : Type} (L : List (List α)) (i : Nat) (c : List α)
    (hi : i < L.length) : ((L.set i c).flatten).Perm (c ++ (L.set i []).flatten) := by
  rw [flatten_set L i c hi, flatten_set L i [] hi]
  simp only [List.append_nil, List.append_assoc]
  exact List.perm_append_comm_assoc _ _ _

theorem flatten_perm_set_nil {α : Type} (L : List (List α)) (i : Nat) (c : List α)
    (h : L[i]? = some c) : (L.flatten).Perm (c ++ (L.set i []).flatten) := by
  obtain ⟨hi, _⟩ := List.getElem?_eq_some.1 h
  rw [flatten_split L i c h, flatten_set L i [] hi]
  simp only [List.append_nil, List.append_assoc]
  exact List.perm_append_comm_assoc _ _ _

theorem flatten_set_length {α : Type} (L : List (List α)) (i : Nat) (c c1 : List α)
    (h : L[i]? = some c) : (L.set i c1).flatten.length + c.length = L.flatten.length + c1.length := by
  obtain ⟨hi, _⟩ := List.getElem?_eq_some.1 h
  rw [flatten_split L i c h, flatten_set L i c1 hi]
  simp only [List.length_append]
  omega

theorem TableOK.set_slot {hf : K → Nat} {ht : dictht K V} (h : TableOK hf ht) (i : Nat)
    (c c1 : List (dictEntry K V)) (hc : ht.entries[i]? = some c)
    (hc1 : ∀ e ∈ c1, hf e.key &&& ht.mask = i) (fl : Nat)
    (hfl : fl + c.length = ht.filled + c1.length) :
    TableOK hf { entries := ht.entries.set i c1, size := ht.size, mask := ht.mask, filled := fl } := by
  obtain ⟨hi, _⟩ := List.getElem?_eq_some.1 hc
  refine ⟨by simp [h.len], h.mask, h.pow2, ?_, ?_⟩
  · have := flatten_set_length ht.entries i c c1 hc
    have := h.filled
    show fl = (ht.entries.set i c1).flatten.length
    omega
  · intro j ch hch e he
    by_cases hij : i = j
    · subst hij
      rw [List.getElem?_set, if_pos rfl, if_pos hi] at hch
      cases hch
      exact hc1 e he
    · rw [List.getElem?_set, if_neg hij] at hch
      exact h.slot j ch hch e he

theorem flatten_set_cons_perm {α : Type} (L : List (List α)) (i : Nat) (c : List α) (e : α)
    (h : L[i]? = some c) : ((L.set i (e :: c)).flatten).Perm (e :: L.flatten) := by
  obtain ⟨hi, _⟩ := List.getElem?_eq_some.1 h
  have h1 := flatten_set_perm L i (e :: c) hi
  have h2 := flatten_perm_set_nil L i c h
  exact h1.trans ((List.Perm.cons e h2.symm))

/-! ## The rehash step -/

theorem skipEmpty_spec (L : List (List (dictEntry K V))) :
    L.flatten ≠ [] → ∀ (r c : Int),
    ∃ (m : Nat) (b : Bool), skipEmpty L r c = some (r + m, c - m, b) ∧ m < L.length ∧
      (∀ j, j < m → L[j]? = some []) ∧ (b = false → ∃ ch, L[m]? = some ch ∧ ch ≠ []) ∧
      (b = true → 1 ≤ m) ∧
      (∀ j : Nat, 1 ≤ j → j ≤ m → (c - (j : Int) = 0 ↔ (b = true ∧ j = m))) := by
  induction L with
  | nil => intro h; exact absurd rfl h
  | cons x rest ih =>
    intro hne r c
    cases x with
    | cons a as =>
      refine ⟨0, false, by simp [skipEmpty], by simp, by simp, fun _ => ⟨a :: as, by simp, by simp⟩,
        by simp, ?_⟩
      intro j h1 h2
      omega
    | nil =>
      have hne2 : rest.flatten ≠ [] := by simpa using hne
      by_cases hc : c - 1 = 0
      · refine ⟨1, true, by simp [skipEmpty, hc], ?_, ?_, by simp, by simp, ?_⟩
        · cases rest with
          | nil => exact absurd rfl hne2
          | cons y ys => simp
        · intro j hj
          have : j = 0 := by omega
          subst this
          simp
        · intro j h1 h2
          have : j = 1 := by omega
          subst this
          simp [hc]
      · obtain ⟨m, b, h1, h2, h3, h4, h5, h6⟩ := ih hne2 (r + 1) (c - 1)
        refine ⟨m + 1, b, ?_, by simp; omega, ?_, ?_, fun _ => by omega, ?_⟩
        · simp only [skipEmpty, if_neg hc, h1]
          simp only [Nat.cast_add, Nat.cast_one]
          congr 2
          · ring
          · congr 1
            ring
        · intro j hj
          cases j with
          | zero => simp
          | succ j => simpa using h3 j (by omega)
        · intro hb
          obtain ⟨ch, hch, hne3⟩ := h4 hb
          exact ⟨ch, by simpa using hch, hne3⟩
        · intro j hj1 hj2
          by_cases hj : j = 1
          · subst hj
            constructor
            · intro h; exact absurd h hc
            · rintro ⟨hb, hm⟩
              have := (h5 hb)
              omega
          · have := h6 (j - 1) (by omega) (by omega)
            have hcast : ((j - 1 : Nat) : Int) = (j : Int) - 1 := by omega
            rw [hcast] at this
            have h7 : c - 1 - ((j : Int) - 1) = c - j := by ring
            rw [h7] at this
            rw [this]
            constructor
            · rintro ⟨hb, hm⟩; exact ⟨hb, by omega⟩
            · rintro ⟨hb, hm⟩; exact ⟨hb, by omega⟩

theorem rehashChain_spec {hf : K → Nat} (chain : List (dictEntry K V)) :
    ∀ (d : dict K V), d.type.hashFn = some hf → TableOK hf d.ht1 → 0 < d.ht1.size →
    ∃ d1, rehashChain d chain = some d1 ∧ d1.type = d.type ∧ d1.iters = d.iters ∧
      d1.rehash = d.rehash ∧
      d1.ht0 = { d.ht0 with filled := d.ht0.filled - chain.length } ∧ TableOK hf d1.ht1 ∧
      d1.ht1.size = d.ht1.size ∧
      (d1.ht1.entries.flatten).Perm (chain ++ d.ht1.entries.flatten) := by
  induction chain with
  | nil =>
    intro d _ ht1 _
    exact ⟨d, rfl, rfl, rfl, rfl, rfl, ht1, rfl, List.Perm.refl _⟩
  | cons e rest ih =>
    intro d hh ht1 hpos
    obtain ⟨c, hc⟩ := slot_exists ht1 hpos (hf e.key)
    have hok := ht1.set_slot (hf e.key &&& d.ht1.mask) c (e :: c) hc
      (by
        intro x hx
        rcases List.mem_cons.1 hx with rfl | hx
        · rfl
        · exact ht1.slot _ c hc x hx)
      (d.ht1.filled + 1) (by simp; omega)
    obtain ⟨d1, h1, h2, h3, h4, h5, h6, h7, h8⟩ := ih
      { d with
        ht1 := { d.ht1 with entries := d.ht1.entries.set (hf e.key &&& d.ht1.mask) (e :: c),
                            filled := d.ht1.filled + 1 },
        ht0 := { d.ht0 with filled := d.ht0.filled - 1 } } hh hok hpos
    refine ⟨d1, ?_, h2, h3, h4, ?_, h6, h7, ?_⟩
    · simp only [rehashChain, dictHashKeyGet, hh, hc]
      exact h1
    · rw [h5]
      simp only [List.length_cons]
      congr 1
      omega
    · refine h8.trans ?_
      have := flatten_set_cons_perm d.ht1.entries _ c e hc
      refine (List.Perm.append_left rest this).trans ?_
      exact List.perm_middle

theorem Lawful.rel_symm {ty : dictType K V} {hf : K → Nat} {kc : K → K → Bool}
    (hL : Lawful ty hf kc) {x y : dictEntry K V} (h : kc x.key y.key = false) :
    kc y.key x.key = false := by
  cases hyx : kc y.key x.key with
  | false => rfl
  | true => rw [hL.symm _ _ hyx] at h; cases h

theorem uniq_of_perm {ty : dictType K V} {hf : K → Nat} {kc : K → K → Bool}
    (hL : Lawful ty hf kc) {l1 l2 : List (dictEntry K V)} (hp : l1.Perm l2)
    (h : l2.Pairwise (fun a b => kc a.key b.key = false)) :
    l1.Pairwise (fun a b => kc a.key b.key = false) :=
  (hp.pairwise_iff (fun hxy => hL.rel_symm hxy)).2 h

theorem take_flatten_nil {α : Type} (L : List (List α)) (m : Nat)
    (h : ∀ j, j < m → L[j]? = some []) (hm : m ≤ L.length) : (L.take m).flatten = [] := by
  induction m generalizing L with
  | zero => simp
  | succ m ih =>
    cases L with
    | nil => simp
    | cons x xs =>
      have hx : x = [] := by simpa using h 0 (by omega)
      subst hx
      simp only [List.take_succ_cons, List.flatten_cons, List.nil_append]
      apply ih
      · intro j hj
        simpa using h (j + 1) (by omega)
      · simpa using hm

theorem asUInt64_of_nonneg (z : Int) (h0 : 0 ≤ z) (h1 : z < 2 ^ 64) : asUInt64 z = z.toNat := by
  unfold asUInt64
  rw [Int.emod_eq_of_lt h0 h1]

theorem relocate_spec {hf : K → Nat} {kc : K → K → Bool} {d : dict K V}
    (hL : Lawful d.type hf kc) (hw : WF hf kc d) (hr : d.rehash ≠ -1) (p : Nat)
    (hp : p < d.ht0.size) (hpre : ∀ j, j < p → d.ht0.entries[j]? = some [])
    (ch : List (dictEntry K V)) (hch : d.ht0.entries[p]? = some ch) :
    ∃ d1, rehashChain { d with rehash := (p : Int) } ch = some d1 ∧
      WF hf kc { d1 with ht0 := { d1.ht0 with entries := d1.ht0.entries.set p [] },
                         rehash := (p : Int) + 1 } ∧
      d1.type = d.type ∧ d1.iters = d.iters ∧ d1.ht0.size = d.ht0.size ∧
      d1.ht1.size = d.ht1.size ∧
      d1.ht0.filled + ch.length = d.ht0.filled ∧
      d1.ht0.entries = d.ht0.entries ∧
      ((d1.ht0.entries.set p []).flatten ++ d1.ht1.entries.flatten).Perm (allEntries d) := by
  have hb := hw.busy hr
  obtain ⟨d1, h1, h2, h3, h4, h5, h6, h7, h8⟩ :=
    @rehashChain_spec K V hf ch { d with rehash := (p : Int) } hL.hash_eq hw.t1 hb.2.2.2.1
  have hlen := flatten_set_length d.ht0.entries p ch [] hch
  have hfl := hw.t0.filled
  have hle : ch.length ≤ d.ht0.filled := by
    simp only [List.length_nil] at hlen
    omega
  have hperm : ((d.ht0.entries.set p []).flatten ++ d1.ht1.entries.flatten).Perm (allEntries d) := by
    have ha := flatten_perm_set_nil d.ht0.entries p ch hch
    unfold allEntries
    refine (List.Perm.append_left _ h8).trans ?_
    refine List.Perm.trans ?_ (List.Perm.append_right _ ha.symm)
    rw [← List.append_assoc]
    exact List.Perm.append_right _ List.perm_append_comm
  have hent : d1.ht0.entries = d.ht0.entries := by rw [h5]
  refine ⟨d1, h1, ⟨?_, h6, ?_, ?_, ?_⟩, h2, h3, by rw [h5], h7, by rw [h5]; simp; omega, hent, ?_⟩
  · rw [h5]
    exact hw.t0.set_slot p ch [] hch (by simp) _ (by simp; omega)
  · intro h
    simp only at h
    omega
  · intro _
    refine ⟨by simp only; omega, ?_, ?_, ?_, ?_⟩
    · show (p : Int) + 1 ≤ ((d1.ht0.size : Nat) : Int)
      rw [h5]
      simp only
      omega
    · rw [h5]; exact hb.2.2.1
    · rw [h7]; exact hb.2.2.2.1
    · intro j hj
      simp only at hj
      show (d1.ht0.entries.set p [])[j]? = some []
      rw [hent, List.getElem?_set]
      by_cases hjp : p = j
      · subst hjp
        rw [if_pos rfl, if_pos (by rw [hw.t0.len]; exact hp)]
      · rw [if_neg hjp]
        exact hpre j (by omega)
  · show ((d1.ht0.entries.set p []).flatten ++ d1.ht1.entries.flatten).Pairwise _
    rw [hent]
    exact uniq_of_perm hL hperm hw.uniq
  · rw [hent]
    exact hperm

theorem rehashLoop_spec {hf : K → Nat} {kc : K → K → Bool} :
    ∀ (n : Nat) (d : dict K V) (cnt : Int), Lawful d.type hf kc → WF hf kc d → d.rehash ≠ -1 →
    ∃ d1 b, rehashLoop n d cnt = some (d1, b) ∧ WF hf kc d1 ∧ d1.rehash ≠ -1 ∧
      d1.type = d.type ∧ d1.iters = d.iters ∧ (allEntries d1).Perm (allEntries d) ∧
      d1.ht0.size = d.ht0.size ∧ d1.ht1.size = d.ht1.size ∧ d.rehash ≤ d1.rehash ∧
      (b = true → d1.ht0.filled ≠ 0) ∧ (1 ≤ n → d.ht0.filled ≠ 0 → d.rehash < d1.rehash) := by
  intro n
  induction n with
  | zero =>
    intro d cnt _ hw hr
    exact ⟨d, false, rfl, hw, hr, rfl, rfl, List.Perm.refl _, rfl, rfl, le_refl _, by simp,
      fun h => by omega⟩
  | succ n ih =>
    intro d cnt hL hw hr
    by_cases hz : d.ht0.filled = 0
    · exact ⟨d, false, by simp [rehashLoop, hz], hw, hr, rfl, rfl, List.Perm.refl _, rfl, rfl,
        le_refl _, by simp, fun _ h => absurd hz h⟩
    · obtain ⟨hb0, hb1, hb2, hb3, hb4⟩ := hw.busy hr
      obtain ⟨q, hq⟩ := Int.eq_ofNat_of_zero_le hb0
      have hqle : q ≤ d.ht0.size := by omega
      have hpre : ∀ j, j < q → d.ht0.entries[j]? = some [] := fun j hj => hb4 j (by omega)
      have hlen := hw.t0.len
      have htake := take_flatten_nil d.ht0.entries q hpre (by omega)
      have hsplit : d.ht0.entries.flatten = (d.ht0.entries.drop q).flatten := by
        conv_lhs => rw [← List.take_append_drop q d.ht0.entries]
        rw [List.flatten_append, htake, List.nil_append]
      have hne : (d.ht0.entries.drop q).flatten ≠ [] := by
        intro h
        rw [h] at hsplit
        have := hw.t0.filled
        rw [hsplit] at this
        exact hz this
      have hqlt : q < d.ht0.size := by
        by_contra hc
        have : d.ht0.entries.drop q = [] := List.drop_eq_nil_of_le (by omega)
        rw [this] at hne
        exact hne rfl
      have h63 := hw.t0.le_pow
      have hassert : d.ht0.size > asUInt64 d.rehash := by
        rw [asUInt64_of_nonneg _ hb0 (by omega), hq]
        simpa using hqlt
      obtain ⟨m, b, hs1, hs2, hs3, hs4, hs5, _⟩ := skipEmpty_spec _ hne d.rehash cnt
      have hm : q + m < d.ht0.size := by
        simp only [List.length_drop] at hs2
        omega
      have hpre2 : ∀ j, j < q + m → d.ht0.entries[j]? = some [] := by
        intro j hj
        by_cases hjq : j < q
        · exact hpre j hjq
        · have := hs3 (j - q) (by omega)
          rw [List.getElem?_drop] at this
          rwa [show q + (j - q) = j by omega] at this
      have hcur : d.rehash + (m : Int) = ((q + m : Nat) : Int) := by
        rw [hq]; simp
      have htn : d.rehash.toNat = q := by rw [hq]; simp
      cases b with
      | true =>
        refine ⟨{ d with rehash := d.rehash + m }, true, ?_, ⟨hw.t0, hw.t1, ?_, ?_, hw.uniq⟩, ?_,
          rfl, rfl, List.Perm.refl _, rfl, rfl, ?_, fun _ => hz, fun _ _ => ?_⟩
        · simp only [rehashLoop, if_neg hz, hassert, not_true_eq_false, if_false, htn, hs1]
        · intro h; simp only at h; omega
        · intro _
          refine ⟨by simp only; omega, by simp only; omega, hb2, hb3, ?_⟩
          intro j hj
          simp only at hj
          exact hpre2 j (by omega)
        · simp only; omega
        · simp only; omega
        · have := hs5 rfl
          simp only
          omega
      | false =>
        obtain ⟨ch, hch, hchne⟩ := hs4 rfl
        rw [List.getElem?_drop] at hch
        obtain ⟨d1, hr1, hr2, hr3, hr4, hr5, hr6, hr7, hr8, hr9⟩ :=
          relocate_spec hL hw hr (q + m) hm hpre2 ch hch
        have hL2 : Lawful d1.type hf kc := by rw [hr3]; exact hL
        obtain ⟨d2, b2, hi1, hi2, hi3, hi4, hi5, hi6, hi7, hi8, hi9, hi10, _⟩ :=
          ih { d1 with ht0 := { d1.ht0 with entries := d1.ht0.entries.set (q + m) [] },
                       rehash := ((q + m : Nat) : Int) + 1 } (cnt - m) hL2 hr2 (by simp only; omega)
        refine ⟨d2, b2, ?_, hi2, hi3, hi4.trans hr3, hi5.trans hr4, hi6.trans hr9, hi7.trans hr5,
          hi8.trans hr6, ?_, hi10, fun _ _ => ?_⟩
        · simp only [rehashLoop, if_neg hz, hassert, not_true_eq_false, if_false, htn, hs1]
          have hidx : ((q + m : Nat) : Int).toNat = q + m := by omega
          simp only [hcur, hidx, hch, hr1]
          exact hi1
        · simp only at hi9; omega
        · simp only at hi9; omega

theorem rehash_spec {hf : K → Nat} {kc : K → K → Bool} {d : dict K V}
    (hL : Lawful d.type hf kc) (hw : WF hf kc d) (n : Nat) :
    ∃ d1 r, rehash d n = some (d1, r) ∧ WF hf kc d1 ∧ d1.type = d.type ∧ d1.iters = d.iters ∧
      (allEntries d1).Perm (allEntries d) ∧ (r = 0 ∨ r = 1) ∧ (r = 0 → d1.rehash = -1) ∧
      (r = 1 → d1.rehash ≠ -1 ∧ d.rehash ≠ -1 ∧ d1.ht0.size = d.ht0.size ∧
        d.rehash ≤ d1.rehash ∧ (1 ≤ n → d.rehash < d1.rehash) ∧ d1.ht0.filled ≠ 0) ∧
      (d.rehash = -1 → d1 = d ∧ r = 0) ∧ (0 < d.ht0.size → 0 < d1.ht0.size) := by
  by_cases hr : d.rehash = -1
  · refine ⟨d, 0, by simp [rehash, dictRehashing_false.2 hr], hw, rfl, rfl, List.Perm.refl _,
      Or.inl rfl, fun _ => hr, fun h => by simp at h, fun _ => ⟨rfl, rfl⟩, fun h => h⟩
  · have hrt : dictRehashing d = true := dictRehashing_true.2 hr
    obtain ⟨d1, b, h1, h2, h3, h4, h5, h6, h7, h8, h9, h10, h11⟩ :=
      rehashLoop_spec n d ((n : Int) * 10) hL hw hr
    have hdone : ∀ (hz : d1.ht0.filled = 0),
        WF hf kc { d1 with ht0 := d1.ht1, ht1 := resetht, rehash := -1 } ∧
        (allEntries ({ d1 with ht0 := d1.ht1, ht1 := resetht, rehash := -1 } : dict K V)).Perm
          (allEntries d1) := by
      intro hz
      have hnil : d1.ht0.entries.flatten = [] := by
        have := h2.t0.filled
        rw [hz] at this
        exact List.length_eq_zero.1 this.symm
      have hp : (allEntries ({ d1 with ht0 := d1.ht1, ht1 := resetht, rehash := -1 } : dict K V)).Perm
          (allEntries d1) := by
        show (d1.ht1.entries.flatten ++ (resetht : dictht K V).entries.flatten).Perm
          (d1.ht0.entries.flatten ++ d1.ht1.entries.flatten)
        rw [hnil]
        simp [resetht]
      refine ⟨⟨h2.t1, resetht_ok hf, fun _ => rfl, fun h => absurd rfl h, ?_⟩, hp⟩
      have hL1 : Lawful d1.type hf kc := by rw [h4]; exact hL
      exact uniq_of_perm hL1 hp h2.uniq
    cases b with
    | true =>
      refine ⟨d1, 1, by simp [rehash, hrt, h1], h2, h4, h5, h6, Or.inr rfl, fun h => by simp at h,
        fun _ => ⟨h3, hr, h7, h9, fun hn => ?_, h10 rfl⟩, fun h => absurd h hr,
        fun h => by rw [h7]; exact h⟩
      by_cases hz : d.ht0.filled = 0
      · exfalso
        cases n with
        | zero => simp [rehashLoop] at h1
        | succ n => simp [rehashLoop, hz] at h1
      · exact h11 hn hz
    | false =>
      by_cases hz : d1.ht0.filled = 0
      · obtain ⟨hwf, hp⟩ := hdone hz
        refine ⟨_, 0, by simp [rehash, hrt, h1, hz], hwf, h4, h5, hp.trans h6, Or.inl rfl,
          fun _ => rfl, fun h => by simp at h, fun h => absurd h hr, fun _ => ?_⟩
        show 0 < d1.ht1.size
        exact (h2.busy h3).2.2.2.1
      · refine ⟨d1, 1, by simp [rehash, hrt, h1, hz], h2, h4, h5, h6, Or.inr rfl,
          fun h => by simp at h, fun _ => ⟨h3, hr, h7, h9, fun hn => ?_, hz⟩, fun h => absurd h hr,
          fun h => by rw [h7]; exact h⟩
        by_cases hz0 : d.ht0.filled = 0
        · exfalso
          cases n with
          | zero =>
            simp only [rehashLoop, Option.some.injEq, Prod.mk.injEq] at h1
            rw [← h1.1] at hz
            exact hz hz0
          | succ n =>
            simp only [rehashLoop, hz0, if_true, Option.some.injEq, Prod.mk.injEq] at h1
            rw [← h1.1] at hz
            exact hz hz0
        · exact h11 hn hz0

theorem rehashStepIfRehashing_spec {hf : K → Nat} {kc : K → K → Bool} {d : dict K V}
    (hL : Lawful d.type hf kc) (hw : WF hf kc d) :
    ∃ d1, rehashStepIfRehashing d = some d1 ∧ WF hf kc d1 ∧ d1.type = d.type ∧
      d1.iters = d.iters ∧ (allEntries d1).Perm (allEntries d) ∧
      (d.rehash = -1 → d1 = d) ∧ (d.iters ≠ 0 → d1 = d) ∧ (0 < d.ht0.size → 0 < d1.ht0.size) := by
  by_cases hr : d.rehash = -1
  · exact ⟨d, by simp [rehashStepIfRehashing, dictRehashing_false.2 hr], hw, rfl, rfl,
      List.Perm.refl _, fun _ => rfl, fun _ => rfl, fun h => h⟩
  · by_cases hi : d.iters = 0
    · obtain ⟨d1, r, h1, h2, h3, h4, h5, _, _, _, _, h6⟩ := rehash_spec hL hw 1
      exact ⟨d1, by simp [rehashStepIfRehashing, dictRehashing_true.2 hr, rehashStep, hi, h1],
        h2, h3, h4, h5, fun h => absurd h hr, fun h => absurd hi h, h6⟩
    · exact ⟨d, by simp [rehashStepIfRehashing, dictRehashing_true.2 hr, rehashStep, hi], hw, rfl,
        rfl, List.Perm.refl _, fun _ => rfl, fun _ => rfl, fun h => h⟩

/-! ## Where an entry can be -/

theorem mem_flatten_of_slot {α : Type} (L : List (List α)) (i : Nat) (c : List α) (x : α)
    (h : L[i]? = some c) (hx : x ∈ c) : x ∈ L.flatten := by
  obtain ⟨hi, hc⟩ := List.getElem?_eq_some.1 h
  exact List.mem_flatten.2 ⟨c, by rw [← hc]; exact List.getElem_mem _, hx⟩

theorem TableOK.mem_slot {hf : K → Nat} {ht : dictht K V} (h : TableOK hf ht)
    (e : dictEntry K V) (he : e ∈ ht.entries.flatten) :
    ∃ ch, ht.entries[hf e.key &&& ht.mask]? = some ch ∧ e ∈ ch := by
  obtain ⟨l, hl, hel⟩ := List.mem_flatten.1 he
  obtain ⟨i, hi, hli⟩ := List.getElem_of_mem hl
  have hs : ht.entries[i]? = some l := by rw [List.getElem?_eq_getElem hi, hli]
  have := h.slot i l hs e hel
  rw [this]
  exact ⟨l, hs, hel⟩

theorem TableOK.absent_of_slot {ty : dictType K V} {hf : K → Nat} {kc : K → K → Bool}
    (hL : Lawful ty hf kc) {ht : dictht K V} (h : TableOK hf ht) (k : K)
    (ch : List (dictEntry K V)) (hch : ht.entries[hf k &&& ht.mask]? = some ch)
    (hno : ∀ e ∈ ch, kc k e.key = false) : ∀ e ∈ ht.entries.flatten, kc k e.key = false := by
  intro e he
  cases hk : kc k e.key with
  | false => rfl
  | true =>
    obtain ⟨c2, hc2, hec⟩ := h.mem_slot e he
    rw [← hL.hash_congr k e.key hk, hch] at hc2
    cases hc2
    rw [hno e hec] at hk
    cases hk

theorem WF.key_unique {hf : K → Nat} {kc : K → K → Bool} {d : dict K V}
    (hL : Lawful d.type hf kc) (hw : WF hf kc d) (k : K) (e1 e2 : dictEntry K V)
    (h1 : e1 ∈ allEntries d) (h2 : e2 ∈ allEntries d) (hk1 : kc k e1.key = true)
    (hk2 : kc k e2.key = true) : e1 = e2 := by
  by_contra hne
  have hs : Symmetric (fun a b : dictEntry K V => kc a.key b.key = false) :=
    fun x y hxy => hL.rel_symm hxy
  have := hw.uniq.forall hs h1 h2 hne
  rw [hL.trans _ _ _ (hL.symm _ _ hk1) hk2] at this
  cases this

theorem getElem?_length_append {α : Type} (pre : List α) (e : α) (post : List α) :
    (pre ++ e :: post)[pre.length]? = some e := by
  induction pre with
  | nil => simp
  | cons a l ih => simpa using ih

theorem findInTable_spec {kc : K → K → Bool} (d : dict K V) (t : Nat) (key : K) (h : Nat)
    (hk : d.type.keyCmp = some kc) (ch : List (dictEntry K V))
    (hc : (getHt d t).entries[h &&& (getHt d t).mask]? = some ch) :
    (findInTable d t key h = some none ∧ ∀ e ∈ ch, kc key e.key = false) ∨
    (∃ pre e post, ch = pre ++ e :: post ∧ kc key e.key = true ∧
      (∀ x ∈ pre, kc key x.key = false) ∧ findInTable d t key h = some (some e)) := by
  rcases chainSearch_spec kc key ch with ⟨h1, h2⟩ | ⟨pre, e, post, h1, h2, h3, h4⟩
  · left
    exact ⟨by simp [findInTable, hc, hk, h1], h2⟩
  · right
    refine ⟨pre, e, post, h1, h3, h4, ?_⟩
    have : ch[pre.length]? = some e := by rw [h1]; exact getElem?_length_append _ _ _
    simp only [findInTable, hc, hk, h2, this]

theorem dictFind_spec {hf : K → Nat} {kc : K → K → Bool} {d : dict K V}
    (hL : Lawful d.type hf kc) (hw : WF hf kc d) (k : K) :
    ∃ d1 r, dictFind d k = some (d1, r) ∧ WF hf kc d1 ∧ d1.type = d.type ∧ d1.iters = d.iters ∧
      (allEntries d1).Perm (allEntries d) ∧ (d.rehash = -1 → d1 = d) ∧ (d.iters ≠ 0 → d1 = d) ∧
      ((r = none ∧ ∀ e ∈ allEntries d, kc k e.key = false) ∨
       (∃ e, r = some e ∧ e ∈ allEntries d ∧ kc k e.key = true)) := by
  by_cases hz : dictFilled d = 0
  · refine ⟨d, none, by simp [dictFind, hz], hw, rfl, rfl, List.Perm.refl _, fun _ => rfl,
      fun _ => rfl, Or.inl ⟨rfl, ?_⟩⟩
    intro e he
    have h0 := hw.t0.filled
    have h1 := hw.t1.filled
    have : (allEntries d).length = 0 := by
      unfold dictFilled at hz
      simp only [allEntries, List.length_append]
      omega
    rw [List.length_eq_zero.1 this] at he
    cases he
  · obtain ⟨d1, hs1, hw1, ht1, hi1, hp1, hsame, hsame2, hpos⟩ := rehashStepIfRehashing_spec hL hw
    have hL1 : Lawful d1.type hf kc := by rw [ht1]; exact hL
    have hsz : 0 < d.ht0.size := by
      by_cases hr : d.rehash = -1
      · have h1 := hw.idle hr
        have hf1 : d.ht1.filled = 0 := by rw [h1]; rfl
        have hf0 : d.ht0.filled ≠ 0 := by
          unfold dictFilled at hz
          omega
        by_contra hc
        have hlen := hw.t0.len
        have : d.ht0.entries = [] := List.length_eq_zero.1 (by omega)
        have := hw.t0.filled
        simp_all
      · exact (hw.busy hr).2.2.1
    have hsz1 := hpos hsz
    obtain ⟨c0, hc0⟩ := slot_exists hw1.t0 hsz1 (hf k)
    have hmem : ∀ e, e ∈ allEntries d1 ↔ e ∈ allEntries d := fun e => hp1.mem_iff
    have hpre : dictFind d k =
        (match findInTable d1 0 k (hf k) with
          | none => none
          | some (some e) => some (d1, some e)
          | some none =>
            if !dictRehashing d1 then some (d1, none)
            else
              match findInTable d1 1 k (hf k) with
              | none => none
              | some r => some (d1, r)) := by
      simp [dictFind, hz, hs1, dictHashKeyGet, hL1.hash_eq]
    rcases findInTable_spec d1 0 k (hf k) hL1.cmp_eq c0 (by simpa [getHt] using hc0) with
      ⟨hf0, hno0⟩ | ⟨pre, e, post, hce, hke, _, hf0⟩
    · have habs0 := hw1.t0.absent_of_slot hL1 k c0 hc0 hno0
      by_cases hr1 : d1.rehash = -1
      · refine ⟨d1, none, ?_, hw1, ht1, hi1, hp1, hsame, hsame2, Or.inl ⟨rfl, ?_⟩⟩
        · rw [hpre, hf0]
          simp [dictRehashing_false.2 hr1]
        · intro e he
          have he1 := (hmem e).2 he
          have h1 := hw1.idle hr1
          simp only [allEntries, h1, resetht, List.flatten_nil, List.append_nil] at he1
          exact habs0 e he1
      · have hb := hw1.busy hr1
        obtain ⟨c1, hc1⟩ := slot_exists hw1.t1 hb.2.2.2.1 (hf k)
        rcases findInTable_spec d1 1 k (hf k) hL1.cmp_eq c1 (by simpa [getHt] using hc1) with
          ⟨hf1, hno1⟩ | ⟨pre, e, post, hce, hke, _, hf1⟩
        · have habs1 := hw1.t1.absent_of_slot hL1 k c1 hc1 hno1
          refine ⟨d1, none, ?_, hw1, ht1, hi1, hp1, hsame, hsame2, Or.inl ⟨rfl, ?_⟩⟩
          · rw [hpre, hf0]
            simp [dictRehashing_true.2 hr1, hf1]
          · intro e he
            have he1 := (hmem e).2 he
            rcases List.mem_append.1 he1 with h | h
            · exact habs0 e h
            · exact habs1 e h
        · refine ⟨d1, some e, ?_, hw1, ht1, hi1, hp1, hsame, hsame2, Or.inr ⟨e, rfl, ?_, hke⟩⟩
          · rw [hpre, hf0]
            simp [dictRehashing_true.2 hr1, hf1]
          · apply (hmem e).1
            apply List.mem_append_right
            exact mem_flatten_of_slot _ _ c1 e hc1 (by rw [hce]; simp)
    · refine ⟨d1, some e, ?_, hw1, ht1, hi1, hp1, hsame, hsame2, Or.inr ⟨e, rfl, ?_, hke⟩⟩
      · rw [hpre, hf0]
      · apply (hmem e).1
        apply List.mem_append_left
        exact mem_flatten_of_slot _ _ c0 e hc0 (by rw [hce]; simp)

/-! ## Replacing the chain of one slot in the dictionary -/

theorem allEntries_setHt_perm (d : dict K V) (t i : Nat) (c c1 : List (dictEntry K V)) (fl : Nat)
    (hc : (getHt d t).entries[i]? = some c) :
    ∃ rest, (allEntries d).Perm (c ++ rest) ∧
      (allEntries (setHt d t (withSlot (getHt d t) i c1 fl))).Perm (c1 ++ rest) := by
  obtain ⟨hi, _⟩ := List.getElem?_eq_some.1 hc
  by_cases ht : t = 0
  · subst ht
    simp only [getHt, if_true] at hc hi
    refine ⟨(d.ht0.entries.set i []).flatten ++ d.ht1.entries.flatten, ?_, ?_⟩
    · rw [← List.append_assoc]
      exact List.Perm.append_right _ (flatten_perm_set_nil _ i c hc)
    · simp only [setHt, getHt, if_true, allEntries, withSlot]
      rw [← List.append_assoc]
      exact List.Perm.append_right _ (flatten_set_perm _ i c1 hi)
  · simp only [getHt, if_neg ht] at hc hi
    refine ⟨d.ht0.entries.flatten ++ (d.ht1.entries.set i []).flatten, ?_, ?_⟩
    · refine (List.Perm.append_left _ (flatten_perm_set_nil _ i c hc)).trans ?_
      exact List.perm_append_comm_assoc _ _ _
    · simp only [setHt, getHt, if_neg ht, allEntries, withSlot]
      refine (List.Perm.append_left _ (flatten_set_perm _ i c1 hi)).trans ?_
      exact List.perm_append_comm_assoc _ _ _

theorem WF.setSlot {hf : K → Nat} {kc : K → K → Bool} {d : dict K V} (hw : WF hf kc d)
    (t i : Nat) (c c1 : List (dictEntry K V)) (fl : Nat)
    (hc : (getHt d t).entries[i]? = some c)
    (hc1 : ∀ e ∈ c1, hf e.key &&& (getHt d t).mask = i)
    (hfl : fl + c.length = (getHt d t).filled + c1.length)
    (hcur : t = 0 → d.rehash ≠ -1 → c ≠ [] ∨ c1 = [])
    (hu : (allEntries (setHt d t (withSlot (getHt d t) i c1 fl))).Pairwise
        (fun a b => kc a.key b.key = false)) :
    WF hf kc (setHt d t (withSlot (getHt d t) i c1 fl)) := by
  obtain ⟨hi, hci⟩ := List.getElem?_eq_some.1 hc
  by_cases ht : t = 0
  · subst ht
    simp only [getHt, if_true] at hc hi hc1 hfl hci
    have hok := hw.t0.set_slot i c c1 hc hc1 fl hfl
    refine ⟨hok, hw.t1, hw.idle, ?_, hu⟩
    intro hr
    obtain ⟨h1, h2, h3, h4, h5⟩ := hw.busy hr
    refine ⟨h1, h2, h3, h4, ?_⟩
    intro j hj
    have hjs := h5 j hj
    show (d.ht0.entries.set i c1)[j]? = some []
    by_cases hij : i = j
    · subst hij
      rw [hc] at hjs
      cases hjs
      rcases hcur rfl hr with h | h
      · exact absurd rfl h
      · rw [List.getElem?_set, if_pos rfl, if_pos hi, h]
    · rw [List.getElem?_set, if_neg hij]
      exact hjs
  · simp only [getHt, if_neg ht] at hc hi hc1 hfl hci
    have hok := hw.t1.set_slot i c c1 hc hc1 fl hfl
    have hr : d.rehash ≠ -1 := by
      intro h
      have := hw.idle h
      rw [this] at hi
      simp [resetht] at hi
    have hsame : setHt d t (withSlot (getHt d t) i c1 fl) =
        { d with ht1 := withSlot d.ht1 i c1 fl } := by
      simp [setHt, getHt, ht]
    rw [hsame] at hu ⊢
    exact ⟨hw.t0, hok, fun h => absurd h hr, fun _ => hw.busy hr, hu⟩

theorem asInt64_of_lt (n : Nat) (h : n < 2 ^ 63) : asInt64 n = (n : Int) := by
  unfold asInt64
  have : n % 2 ^ 64 = n := Nat.mod_eq_of_lt (by omega)
  rw [this, if_pos h]

theorem setHt_type (d : dict K V) (t : Nat) (ht : dictht K V) : (setHt d t ht).type = d.type := by
  unfold setHt; split <;> rfl

theorem setHt_iters (d : dict K V) (t : Nat) (ht : dictht K V) : (setHt d t ht).iters = d.iters := by
  unfold setHt; split <;> rfl

theorem setHt_rehash (d : dict K V) (t : Nat) (ht : dictht K V) :
    (setHt d t ht).rehash = d.rehash := by
  unfold setHt; split <;> rfl

theorem getHt_setHt (d : dict K V) (t : Nat) (ht : dictht K V) : getHt (setHt d t ht) t = ht := by
  unfold setHt getHt; split <;> simp_all

/-! ## Insertion -/

theorem getExistingOrIndex_spec {hf : K → Nat} {kc : K → K → Bool} {d : dict K V}
    (hL : Lawful d.type hf kc) (hw : WF hf kc d) (k : K) (ex : Bool) :
    ∃ d1 r, tryExpand d = some (d1, r) ∧ WF hf kc d1 ∧ d1.type = d.type ∧ d1.iters = d.iters ∧
      allEntries d1 = allEntries d ∧
      ((r = -1 ∧ d1 = d ∧ 2 ^ 62 ≤ d.ht0.filled ∧
          getExistingOrIndex d k (hf k) ex = some (d1, -1, none)) ∨
       (r = 0 ∧ ∃ t i pre e post, (t = 0 ∨ t = 1) ∧
          (getHt d1 t).entries[i]? = some (pre ++ e :: post) ∧ kc k e.key = true ∧
          getExistingOrIndex d k (hf k) ex =
            some (d1, -1, if ex then some ⟨t, i, pre.length⟩ else none)) ∨
       (r = 0 ∧ (∀ e ∈ allEntries d, kc k e.key = false) ∧
          ∃ ch, (getHt d1 (if dictRehashing d1 then 1 else 0)).entries[
              hf k &&& (getHt d1 (if dictRehashing d1 then 1 else 0)).mask]? = some ch ∧
            getExistingOrIndex d k (hf k) ex =
              some (d1, ((hf k &&& (getHt d1 (if dictRehashing d1 then 1 else 0)).mask : Nat) : Int),
                none))) := by
  obtain ⟨d1, r, h1, hw1, ht1, hi1, hf0, hf1, _, _, hr, hpos, _⟩ := tryExpand_spec hw
  have hL1 : Lawful d1.type hf kc := by rw [ht1]; exact hL
  have hall : allEntries d1 = allEntries d := by unfold allEntries; rw [hf0, hf1]
  refine ⟨d1, r, h1, hw1, ht1, hi1, hall, ?_⟩
  rcases hr with hr0 | ⟨hr1, hd, hb⟩
  · subst hr0
    have hsz := hpos rfl
    obtain ⟨c0, hc0⟩ := slot_exists hw1.t0 hsz (hf k)
    have hlt0 : hf k &&& d1.ht0.mask < 2 ^ 63 := by
      have := land_mask_lt hw1.t0 hsz (hf k)
      have := hw1.t0.len
      have := hw1.t0.le_pow
      omega
    rcases chainSearch_spec kc k c0 with ⟨hs0, hno0⟩ | ⟨pre, e, post, hce, hs0, hke, _⟩
    · have habs0 := hw1.t0.absent_of_slot hL1 k c0 hc0 hno0
      by_cases hr1 : d1.rehash = -1
      · right; right
        have hrf := dictRehashing_false.2 hr1
        refine ⟨rfl, ?_, c0, ?_, ?_⟩
        · intro e he
          rw [← hall] at he
          have h1 := hw1.idle hr1
          simp only [allEntries, h1, resetht, List.flatten_nil, List.append_nil] at he
          exact habs0 e he
        · simpa [hrf, getHt] using hc0
        · simp [getExistingOrIndex, h1, hc0, hL1.cmp_eq, hs0, hrf, getHt, asInt64_of_lt _ hlt0]
      · have hrt := dictRehashing_true.2 hr1
        have hb := hw1.busy hr1
        obtain ⟨c1, hc1⟩ := slot_exists hw1.t1 hb.2.2.2.1 (hf k)
        have hlt1 : hf k &&& d1.ht1.mask < 2 ^ 63 := by
          have := land_mask_lt hw1.t1 hb.2.2.2.1 (hf k)
          have := hw1.t1.len
          have := hw1.t1.le_pow
          omega
        rcases chainSearch_spec kc k c1 with ⟨hs1, hno1⟩ | ⟨pre, e, post, hce, hs1, hke, _⟩
        · right; right
          have habs1 := hw1.t1.absent_of_slot hL1 k c1 hc1 hno1
          refine ⟨rfl, ?_, c1, ?_, ?_⟩
          · intro e he
            rw [← hall] at he
            rcases List.mem_append.1 he with h | h
            · exact habs0 e h
            · exact habs1 e h
          · simpa [hrt, getHt] using hc1
          · simp [getExistingOrIndex, h1, hc0, hL1.cmp_eq, hs0, hrt, hc1, hs1, getHt,
              asInt64_of_lt _ hlt1]
        · right; left
          refine ⟨rfl, 1, _, pre, e, post, Or.inr rfl, by simpa [getHt, hce] using hc1, hke, ?_⟩
          simp [getExistingOrIndex, h1, hc0, hL1.cmp_eq, hs0, hrt, hc1, hs1]
    · right; left
      refine ⟨rfl, 0, _, pre, e, post, Or.inl rfl, by simpa [getHt, hce] using hc0, hke, ?_⟩
      simp [getExistingOrIndex, h1, hc0, hL1.cmp_eq, hs0]
  · left
    subst hr1
    exact ⟨rfl, hd, hb, by simp [getExistingOrIndex, h1]⟩

theorem Lawful.keySet_cmp {hf : K → Nat} {kc : K → K → Bool} {d : dict K V}
    (hL : Lawful d.type hf kc) (k : K) : kc (dictKeySet d k) k = true := by
  unfold dictKeySet
  cases h : d.type.keyDup with
  | none => exact hL.refl k
  | some f => exact hL.dup f h k

theorem dictKeySet_congr {d d1 : dict K V} (h : d1.type = d.type) (k : K) :
    dictKeySet d1 k = dictKeySet d k := by
  unfold dictKeySet; rw [h]

theorem dictValStored_congr {d d1 : dict K V} (h : d1.type = d.type) (v : V) :
    dictValStored d1 v = dictValStored d v := by
  unfold dictValStored; rw [h]

theorem WF.tableOK {hf : K → Nat} {kc : K → K → Bool} {d : dict K V} (hw : WF hf kc d) (t : Nat) :
    TableOK hf (getHt d t) := by
  unfold getHt; split
  · exact hw.t0
  · exact hw.t1

theorem uniq_of_keys_perm {ty : dictType K V} {hf : K → Nat} {kc : K → K → Bool}
    (hL : Lawful ty hf kc) {l1 l2 : List (dictEntry K V)}
    (hp : (l1.map (fun e => e.key)).Perm (l2.map (fun e => e.key)))
    (h : l2.Pairwise (fun a b => kc a.key b.key = false)) :
    l1.Pairwise (fun a b => kc a.key b.key = false) := by
  have h2 : (l2.map (fun e => e.key)).Pairwise (fun a b => kc a b = false) :=
    List.pairwise_map.2 h
  have hs : ∀ {x y : K}, kc x y = false → kc y x = false := by
    intro x y hxy
    cases hyx : kc y x with
    | false => rfl
    | true => rw [hL.symm _ _ hyx] at hxy; cases hxy
  exact List.pairwise_map.1 ((hp.pairwise_iff hs).2 h2)

theorem uniq_cons {ty : dictType K V} {hf : K → Nat} {kc : K → K → Bool}
    (hL : Lawful ty hf kc) (k : K) (e : dictEntry K V) (l : List (dictEntry K V))
    (hk : kc e.key k = true) (hno : ∀ x ∈ l, kc k x.key = false)
    (h : l.Pairwise (fun a b => kc a.key b.key = false)) :
    (e :: l).Pairwise (fun a b => kc a.key b.key = false) := by
  refine List.pairwise_cons.2 ⟨?_, h⟩
  intro x hx
  cases hex : kc e.key x.key with
  | false => rfl
  | true =>
    have := hL.trans _ _ _ (hL.symm _ _ hk) hex
    rw [hno x hx] at this
    cases this

theorem dictAddKeyOrGetExistingEntry_spec {hf : K → Nat} {kc : K → K → Bool} {d : dict K V}
    (hL : Lawful d.type hf kc) (hw : WF hf kc d) (k : K) (ex : Bool) :
    ∃ d1 r ex1, dictAddKeyOrGetExistingEntry d k ex = some (d1, r, ex1) ∧ WF hf kc d1 ∧
      d1.type = d.type ∧ d1.iters = d.iters ∧
      ((r = none ∧ ex1 = none ∧ 2 ^ 62 ≤ d.ht0.filled + d.ht1.filled ∧
          (allEntries d1).Perm (allEntries d)) ∨
       (r = none ∧ (∃ e ∈ allEntries d, kc k e.key = true) ∧ (allEntries d1).Perm (allEntries d) ∧
          (ex = false → ex1 = none) ∧
          (ex = true → ∃ t i pre e post, (getHt d1 t).entries[i]? = some (pre ++ e :: post) ∧
            kc k e.key = true ∧ ex1 = some ⟨t, i, pre.length⟩)) ∨
       (∃ t i ch, r = some ⟨t, i, 0⟩ ∧ ex1 = none ∧ (∀ e ∈ allEntries d, kc k e.key = false) ∧
          (getHt d1 t).entries[i]? = some ({ key := dictKeySet d k, val := none } :: ch) ∧
          (allEntries d1).Perm ({ key := dictKeySet d k, val := none } :: allEntries d))) := by
  obtain ⟨d0, hs0, hw0, ht0, hi0, hp0, _, _, _⟩ := rehashStepIfRehashing_spec hL hw
  have hL0 : Lawful d0.type hf kc := by rw [ht0]; exact hL
  have hmem : ∀ e, e ∈ allEntries d0 ↔ e ∈ allEntries d := fun e => hp0.mem_iff
  obtain ⟨d1, r, h1, hw1, ht1, hi1, hall, hcase⟩ := getExistingOrIndex_spec hL0 hw0 k ex
  have hL1 : Lawful d1.type hf kc := by rw [ht1]; exact hL0
  have hpre : dictAddKeyOrGetExistingEntry d k ex =
      (match getExistingOrIndex d0 k (hf k) ex with
        | none => none
        | some (d2, i, ex2) =>
          if i = -1 then some (d2, none, ex2)
          else if i < 0 then none
          else
            match (getHt d2 (if dictRehashing d2 then 1 else 0)).entries[i.toNat]? with
            | none => none
            | some c =>
              some (setHt d2 (if dictRehashing d2 then 1 else 0)
                { (getHt d2 (if dictRehashing d2 then 1 else 0)) with
                  entries := (getHt d2 (if dictRehashing d2 then 1 else 0)).entries.set i.toNat
                    ({ key := dictKeySet d2 k, val := none } :: c),
                  filled := (getHt d2 (if dictRehashing d2 then 1 else 0)).filled + 1 },
                some ⟨if dictRehashing d2 then 1 else 0, i.toNat, 0⟩, ex2)) := by
    simp only [dictAddKeyOrGetExistingEntry, hs0, dictHashKeyGet, hL0.hash_eq]
  rcases hcase with ⟨_, hd, hb, hg⟩ | ⟨_, t, i, pre, e, post, _, hc, hke, hg⟩ | ⟨_, hno, ch, hc, hg⟩
  · refine ⟨d1, none, none, by rw [hpre, hg]; simp, hw1, ht1.trans ht0, hi1.trans hi0,
      Or.inl ⟨rfl, rfl, ?_, by rw [hall]; exact hp0⟩⟩
    have h0 := hw0.t0.filled
    have h1 := hw.t0.filled
    have h2 := hw.t1.filled
    have := hp0.length_eq
    simp only [allEntries, List.length_append] at this
    omega
  · refine ⟨d1, none, (if ex then some ⟨t, i, pre.length⟩ else none), by rw [hpre, hg]; simp, hw1,
      ht1.trans ht0, hi1.trans hi0,
      Or.inr (Or.inl ⟨rfl, ⟨e, ?_, hke⟩, by rw [hall]; exact hp0, fun h => by simp [h],
        fun h => ⟨t, i, pre, e, post, hc, hke, by simp [h]⟩⟩)⟩
    apply (hmem e).1
    rw [← hall]
    have : e ∈ (getHt d1 t).entries.flatten :=
      mem_flatten_of_slot _ _ _ e hc (by simp)
    unfold getHt at this
    split at this
    · exact List.mem_append_left _ this
    · exact List.mem_append_right _ this
  · generalize htt : (if dictRehashing d1 then 1 else 0) = tt at hc hg
    have hidx : ((hf k &&& (getHt d1 tt).mask : Nat) : Int).toNat = hf k &&& (getHt d1 tt).mask := by
      omega
    have hnn : ¬ ((hf k &&& (getHt d1 tt).mask : Nat) : Int) = -1 := by omega
    have hn0 : ¬ ((hf k &&& (getHt d1 tt).mask : Nat) : Int) < 0 := by omega
    have hks : dictKeySet d1 k = dictKeySet d k := dictKeySet_congr (ht1.trans ht0) k
    have hno1 : ∀ x ∈ allEntries d1, kc k x.key = false := by
      intro x hx
      rw [hall] at hx
      exact hno x hx
    obtain ⟨rest, hpa, hpb⟩ := allEntries_setHt_perm d1 tt (hf k &&& (getHt d1 tt).mask) ch
      ({ key := dictKeySet d k, val := none } :: ch) ((getHt d1 tt).filled + 1) hc
    have hperm1 : (allEntries (setHt d1 tt (withSlot (getHt d1 tt) (hf k &&& (getHt d1 tt).mask)
        ({ key := dictKeySet d k, val := none } :: ch) ((getHt d1 tt).filled + 1)))).Perm
        ({ key := dictKeySet d k, val := none } :: allEntries d1) := by
      refine hpb.trans ?_
      simp only [List.cons_append]
      exact List.Perm.cons _ hpa.symm
    have hwf := hw1.setSlot tt (hf k &&& (getHt d1 tt).mask) ch
      ({ key := dictKeySet d k, val := none } :: ch) ((getHt d1 tt).filled + 1) hc
      (by
        intro x hx
        rcases List.mem_cons.1 hx with rfl | hx
        · show hf (dictKeySet d k) &&& (getHt d1 tt).mask = _
          rw [hL.hash_congr _ _ (hL.keySet_cmp k)]
        · exact (hw1.tableOK tt).slot _ ch hc x hx)
      (by simp only [List.length_cons]; omega)
      (by
        intro h0 hr
        rw [← htt] at h0
        rw [dictRehashing_true.2 hr] at h0
        simp at h0)
      (uniq_of_perm hL1 hperm1 (uniq_cons hL1 k _ _ (hL.keySet_cmp k) hno1 hw1.uniq))
    refine ⟨_, some ⟨tt, hf k &&& (getHt d1 tt).mask, 0⟩, none, ?_, hwf, ?_, ?_,
      Or.inr (Or.inr ⟨tt, _, ch, rfl, rfl, ?_, ?_, ?_⟩)⟩
    · rw [hpre, hg]
      simp only [hnn, hn0, if_false, htt, hidx, hc, hks]
      rfl
    · rw [setHt_type]; exact ht1.trans ht0
    · rw [setHt_iters]; exact hi1.trans hi0
    · intro x hx; exact hno x ((hmem x).2 hx)
    · rw [getHt_setHt]
      simp only [withSlot]
      obtain ⟨hi, _⟩ := List.getElem?_eq_some.1 hc
      rw [List.getElem?_set, if_pos rfl, if_pos hi]
    · refine hperm1.trans ?_
      rw [hall]
      exact List.Perm.cons _ hp0

theorem set_length_append {α : Type} (pre : List α) (e e1 : α) (post : List α) :
    (pre ++ e :: post).set pre.length e1 = pre ++ e1 :: post := by
  induction pre with
  | nil => simp
  | cons a l ih => simp [ih]

theorem eraseIdx_length_append {α : Type} (pre : List α) (e : α) (post : List α) :
    (pre ++ e :: post).eraseIdx pre.length = pre ++ post := by
  induction pre with
  | nil => simp
  | cons a l ih => simp [ih]

theorem dictValSet_spec {hf : K → Nat} {kc : K → K → Bool} {d : dict K V}
    (hL : Lawful d.type hf kc) (hw : WF hf kc d) (t i : Nat) (pre : List (dictEntry K V))
    (e : dictEntry K V) (post : List (dictEntry K V)) (v : V)
    (hc : (getHt d t).entries[i]? = some (pre ++ e :: post)) :
    ∃ d1, dictValSet d ⟨t, i, pre.length⟩ v = some d1 ∧ WF hf kc d1 ∧ d1.type = d.type ∧
      d1.iters = d.iters ∧ d1.rehash = d.rehash ∧
      d1 = setHt d t (withSlot (getHt d t) i
        (pre ++ { key := e.key, val := some (dictValStored d v) } :: post) (getHt d t).filled) ∧
      ∃ rest, (allEntries d).Perm (e :: rest) ∧
        (allEntries d1).Perm ({ key := e.key, val := some (dictValStored d v) } :: rest) := by
  obtain ⟨rest, hpa, hpb⟩ := allEntries_setHt_perm d t i (pre ++ e :: post)
    (pre ++ { key := e.key, val := some (dictValStored d v) } :: post) (getHt d t).filled hc
  have hkeys : ((pre ++ { key := e.key, val := some (dictValStored d v) } :: post ++ rest).map
      (fun x => x.key)) = ((pre ++ e :: post ++ rest).map (fun x => x.key)) := by
    simp
  have hu : (allEntries (setHt d t (withSlot (getHt d t) i
      (pre ++ { key := e.key, val := some (dictValStored d v) } :: post)
      (getHt d t).filled))).Pairwise (fun a b => kc a.key b.key = false) := by
    apply uniq_of_keys_perm hL _ hw.uniq
    refine (hpb.map _).trans ?_
    rw [hkeys]
    exact (hpa.map _).symm
  have hwf := hw.setSlot t i (pre ++ e :: post)
    (pre ++ { key := e.key, val := some (dictValStored d v) } :: post) (getHt d t).filled hc
    (by
      intro x hx
      have hs := (hw.tableOK t).slot i _ hc
      rcases List.mem_append.1 hx with h | h
      · exact hs x (List.mem_append_left _ h)
      · rcases List.mem_cons.1 h with rfl | h
        · exact hs e (by simp)
        · exact hs x (by simp [h]))
    (by simp)
    (fun _ _ => Or.inl (by simp))
    hu
  refine ⟨_, ?_, hwf, setHt_type _ _ _, setHt_iters _ _ _, setHt_rehash _ _ _, rfl,
    pre ++ post ++ rest, ?_, ?_⟩
  · simp only [dictValSet, hc, getElem?_length_append, set_length_append]
    rfl
  · refine hpa.trans ?_
    simp only [List.append_assoc, List.cons_append]
    exact List.perm_middle
  · refine hpb.trans ?_
    simp only [List.append_assoc, List.cons_append]
    exact List.perm_middle

theorem dictFilled_eq_length {hf : K → Nat} {kc : K → K → Bool} {d : dict K V}
    (hw : WF hf kc d) : dictFilled d = (allEntries d).length := by
  unfold dictFilled allEntries
  rw [List.length_append, hw.t0.filled, hw.t1.filled]

theorem dictAdd_spec {hf : K → Nat} {kc : K → K → Bool} {d : dict K V}
    (hL : Lawful d.type hf kc) (hw : WF hf kc d) (k : K) (v : V) :
    ∃ d1 r, dictAdd d k v = some (d1, r) ∧ WF hf kc d1 ∧ d1.type = d.type ∧
      d1.iters = d.iters ∧
      ((r = -1 ∧ 2 ^ 62 ≤ d.ht0.filled + d.ht1.filled ∧ (allEntries d1).Perm (allEntries d)) ∨
       (r = -1 ∧ (∃ e ∈ allEntries d, kc k e.key = true) ∧ (allEntries d1).Perm (allEntries d)) ∨
       (r = 0 ∧ (∀ e ∈ allEntries d, kc k e.key = false) ∧
          (allEntries d1).Perm
            ({ key := dictKeySet d k, val := some (dictValStored d v) } :: allEntries d))) := by
  obtain ⟨d1, r, ex1, h1, hw1, ht1, hi1, hcase⟩ := dictAddKeyOrGetExistingEntry_spec hL hw k false
  have hL1 : Lawful d1.type hf kc := by rw [ht1]; exact hL
  rcases hcase with ⟨hr, _, hb, hp⟩ | ⟨hr, hex, hp, _, _⟩ | ⟨t, i, ch, hr, _, hno, hc, hp⟩
  · subst hr
    exact ⟨d1, -1, by simp [dictAdd, h1], hw1, ht1, hi1, Or.inl ⟨rfl, hb, hp⟩⟩
  · subst hr
    exact ⟨d1, -1, by simp [dictAdd, h1], hw1, ht1, hi1, Or.inr (Or.inl ⟨rfl, hex, hp⟩)⟩
  · subst hr
    obtain ⟨d2, hv, hw2, ht2, hi2, _, _, rest, hpa, hpb⟩ :=
      dictValSet_spec hL1 hw1 t i [] { key := dictKeySet d k, val := none } ch v hc
    have hv2 : dictValSet d1 ⟨t, i, 0⟩ v = some d2 := by simpa using hv
    refine ⟨d2, 0, by simp [dictAdd, h1, hv2], hw2, ht2.trans ht1, hi2.trans hi1,
      Or.inr (Or.inr ⟨rfl, hno, ?_⟩)⟩
    rw [dictValStored_congr ht1] at hpb
    refine hpb.trans (List.Perm.cons _ ?_)
    exact (List.Perm.cons_inv (hpa.symm.trans hp))

/-! ## Update and deletion -/

theorem dictUpdateOrAdd_spec {hf : K → Nat} {kc : K → K → Bool} {d : dict K V}
    (hL : Lawful d.type hf kc) (hw : WF hf kc d) (k : K) (v : V) :
    (dictUpdateOrAdd d k v = none ∧ 2 ^ 62 ≤ d.ht0.filled + d.ht1.filled) ∨
    ∃ d1 r, dictUpdateOrAdd d k v = some (d1, r) ∧ WF hf kc d1 ∧ d1.type = d.type ∧
      d1.iters = d.iters ∧
      ((r = 1 ∧ (∀ e ∈ allEntries d, kc k e.key = false) ∧
          (allEntries d1).Perm
            ({ key := dictKeySet d k, val := some (dictValStored d v) } :: allEntries d)) ∨
       (r = 0 ∧ ∃ e rest, kc k e.key = true ∧ (allEntries d).Perm (e :: rest) ∧
          (allEntries d1).Perm ({ key := e.key, val := some (dictValStored d v) } :: rest))) := by
  obtain ⟨d1, r, ex1, h1, hw1, ht1, hi1, hcase⟩ := dictAddKeyOrGetExistingEntry_spec hL hw k true
  have hL1 : Lawful d1.type hf kc := by rw [ht1]; exact hL
  rcases hcase with ⟨hr, he, hb, _⟩ | ⟨hr, _, hp, _, hex⟩ | ⟨t, i, ch, hr, _, hno, hc, hp⟩
  · subst hr; subst he
    left
    exact ⟨by simp [dictUpdateOrAdd, h1], hb⟩
  · subst hr
    obtain ⟨t, i, pre, e, post, hc, hke, he1⟩ := hex rfl
    subst he1
    obtain ⟨d2, hv, hw2, ht2, hi2, _, _, rest, hpa, hpb⟩ :=
      dictValSet_spec hL1 hw1 t i pre e post v hc
    right
    refine ⟨d2, 0, by simp [dictUpdateOrAdd, h1, hv], hw2, ht2.trans ht1, hi2.trans hi1,
      Or.inr ⟨rfl, e, rest, hke, hp.symm.trans hpa, ?_⟩⟩
    rw [dictValStored_congr ht1] at hpb
    exact hpb
  · subst hr
    obtain ⟨d2, hv, hw2, ht2, hi2, _, _, rest, hpa, hpb⟩ :=
      dictValSet_spec hL1 hw1 t i [] { key := dictKeySet d k, val := none } ch v hc
    have hv2 : dictValSet d1 ⟨t, i, 0⟩ v = some d2 := by simpa using hv
    right
    refine ⟨d2, 1, by simp [dictUpdateOrAdd, h1, hv2], hw2, ht2.trans ht1, hi2.trans hi1,
      Or.inl ⟨rfl, hno, ?_⟩⟩
    rw [dictValStored_congr ht1] at hpb
    refine hpb.trans (List.Perm.cons _ ?_)
    exact (List.Perm.cons_inv (hpa.symm.trans hp))

theorem chainSearch_at (kc : K → K → Bool) (key : K) (pre : List (dictEntry K V))
    (e : dictEntry K V) (post : List (dictEntry K V)) (hpre : ∀ x ∈ pre, kc key x.key = false)
    (he : kc key e.key = true) :
    chainSearch (some kc) key (pre ++ e :: post) = some (some pre.length) := by
  induction pre with
  | nil => simp [chainSearch, he]
  | cons a l ih =>
    have ha : kc key a.key = false := hpre a (by simp)
    have := ih (fun x hx => hpre x (by simp [hx]))
    simp [chainSearch, ha, this]

theorem delete_slot {hf : K → Nat} {kc : K → K → Bool} {d : dict K V}
    (hL : Lawful d.type hf kc) (hw : WF hf kc d) (t i : Nat) (pre : List (dictEntry K V))
    (e : dictEntry K V) (post : List (dictEntry K V))
    (hc : (getHt d t).entries[i]? = some (pre ++ e :: post)) :
    WF hf kc (setHt d t (withSlot (getHt d t) i (pre ++ post) ((getHt d t).filled - 1))) ∧
    (allEntries d).Perm
      (e :: allEntries (setHt d t (withSlot (getHt d t) i (pre ++ post) ((getHt d t).filled - 1)))) := by
  obtain ⟨rest, hpa, hpb⟩ := allEntries_setHt_perm d t i (pre ++ e :: post) (pre ++ post)
    ((getHt d t).filled - 1) hc
  have hperm : (allEntries d).Perm
      (e :: allEntries (setHt d t (withSlot (getHt d t) i (pre ++ post) ((getHt d t).filled - 1)))) := by
    refine hpa.trans ?_
    refine List.Perm.trans ?_ (List.Perm.cons _ hpb.symm)
    simp only [List.append_assoc, List.cons_append]
    exact List.perm_middle
  have hge : 1 ≤ (getHt d t).filled := by
    have h1 := flatten_set_length (getHt d t).entries i (pre ++ e :: post) [] hc
    have h2 := (hw.tableOK t).filled
    simp only [List.length_append, List.length_cons, List.length_nil] at h1
    omega
  refine ⟨hw.setSlot t i (pre ++ e :: post) (pre ++ post) _ hc ?_ ?_ (fun _ _ => Or.inl (by simp)) ?_,
    hperm⟩
  · intro x hx
    have hs := (hw.tableOK t).slot i _ hc
    rcases List.mem_append.1 hx with h | h
    · exact hs x (List.mem_append_left _ h)
    · exact hs x (by simp [h])
  · simp only [List.length_append, List.length_cons]
    omega
  · have := uniq_of_perm hL hperm.symm hw.uniq
    exact (List.pairwise_cons.1 this).2

theorem deleteInTable_spec {kc : K → K → Bool} (d : dict K V) (t : Nat) (key : K) (h : Nat)
    (hk : d.type.keyCmp = some kc) (ch : List (dictEntry K V))
    (hc : (getHt d t).entries[h &&& (getHt d t).mask]? = some ch) :
    (deleteInTable d t key h = some none ∧ ∀ e ∈ ch, kc key e.key = false) ∨
    (∃ pre e post, ch = pre ++ e :: post ∧ kc key e.key = true ∧
      (∀ x ∈ pre, kc key x.key = false) ∧
      deleteInTable d t key h = some (some
        (setHt d t (withSlot (getHt d t) (h &&& (getHt d t).mask) (pre ++ post)
          ((getHt d t).filled - 1)), e))) := by
  rcases chainSearch_spec kc key ch with ⟨h1, h2⟩ | ⟨pre, e, post, h1, h2, h3, h4⟩
  · left
    exact ⟨by simp [deleteInTable, hc, hk, h1], h2⟩
  · right
    refine ⟨pre, e, post, h1, h3, h4, ?_⟩
    have h5 : ch[pre.length]? = some e := by rw [h1]; exact getElem?_length_append _ _ _
    have h6 : ch.eraseIdx pre.length = pre ++ post := by rw [h1]; exact eraseIdx_length_append _ _ _
    simp only [deleteInTable, hc, hk, h2, h5, h6]
    try rfl

theorem dictEntryDelete_spec {hf : K → Nat} {kc : K → K → Bool} {d : dict K V}
    (hL : Lawful d.type hf kc) (hw : WF hf kc d) (k : K) (nf : Bool) :
    ∃ d1 r, dictEntryDelete d k nf = some (d1, r) ∧ WF hf kc d1 ∧ d1.type = d.type ∧
      d1.iters = d.iters ∧
      ((r = none ∧ (∀ e ∈ allEntries d, kc k e.key = false) ∧
          (allEntries d1).Perm (allEntries d)) ∨
       (∃ e, r = some e ∧ kc k e.key = true ∧ (allEntries d).Perm (e :: allEntries d1))) := by
  by_cases hz : d.ht0.filled = 0 ∧ d.ht1.filled = 0
  · refine ⟨d, none, by simp [dictEntryDelete, hz], hw, rfl, rfl, Or.inl ⟨rfl, ?_, List.Perm.refl _⟩⟩
    intro e he
    have : (allEntries d).length = 0 := by
      rw [← dictFilled_eq_length hw]
      unfold dictFilled
      omega
    rw [List.length_eq_zero.1 this] at he
    cases he
  · obtain ⟨d1, hs1, hw1, ht1, hi1, hp1, _, _, hpos⟩ := rehashStepIfRehashing_spec hL hw
    have hL1 : Lawful d1.type hf kc := by rw [ht1]; exact hL
    have hsz : 0 < d.ht0.size := by
      by_cases hr : d.rehash = -1
      · have h1 := hw.idle hr
        have hf1 : d.ht1.filled = 0 := by rw [h1]; rfl
        have hf0 : d.ht0.filled ≠ 0 := fun h => hz ⟨h, hf1⟩
        by_contra hc
        have hlen := hw.t0.len
        have : d.ht0.entries = [] := List.length_eq_zero.1 (by omega)
        have := hw.t0.filled
        simp_all
      · exact (hw.busy hr).2.2.1
    have hsz1 := hpos hsz
    obtain ⟨c0, hc0⟩ := slot_exists hw1.t0 hsz1 (hf k)
    have hmem : ∀ e, e ∈ allEntries d1 ↔ e ∈ allEntries d := fun e => hp1.mem_iff
    have hpre : dictEntryDelete d k nf =
        (match deleteInTable d1 0 k (hf k) with
          | none => none
          | some (some (d2, e)) => some (d2, some e)
          | some none =>
            if !dictRehashing d1 then some (d1, none)
            else
              match deleteInTable d1 1 k (hf k) with
              | none => none
              | some (some (d2, e)) => some (d2, some e)
              | some none => some (d1, none)) := by
      unfold dictEntryDelete
      rw [if_neg hz]
      simp only [hs1, dictHashKeyGet, hL1.hash_eq]
      try rfl
    have hc0g : (getHt d1 0).entries[hf k &&& (getHt d1 0).mask]? = some c0 := hc0
    rcases deleteInTable_spec d1 0 k (hf k) hL1.cmp_eq c0 hc0g with
      ⟨hf0, hno0⟩ | ⟨pre, e, post, hce, hke, _, hf0⟩
    · have habs0 := hw1.t0.absent_of_slot hL1 k c0 hc0 hno0
      by_cases hr1 : d1.rehash = -1
      · refine ⟨d1, none, ?_, hw1, ht1, hi1, Or.inl ⟨rfl, ?_, hp1⟩⟩
        · rw [hpre, hf0]
          simp [dictRehashing_false.2 hr1]
        · intro e he
          have he1 := (hmem e).2 he
          have h1 := hw1.idle hr1
          simp only [allEntries, h1, resetht, List.flatten_nil, List.append_nil] at he1
          exact habs0 e he1
      · have hb := hw1.busy hr1
        obtain ⟨c1, hc1⟩ := slot_exists hw1.t1 hb.2.2.2.1 (hf k)
        have hc1g : (getHt d1 1).entries[hf k &&& (getHt d1 1).mask]? = some c1 := hc1
        rcases deleteInTable_spec d1 1 k (hf k) hL1.cmp_eq c1 hc1g with
          ⟨hf1, hno1⟩ | ⟨pre, e, post, hce, hke, _, hf1⟩
        · have habs1 := hw1.t1.absent_of_slot hL1 k c1 hc1 hno1
          refine ⟨d1, none, ?_, hw1, ht1, hi1, Or.inl ⟨rfl, ?_, hp1⟩⟩
          · rw [hpre, hf0]
            simp [dictRehashing_true.2 hr1, hf1]
          · intro e he
            have he1 := (hmem e).2 he
            rcases List.mem_append.1 he1 with h | h
            · exact habs0 e h
            · exact habs1 e h
        · subst hce
          obtain ⟨hwf, hperm⟩ := delete_slot hL1 hw1 1 _ pre e post hc1g
          refine ⟨_, some e, ?_, hwf, ?_, ?_, Or.inr ⟨e, rfl, hke, hp1.symm.trans hperm⟩⟩
          · rw [hpre, hf0]
            simp only [dictRehashing_true.2 hr1, hf1]
            rfl
          · rw [setHt_type]; exact ht1
          · rw [setHt_iters]; exact hi1
    · subst hce
      obtain ⟨hwf, hperm⟩ := delete_slot hL1 hw1 0 _ pre e post hc0g
      refine ⟨_, some e, ?_, hwf, ?_, ?_, Or.inr ⟨e, rfl, hke, hp1.symm.trans hperm⟩⟩
      · rw [hpre, hf0]
      · rw [setHt_type]; exact ht1
      · rw [setHt_iters]; exact hi1

/-! ## Every reachable dictionary satisfies the invariant -/

theorem WF.with_iters {hf : K → Nat} {kc : K → K → Bool} {d : dict K V} (hw : WF hf kc d)
    (n : Nat) : WF hf kc { d with iters := n } :=
  ⟨hw.t0, hw.t1, hw.idle, hw.busy, hw.uniq⟩

/-- The dictionary a pass of the cursor leaves: only `iters` can change, and it does on the
first advance of a fresh cursor. -/
theorem iterAdvance_dict (d : dict K V) (it : dictIterator K V) (d1 : dict K V)
    (it1 : dictIterator K V) (b : Bool) (h : iterAdvance d it = some (d1, it1, b)) :
    d1 = if (it.entry.isEmpty && iterFresh it) = true then
      { d with iters := (d.iters + 1) % 2 ^ 64 } else d := by
  unfold iterAdvance at h
  cases he : it.entry with
  | cons a l =>
    rw [he] at h
    simp only [Option.some.injEq, Prod.mk.injEq] at h
    simp [h.1]
  | nil =>
    rw [he] at h
    simp only at h
    simp only [List.isEmpty_nil, Bool.true_and]
    generalize (if iterFresh it = true then ({ d with iters := (d.iters + 1) % 2 ^ 64 } : dict K V)
      else d) = dd at h
    split at h
    · split at h
      · split at h
        · cases h
        · cases h; rfl
      · cases h; rfl
    · split at h
      · cases h
      · split at h
        · cases h
        · cases h; rfl

theorem dictIteratorNextLoop_dict : ∀ (fuel : Nat) (d : dict K V) (it : dictIterator K V)
    (d1 : dict K V) (it1 : dictIterator K V) (r : Option (dictEntry K V)),
    dictIteratorNextLoop fuel d it = some (d1, it1, r) →
    ∃ n, d1 = { d with iters := n } := by
  intro fuel
  induction fuel with
  | zero => intro d it d1 it1 r h; cases h
  | succ f ih =>
    intro d it d1 it1 r h
    unfold dictIteratorNextLoop at h
    split at h
    · cases h
    · rename_i d2 it2 hstep
      have := iterAdvance_dict _ _ _ _ _ hstep
      cases h
      rw [this]
      split
      · exact ⟨_, rfl⟩
      · exact ⟨d.iters, rfl⟩
    · rename_i d2 it2 hstep
      have hd2 : ∃ n, d2 = { d with iters := n } := by
        rw [iterAdvance_dict _ _ _ _ _ hstep]
        split
        · exact ⟨_, rfl⟩
        · exact ⟨d.iters, rfl⟩
      obtain ⟨n, hn⟩ := hd2
      split at h
      · cases h; exact ⟨n, hn⟩
      · obtain ⟨m, hm⟩ := ih _ _ _ _ _ h
        exact ⟨m, by rw [hm, hn]⟩

theorem dictRehashmsLoop_wf {hf : K → Nat} {kc : K → K → Bool} (clock : Nat → Nat) (ms : Int) :
    ∀ (fuel : Nat) (d : dict K V) (t : Nat) (cnt : Int) (d1 : dict K V) (r : Int),
    Lawful d.type hf kc → WF hf kc d → dictRehashmsLoop clock ms fuel d t cnt = some (d1, r) →
    WF hf kc d1 ∧ d1.type = d.type ∧ d1.iters = d.iters ∧ (allEntries d1).Perm (allEntries d) := by
  intro fuel
  induction fuel with
  | zero => intro d t cnt d1 r _ _ h; cases h
  | succ f ih =>
    intro d t cnt d1 r hL hw h
    obtain ⟨d2, r2, h1, h2, h3, h4, h5, _⟩ := rehash_spec hL hw 100
    have hL2 : Lawful d2.type hf kc := by rw [h3]; exact hL
    unfold dictRehashmsLoop at h
    rw [h1] at h
    simp only at h
    split at h
    · cases h; exact ⟨h2, h3, h4, h5⟩
    · split at h
      · cases h
      · split at h
        · cases h; exact ⟨h2, h3, h4, h5⟩
        · obtain ⟨a, b, c, e⟩ := ih _ _ _ _ _ hL2 h2 h
          exact ⟨a, b.trans h3, c.trans h4, e.trans h5⟩

theorem dictCreate_wf {hf : K → Nat} {kc : K → K → Bool} (ty : dictType K V) (d : dict K V)
    (h : dictCreate ty = some d) : WF hf kc d ∧ d.type = ty := by
  unfold dictCreate at h
  split at h
  · cases h
  · cases h
    exact ⟨⟨resetht_ok hf, resetht_ok hf, fun _ => rfl, fun h => absurd rfl h,
      by simp [allEntries, resetht]⟩, rfl⟩

theorem dictValSet_wf {hf : K → Nat} {kc : K → K → Bool} {d : dict K V}
    (hL : Lawful d.type hf kc) (hw : WF hf kc d) (r : EntryRef) (v : V) (d1 : dict K V)
    (h : dictValSet d r v = some d1) : WF hf kc d1 ∧ d1.type = d.type := by
  cases hch : (getHt d r.table).entries[r.slot]? with
  | none => simp [dictValSet, hch] at h
  | some ch =>
    cases he : ch[r.pos]? with
    | none => simp [dictValSet, hch, he] at h
    | some e =>
      obtain ⟨hp, hpe⟩ := List.getElem?_eq_some.1 he
      have hsplit : ch = ch.take r.pos ++ e :: ch.drop (r.pos + 1) := by
        rw [← hpe, List.getElem_cons_drop, List.take_append_drop]
      have hlen : (ch.take r.pos).length = r.pos := by
        rw [List.length_take]; omega
      have hch2 := hch
      rw [hsplit] at hch2
      obtain ⟨d2, h2, hw2, ht2, _⟩ := dictValSet_spec hL hw r.table r.slot _ e _ v hch2
      rw [hlen] at h2
      have h3 : dictValSet d ⟨r.table, r.slot, r.pos⟩ v = dictValSet d r v := rfl
      rw [h3, h] at h2
      cases h2
      exact ⟨hw2, ht2⟩

theorem reachable_wf {hf : K → Nat} {kc : K → K → Bool} {ty : dictType K V} {d : dict K V}
    (hL : Lawful ty hf kc) (hR : Reachable ty d) : WF hf kc d ∧ d.type = ty := by
  induction hR with
  | create d h => exact dictCreate_wf ty d h
  | add d k v d1 r _ h ih =>
    obtain ⟨hw, ht⟩ := ih
    obtain ⟨d2, r2, h2, hw2, ht2, _⟩ := dictAdd_spec (ht ▸ hL) hw k v
    rw [h] at h2; cases h2
    exact ⟨hw2, ht2.trans ht⟩
  | addKey d k ex d1 r1 r2 _ h ih =>
    obtain ⟨hw, ht⟩ := ih
    obtain ⟨d2, s1, s2, h2, hw2, ht2, _⟩ := dictAddKeyOrGetExistingEntry_spec (ht ▸ hL) hw k ex
    rw [h] at h2; cases h2
    exact ⟨hw2, ht2.trans ht⟩
  | valSet d e v d1 _ h ih =>
    obtain ⟨hw, ht⟩ := ih
    obtain ⟨hw2, ht2⟩ := dictValSet_wf (ht ▸ hL) hw e v d1 h
    exact ⟨hw2, ht2.trans ht⟩
  | update d k v d1 r _ h ih =>
    obtain ⟨hw, ht⟩ := ih
    rcases dictUpdateOrAdd_spec (ht ▸ hL) hw k v with ⟨h2, _⟩ | ⟨d2, r2, h2, hw2, ht2, _⟩
    · rw [h] at h2; cases h2
    · rw [h] at h2; cases h2
      exact ⟨hw2, ht2.trans ht⟩
  | find d k d1 r _ h ih =>
    obtain ⟨hw, ht⟩ := ih
    obtain ⟨d2, r2, h2, hw2, ht2, _⟩ := dictFind_spec (ht ▸ hL) hw k
    rw [h] at h2; cases h2
    exact ⟨hw2, ht2.trans ht⟩
  | delete d k nf d1 r _ h ih =>
    obtain ⟨hw, ht⟩ := ih
    obtain ⟨d2, r2, h2, hw2, ht2, _⟩ := dictEntryDelete_spec (ht ▸ hL) hw k nf
    rw [h] at h2; cases h2
    exact ⟨hw2, ht2.trans ht⟩
  | rehashms clock d ms d1 r _ h ih =>
    obtain ⟨hw, ht⟩ := ih
    obtain ⟨hw2, ht2, _⟩ := dictRehashmsLoop_wf clock ms _ _ _ _ _ _ (ht ▸ hL) hw h
    exact ⟨hw2, ht2.trans ht⟩
  | iterCreate d d1 it _ h ih =>
    obtain ⟨hw, ht⟩ := ih
    obtain ⟨d2, r2, h2, hw2, ht2, _⟩ := tryExpand_spec hw
    unfold dictIteratorCreate at h
    rw [h2] at h
    simp only at h
    split at h <;> (cases h; exact ⟨hw2, ht2.trans ht⟩)
  | iterNext d it d1 it1 r _ h ih =>
    obtain ⟨hw, ht⟩ := ih
    obtain ⟨n, hn⟩ := dictIteratorNextLoop_dict _ _ _ _ _ _ h
    subst hn
    exact ⟨hw.with_iters n, ht⟩
  | iterRewind d it _ ih =>
    obtain ⟨hw, ht⟩ := ih
    cases hfr : iterFresh it with
    | true =>
      have : (dictIteratorRewind d it).1 = d := by simp [dictIteratorRewind, hfr]
      rw [this]
      exact ⟨hw, ht⟩
    | false =>
      have : (dictIteratorRewind d it).1 = { d with iters := (d.iters + 2 ^ 64 - 1) % 2 ^ 64 } := by
        simp [dictIteratorRewind, hfr]
      rw [this]
      exact ⟨hw.with_iters _, ht⟩
  | iterDestroy d it _ ih =>
    obtain ⟨hw, ht⟩ := ih
    cases hfr : iterFresh it with
    | true =>
      have : dictIteratorDestroy d it = d := by simp [dictIteratorDestroy, hfr]
      rw [this]
      exact ⟨hw, ht⟩
    | false =>
      have : dictIteratorDestroy d it = { d with iters := (d.iters + 2 ^ 64 - 1) % 2 ^ 64 } := by
        simp [dictIteratorDestroy, hfr]
      rw [this]
      exact ⟨hw.with_iters _, ht⟩

/-! ## Lookup is determined by the live entries -/

theorem find_agree {hf : K → Nat} {kc : K → K → Bool} {d d1 : dict K V}
    (hL : Lawful d.type hf kc) (hw : WF hf kc d) (hL1 : Lawful d1.type hf kc)
    (hw1 : WF hf kc d1) (hp : (allEntries d1).Perm (allEntries d)) (k : K) :
    ∃ da db r, dictFind d k = some (da, r) ∧ dictFind d1 k = some (db, r) := by
  obtain ⟨da, r, h1, _, _, _, _, _, _, hr⟩ := dictFind_spec hL hw k
  obtain ⟨db, r1, h2, _, _, _, _, _, _, hr1⟩ := dictFind_spec hL1 hw1 k
  refine ⟨da, db, r, h1, ?_⟩
  rw [h2]
  rcases hr with ⟨hn, hno⟩ | ⟨e, he, hmem, hk⟩
  · rcases hr1 with ⟨hn1, _⟩ | ⟨e1, _, hmem1, hk1⟩
    · rw [hn, hn1]
    · rw [hno e1 (hp.mem_iff.1 hmem1)] at hk1
      cases hk1
  · rcases hr1 with ⟨_, hno1⟩ | ⟨e1, he1, hmem1, hk1⟩
    · rw [hno1 e (hp.mem_iff.2 hmem)] at hk
      cases hk
    · have := hw.key_unique hL k e e1 hmem (hp.mem_iff.1 hmem1) hk hk1
      rw [he, he1, this]

theorem find_present {hf : K → Nat} {kc : K → K → Bool} {d : dict K V}
    (hL : Lawful d.type hf kc) (hw : WF hf kc d) (k : K) (e : dictEntry K V)
    (he : e ∈ allEntries d) (hk : kc k e.key = true) :
    ∃ d1, dictFind d k = some (d1, some e) := by
  obtain ⟨d1, r, h1, _, _, _, _, _, _, hr⟩ := dictFind_spec hL hw k
  rcases hr with ⟨_, hno⟩ | ⟨e1, he1, hmem1, hk1⟩
  · rw [hno e he] at hk
    cases hk
  · have := hw.key_unique hL k e e1 he hmem1 hk hk1
    exact ⟨d1, by rw [h1, he1, this]⟩

theorem find_absent {hf : K → Nat} {kc : K → K → Bool} {d : dict K V}
    (hL : Lawful d.type hf kc) (hw : WF hf kc d) (k : K)
    (hno : ∀ e ∈ allEntries d, kc k e.key = false) :
    ∃ d1, dictFind d k = some (d1, none) := by
  obtain ⟨d1, r, h1, _, _, _, _, _, _, hr⟩ := dictFind_spec hL hw k
  rcases hr with ⟨hn, _⟩ | ⟨e1, _, hmem1, hk1⟩
  · exact ⟨d1, by rw [h1, hn]⟩
  · rw [hno e1 hmem1] at hk1
    cases hk1

/-! ## The claims -/

/-- C1 (find after add): in a reachable dictionary holding fewer than 2^62 entries, adding a
key that no live entry has returns 0, and the lookup of that key right after returns an
entry whose key compares equal to it and whose value is `valDup(v)` when the policy has a
value duplicator `valDup`, and `v` itself when it has none. -/
theorem find_after_add {hf : K → Nat} {kc : K → K → Bool} {ty : dictType K V} {d : dict K V}
    (hL : Lawful ty hf kc) (hR : Reachable ty d) (k : K) (v : V)
    (hfill : d.ht0.filled + d.ht1.filled < 2 ^ 62)
    (habs : ∀ e ∈ allEntries d, kc k e.key = false) :
    ∃ d1 d2 e, dictAdd d k v = some (d1, 0) ∧ dictFind d1 k = some (d2, some e) ∧
      kc e.key k = true ∧ (∀ f, ty.valDup = some f → e.val = some (f v)) ∧
      (ty.valDup = none → e.val = some v) := by
  obtain ⟨hw, ht⟩ := reachable_wf hL hR
  have hLd : Lawful d.type hf kc := ht ▸ hL
  obtain ⟨d1, r, h1, hw1, ht1, _, hcase⟩ := dictAdd_spec hLd hw k v
  rcases hcase with ⟨_, hb, _⟩ | ⟨_, ⟨e, he, hk⟩, _⟩ | ⟨hr, _, hp⟩
  · omega
  · rw [habs e he] at hk; cases hk
  · subst hr
    have hL1 : Lawful d1.type hf kc := ht1 ▸ hLd
    have hmem : ({ key := dictKeySet d k, val := some (dictValStored d v) } : dictEntry K V) ∈
        allEntries d1 := hp.mem_iff.2 (List.mem_cons_self _ _)
    obtain ⟨d2, h2⟩ := find_present hL1 hw1 k _ hmem (hLd.symm _ _ (hLd.keySet_cmp k))
    refine ⟨d1, d2, _, h1, h2, hLd.keySet_cmp k, ?_, ?_⟩
    · intro f hdup
      show some (dictValStored d v) = some (f v)
      simp only [dictValStored, ht, hdup]
    · intro hdup
      show some (dictValStored d v) = some v
      simp only [dictValStored, ht, hdup]

theorem natLawful : Lawful natType natHash natCmp := by
  refine ⟨rfl, rfl, ?_, ?_, ?_, ?_, ?_⟩
  · intro a; simp [natCmp]
  · intro a b h; simp only [natCmp, beq_iff_eq] at h ⊢; exact h.symm
  · intro a b c h1 h2; simp only [natCmp, beq_iff_eq] at h1 h2 ⊢; exact h1.trans h2
  · intro a b h; simp only [natCmp, beq_iff_eq] at h; simp [natHash, h]
  · intro f h; cases h

theorem reachable_addAll {ty : dictType K V} (kvs : List (K × V)) :
    ∀ (d d1 : dict K V) (rs : List Int), Reachable ty d → dictAddAll d kvs = some (d1, rs) →
    Reachable ty d1 := by
  induction kvs with
  | nil => intro d d1 rs hR h; cases h; exact hR
  | cons kv rest ih =>
    intro d d1 rs hR h
    cases hd2 : dictAdd d kv.1 kv.2 with
    | none => simp [dictAddAll, hd2] at h
    | some p =>
      obtain ⟨d2, r⟩ := p
      cases hd3 : dictAddAll d2 rest with
      | none => simp [dictAddAll, hd2, hd3] at h
      | some q =>
        obtain ⟨d3, rs3⟩ := q
        simp only [dictAddAll, hd2, hd3, Option.some.injEq, Prod.mk.injEq] at h
        rw [← h.1]
        exact ih d2 d3 rs3 (Reachable.add d kv.1 kv.2 d2 r hR hd2) hd3

theorem natEmpty_reachable : Reachable natType natEmpty := Reachable.create natEmpty (by rfl)

theorem natFull_reachable : Reachable natType natFull :=
  reachable_addAll [(0, 0), (1, 10), (2, 20), (3, 30)] natEmpty natFull [0, 0, 0, 0]
    natEmpty_reachable (by rfl)

theorem natBusy_reachable : Reachable natType natBusy :=
  Reachable.add natFull 4 40 natBusy 0 natFull_reachable (by rfl)

theorem natDupLawful : Lawful natDupType natHash natCmp := by
  refine ⟨rfl, rfl, ?_, ?_, ?_, ?_, ?_⟩
  · intro a; simp [natCmp]
  · intro a b h; simp only [natCmp, beq_iff_eq] at h ⊢; exact h.symm
  · intro a b c h1 h2; simp only [natCmp, beq_iff_eq] at h1 h2 ⊢; exact h1.trans h2
  · intro a b h; simp only [natCmp, beq_iff_eq] at h; simp [natHash, h]
  · intro f h; cases h

theorem natDupFull_reachable : Reachable natDupType natDupFull :=
  reachable_addAll [(0, 0), (1, 10), (2, 20), (3, 30)] natDupEmpty natDupFull [0, 0, 0, 0]
    (Reachable.create natDupEmpty (by rfl)) (by rfl)

/-- C1 witness: under the policy `natDupType`, whose duplicator adds 1, the key 4 is added
with the value 40 to the full four-slot dictionary `natDupFull`; the entry found afterwards
holds 41, the copy, not 40. -/
theorem find_after_add_witness :
    Lawful natDupType natHash natCmp ∧ Reachable natDupType natDupFull ∧
    natDupFull.ht0.filled + natDupFull.ht1.filled < 2 ^ 62 ∧
    (∀ e ∈ allEntries natDupFull, natCmp 4 e.key = false) ∧
    ∃ d1 d2 e, dictAdd natDupFull 4 40 = some (d1, 0) ∧ dictFind d1 4 = some (d2, some e) ∧
      natCmp e.key 4 = true ∧ e.val = some 41 :=
  ⟨natDupLawful, natDupFull_reachable, by decide, by decide, by
    obtain ⟨d1, d2, e, h1, h2, h3, h4, _⟩ :=
      find_after_add natDupLawful natDupFull_reachable 4 40 (by decide) (by decide)
    exact ⟨d1, d2, e, h1, h2, h3, h4 (fun v => v + 1) rfl⟩⟩

theorem dictAddAll_spec {hf : K → Nat} {kc : K → K → Bool} (kvs : List (K × V)) :
    ∀ (d : dict K V), Lawful d.type hf kc → WF hf kc d →
    d.ht0.filled + d.ht1.filled + kvs.length ≤ 2 ^ 62 →
    kvs.Pairwise (fun a b => kc a.1 b.1 = false) →
    (∀ kv ∈ kvs, ∀ e ∈ allEntries d, kc kv.1 e.key = false) →
    ∃ d1, dictAddAll d kvs = some (d1, List.replicate kvs.length 0) ∧
      dictFilled d1 = dictFilled d + kvs.length := by
  induction kvs with
  | nil => intro d _ _ _ _ _; exact ⟨d, rfl, rfl⟩
  | cons kv rest ih =>
    intro d hL hw hfill hpw habs
    obtain ⟨d1, r, h1, hw1, ht1, _, hcase⟩ := dictAdd_spec hL hw kv.1 kv.2
    have hL1 : Lawful d1.type hf kc := ht1 ▸ hL
    simp only [List.length_cons] at hfill
    rcases hcase with ⟨_, hb, _⟩ | ⟨_, ⟨e, he, hk⟩, _⟩ | ⟨hr, _, hp⟩
    · omega
    · rw [habs kv (List.mem_cons_self _ _) e he] at hk; cases hk
    · subst hr
      have hlen : dictFilled d1 = dictFilled d + 1 := by
        rw [dictFilled_eq_length hw1, dictFilled_eq_length hw, hp.length_eq]
        rfl
      have hpw2 := List.pairwise_cons.1 hpw
      obtain ⟨d2, h2, hf2⟩ := ih d1 hL1 hw1
        (by unfold dictFilled at hlen; omega) hpw2.2
        (by
          intro kv2 hkv2 e he
          rcases List.mem_cons.1 (hp.mem_iff.1 he) with rfl | he
          · show kc kv2.1 (dictKeySet d kv.1) = false
            cases hc : kc kv2.1 (dictKeySet d kv.1) with
            | false => rfl
            | true =>
              have h3 := hL.trans _ _ _ hc (hL.keySet_cmp kv.1)
              have h4 := hL.symm _ _ h3
              rw [hpw2.1 kv2 hkv2] at h4
              cases h4
          · exact habs kv2 (List.mem_cons_of_mem _ hkv2) e he)
      refine ⟨d2, ?_, ?_⟩
      · simp only [dictAddAll, h1, h2, List.length_cons, List.replicate_succ]
      · rw [hf2, hlen, List.length_cons]; omega

/-- C2 (dictAdd fails exactly on a duplicate key): in a reachable dictionary holding fewer
than 2^62 entries, `dictAdd` returns -1 exactly when a live entry has a key that compares
equal, and then the live entries (keys and values) and `dictFilled` are unchanged;
otherwise it returns 0 and `dictFilled` grows by one.  Inserting at most 2^62 pairwise
distinct keys into a fresh dictionary returns 0 every time and leaves `dictFilled` equal to
the number of keys. -/
theorem add_fails_iff_duplicate {hf : K → Nat} {kc : K → K → Bool} {ty : dictType K V}
    (hL : Lawful ty hf kc) :
    (∀ d : dict K V, Reachable ty d → d.ht0.filled + d.ht1.filled < 2 ^ 62 → ∀ (k : K) (v : V),
      ∃ d1 r, dictAdd d k v = some (d1, r) ∧ (r = -1 ∨ r = 0) ∧
        (r = -1 ↔ ∃ e ∈ allEntries d, kc k e.key = true) ∧
        (r = -1 → (allEntries d1).Perm (allEntries d) ∧ dictFilled d1 = dictFilled d) ∧
        (r = 0 → dictFilled d1 = dictFilled d + 1)) ∧
    (∀ d0 : dict K V, dictCreate ty = some d0 → ∀ kvs : List (K × V), kvs.length ≤ 2 ^ 62 →
      kvs.Pairwise (fun a b => kc a.1 b.1 = false) →
      ∃ d1, dictAddAll d0 kvs = some (d1, List.replicate kvs.length 0) ∧
        dictFilled d1 = kvs.length) := by
  constructor
  · intro d hR hfill k v
    obtain ⟨hw, ht⟩ := reachable_wf hL hR
    have hLd : Lawful d.type hf kc := ht ▸ hL
    obtain ⟨d1, r, h1, hw1, ht1, _, hcase⟩ := dictAdd_spec hLd hw k v
    rcases hcase with ⟨_, hb, _⟩ | ⟨hr, hex, hp⟩ | ⟨hr, hno, hp⟩
    · omega
    · subst hr
      refine ⟨d1, -1, h1, Or.inl rfl, ⟨fun _ => hex, fun _ => rfl⟩, fun _ => ⟨hp, ?_⟩,
        fun h => by simp at h⟩
      rw [dictFilled_eq_length hw1, dictFilled_eq_length hw, hp.length_eq]
    · subst hr
      refine ⟨d1, 0, h1, Or.inr rfl, ⟨fun h => by simp at h, ?_⟩, fun h => by simp at h,
        fun _ => ?_⟩
      · rintro ⟨e, he, hk⟩
        rw [hno e he] at hk
        cases hk
      · rw [dictFilled_eq_length hw1, dictFilled_eq_length hw, hp.length_eq]
        rfl
  · intro d0 hc kvs hlen hpw
    obtain ⟨hw, ht⟩ := reachable_wf hL (Reachable.create d0 hc)
    have hLd : Lawful d0.type hf kc := ht ▸ hL
    have hempty : allEntries d0 = [] := by
      unfold dictCreate at hc
      split at hc
      · cases hc
      · cases hc; rfl
    have hf0 : dictFilled d0 = 0 := by rw [dictFilled_eq_length hw, hempty]; rfl
    obtain ⟨d1, h1, h2⟩ := dictAddAll_spec kvs d0 hLd hw
      (by unfold dictFilled at hf0; omega) hpw
      (by intro kv _ e he; rw [hempty] at he; cases he)
    exact ⟨d1, h1, by rw [h2, hf0]; omega⟩

/-- C2 witness: the policy on natural numbers. -/
theorem add_fails_iff_duplicate_witness :
    Lawful natType natHash natCmp ∧
    ((∀ d : dict Nat Nat, Reachable natType d → d.ht0.filled + d.ht1.filled < 2 ^ 62 →
      ∀ (k : Nat) (v : Nat),
      ∃ d1 r, dictAdd d k v = some (d1, r) ∧ (r = -1 ∨ r = 0) ∧
        (r = -1 ↔ ∃ e ∈ allEntries d, natCmp k e.key = true) ∧
        (r = -1 → (allEntries d1).Perm (allEntries d) ∧ dictFilled d1 = dictFilled d) ∧
        (r = 0 → dictFilled d1 = dictFilled d + 1)) ∧
    (∀ d0 : dict Nat Nat, dictCreate natType = some d0 → ∀ kvs : List (Nat × Nat),
      kvs.length ≤ 2 ^ 62 → kvs.Pairwise (fun a b => natCmp a.1 b.1 = false) →
      ∃ d1, dictAddAll d0 kvs = some (d1, List.replicate kvs.length 0) ∧
        dictFilled d1 = kvs.length)) :=
  ⟨natLawful, add_fails_iff_duplicate natLawful⟩

/-- C3 (delete after add): in a reachable dictionary holding fewer than 2^62 entries, after
the successful insertion of a key that no live entry had, `dictEntryDelete(d, k, 0)`
returns a non-NULL entry, the lookup of the key then returns NULL, `dictFilled` is back to
its value before the insertion, and the lookup of every key returns what it returned before
the insertion. -/
theorem delete_after_add {hf : K → Nat} {kc : K → K → Bool} {ty : dictType K V} {d : dict K V}
    (hL : Lawful ty hf kc) (hR : Reachable ty d) (k : K) (v : V)
    (hfill : d.ht0.filled + d.ht1.filled < 2 ^ 62)
    (habs : ∀ e ∈ allEntries d, kc k e.key = false) :
    ∃ d1 d2 d3 e, dictAdd d k v = some (d1, 0) ∧
      dictEntryDelete d1 k false = some (d2, some e) ∧
      dictFind d2 k = some (d3, none) ∧ dictFilled d2 = dictFilled d ∧
      ∀ k2, ∃ da db r, dictFind d k2 = some (da, r) ∧ dictFind d2 k2 = some (db, r) := by
  obtain ⟨hw, ht⟩ := reachable_wf hL hR
  have hLd : Lawful d.type hf kc := ht ▸ hL
  obtain ⟨d1, r, h1, hw1, ht1, _, hcase⟩ := dictAdd_spec hLd hw k v
  rcases hcase with ⟨_, hb, _⟩ | ⟨_, ⟨e, he, hk⟩, _⟩ | ⟨hr, _, hp⟩
  · omega
  · rw [habs e he] at hk; cases hk
  · subst hr
    have hL1 : Lawful d1.type hf kc := ht1 ▸ hLd
    have hmem : ({ key := dictKeySet d k, val := some (dictValStored d v) } : dictEntry K V) ∈
        allEntries d1 := hp.mem_iff.2 (List.mem_cons_self _ _)
    have hknew : kc k (dictKeySet d k) = true := hLd.symm _ _ (hLd.keySet_cmp k)
    obtain ⟨d2, r2, h2, hw2, ht2, _, hcase2⟩ := dictEntryDelete_spec hL1 hw1 k false
    have hL2 : Lawful d2.type hf kc := ht2 ▸ hL1
    rcases hcase2 with ⟨_, hno, _⟩ | ⟨e, hr2, hke, hp2⟩
    · have := hno _ hmem
      rw [hknew] at this
      cases this
    · subst hr2
      have he1 : e ∈ allEntries d1 := hp2.mem_iff.2 (List.mem_cons_self _ _)
      have heq := hw1.key_unique hL1 k _ e hmem he1 hknew hke
      subst heq
      have hp3 : (allEntries d2).Perm (allEntries d) :=
        (List.Perm.cons_inv (hp2.symm.trans hp))
      obtain ⟨d3, h3⟩ := find_absent hL2 hw2 k
        (fun x hx => habs x (hp3.mem_iff.1 hx))
      refine ⟨d1, d2, d3, _, h1, h2, h3, ?_, fun k2 => find_agree hLd hw hL2 hw2 hp3 k2⟩
      rw [dictFilled_eq_length hw2, dictFilled_eq_length hw, hp3.length_eq]

/-- C3 witness: the key 4 is added to `natFull` and deleted again. -/
theorem delete_after_add_witness :
    Lawful natType natHash natCmp ∧ Reachable natType natFull ∧
    natFull.ht0.filled + natFull.ht1.filled < 2 ^ 62 ∧
    (∀ e ∈ allEntries natFull, natCmp 4 e.key = false) ∧
    ∃ d1 d2 d3 e, dictAdd natFull 4 40 = some (d1, 0) ∧
      dictEntryDelete d1 4 false = some (d2, some e) ∧
      dictFind d2 4 = some (d3, none) ∧ dictFilled d2 = dictFilled natFull ∧
      ∀ k2, ∃ da db r, dictFind natFull k2 = some (da, r) ∧ dictFind d2 k2 = some (db, r) :=
  ⟨natLawful, natFull_reachable, by decide, by decide,
    delete_after_add natLawful natFull_reachable 4 40 (by decide) (by decide)⟩

/-- C5 (rehash transparency): in a reachable dictionary, rehashing or not, `dictFind`
returns a live entry whose key compares equal to the key when there is one, and NULL when
there is none; and after `rehash(d, n)`, for any `n`, the step that completes the rehash
and swaps the tables included, the lookup of every key returns what it returned before. -/
theorem rehash_transparent {hf : K → Nat} {kc : K → K → Bool} {ty : dictType K V}
    {d : dict K V} (hL : Lawful ty hf kc) (hR : Reachable ty d) :
    (∀ k, ∃ d1 r, dictFind d k = some (d1, r) ∧
      ((r = none ∧ ∀ e ∈ allEntries d, kc k e.key = false) ∨
       (∃ e, r = some e ∧ e ∈ allEntries d ∧ kc k e.key = true))) ∧
    (∀ n, ∃ d2 ret, rehash d n = some (d2, ret) ∧
      ∀ k, ∃ da db r, dictFind d k = some (da, r) ∧ dictFind d2 k = some (db, r)) := by
  obtain ⟨hw, ht⟩ := reachable_wf hL hR
  have hLd : Lawful d.type hf kc := ht ▸ hL
  constructor
  · intro k
    obtain ⟨d1, r, h1, _, _, _, _, _, _, hr⟩ := dictFind_spec hLd hw k
    exact ⟨d1, r, h1, hr⟩
  · intro n
    obtain ⟨d2, ret, h1, hw2, ht2, _, hp, _⟩ := rehash_spec hLd hw n
    exact ⟨d2, ret, h1, fun k => find_agree hLd hw (ht2 ▸ hLd) hw2 hp k⟩

/-- C5 witness: the dictionary `natBusy`, in the middle of a rehash. -/
theorem rehash_transparent_witness :
    Lawful natType natHash natCmp ∧ Reachable natType natBusy ∧
    (∀ k, ∃ d1 r, dictFind natBusy k = some (d1, r) ∧
      ((r = none ∧ ∀ e ∈ allEntries natBusy, natCmp k e.key = false) ∨
       (∃ e, r = some e ∧ e ∈ allEntries natBusy ∧ natCmp k e.key = true))) ∧
    (∀ n, ∃ d2 ret, rehash natBusy n = some (d2, ret) ∧
      ∀ k, ∃ da db r, dictFind natBusy k = some (da, r) ∧ dictFind d2 k = some (db, r)) :=
  ⟨natLawful, natBusy_reachable, rehash_transparent natLawful natBusy_reachable⟩

/-! ## One call of `dictIteratorNext` -/

theorem getHt_with_iters (d : dict K V) (n t : Nat) : getHt { d with iters := n } t = getHt d t := by
  unfold getHt; split <;> rfl

theorem getHt_size_lt {d : dict K V} (hs : Shape d) (t : Nat) : (getHt d t).size < 2 ^ 63 := by
  unfold getHt; split
  · exact hs.lt0
  · exact hs.lt1

theorem getHt_len {d : dict K V} (hs : Shape d) (t : Nat) :
    (getHt d t).entries.length = (getHt d t).size := by
  unfold getHt; split
  · exact hs.len0
  · exact hs.len1

theorem iterAdvance_held (d : dict K V) (it : dictIterator K V) (a : dictEntry K V)
    (l : List (dictEntry K V)) (he : it.entry = a :: l) :
    iterAdvance d it = some (d, { it with entry := it.nextEntry }, false) := by
  simp [iterAdvance, he]

theorem iterAdvance_slot {d : dict K V} {it : dictIterator K V} (hs : Shape d)
    (hi : -1 ≤ it.i) (he : it.entry = [])
    (hlt : (it.i + 1).toNat < (getHt d it.ht).size) :
    ∃ ch, (getHt d it.ht).entries[(it.i + 1).toNat]? = some ch ∧
      iterAdvance d it =
        some ({ d with iters := if iterFresh it then (d.iters + 1) % 2 ^ 64 else d.iters },
          { it with i := it.i + 1, entry := ch }, false) := by
  have hsz := getHt_size_lt hs it.ht
  have hlen := getHt_len hs it.ht
  have hex : (it.i + 1).toNat < (getHt d it.ht).entries.length := by omega
  refine ⟨_, List.getElem?_eq_getElem hex, ?_⟩
  have hcond : ¬ (it.i + 1 ≥ asInt64 (getHt d it.ht).size) := by
    rw [asInt64_of_lt _ hsz]
    omega
  have hneg : ¬ (it.i + 1 < 0) := by omega
  cases hfr : iterFresh it with
  | true =>
    simp only [iterAdvance, he, hfr, if_true, getHt_with_iters, hcond, if_false, hneg,
      List.getElem?_eq_getElem hex]
  | false =>
    simp only [iterAdvance, he, hfr, if_false, hcond, hneg, List.getElem?_eq_getElem hex,
      Bool.false_eq_true]

theorem iterAdvance_switch {d : dict K V} {it : dictIterator K V} (hs : Shape d)
    (hi : -1 ≤ it.i) (he : it.entry = [])
    (hge : (getHt d it.ht).size ≤ (it.i + 1).toNat) (h0 : it.ht = 0) (hr : d.rehash ≠ -1) :
    ∃ ch, d.ht1.entries[0]? = some ch ∧
      iterAdvance d it =
        some ({ d with iters := if iterFresh it then (d.iters + 1) % 2 ^ 64 else d.iters },
          { it with ht := 1, i := 0, entry := ch }, false) := by
  have hsz := getHt_size_lt hs it.ht
  have hex : 0 < d.ht1.entries.length := by rw [hs.len1]; exact hs.pos1 hr
  refine ⟨_, List.getElem?_eq_getElem hex, ?_⟩
  have hcond : it.i + 1 ≥ asInt64 (getHt d it.ht).size := by
    rw [asInt64_of_lt _ hsz]
    omega
  have hrt : dictRehashing d = true := dictRehashing_true.2 hr
  have hcond0 : it.i + 1 ≥ asInt64 (getHt d 0).size := by rw [← h0]; exact hcond
  cases hfr : iterFresh it with
  | true =>
    have hrt2 : dictRehashing ({ d with iters := (d.iters + 1) % 2 ^ 64 } : dict K V) = true := hrt
    simp only [iterAdvance, he, hfr, if_true, getHt_with_iters, hcond, hcond0, hrt2, h0,
      beq_self_eq_true, Bool.and_self, List.getElem?_eq_getElem hex]
  | false =>
    simp only [iterAdvance, he, hfr, if_false, hcond, hcond0, if_true, hrt, h0, beq_self_eq_true,
      Bool.and_self, List.getElem?_eq_getElem hex, Bool.false_eq_true]

theorem iterAdvance_stop {d : dict K V} {it : dictIterator K V} (hs : Shape d)
    (hi : -1 ≤ it.i) (he : it.entry = [])
    (hge : (getHt d it.ht).size ≤ (it.i + 1).toNat) (hno : ¬ (it.ht = 0 ∧ d.rehash ≠ -1)) :
    iterAdvance d it =
      some ({ d with iters := if iterFresh it then (d.iters + 1) % 2 ^ 64 else d.iters },
        { it with i := it.i + 1 }, true) := by
  have hsz := getHt_size_lt hs it.ht
  have hcond : it.i + 1 ≥ asInt64 (getHt d it.ht).size := by
    rw [asInt64_of_lt _ hsz]
    omega
  have hb : (dictRehashing d && it.ht == 0) = false := by
    cases h1 : dictRehashing d with
    | false => rfl
    | true =>
      have := dictRehashing_true.1 h1
      by_cases h0 : it.ht = 0
      · exact absurd ⟨h0, this⟩ hno
      · simp [h0]
  cases hfr : iterFresh it with
  | true =>
    have hb2 : (dictRehashing ({ d with iters := (d.iters + 1) % 2 ^ 64 } : dict K V) &&
        it.ht == 0) = false := hb
    simp only [iterAdvance, he, hfr, if_true, getHt_with_iters, hcond, hb2, Bool.false_eq_true,
      if_false]
  | false =>
    simp only [iterAdvance, he, hfr, if_false, hcond, if_true, hb, Bool.false_eq_true]

theorem iterFresh_false {it : dictIterator K V} (h : 0 ≤ it.i) : iterFresh it = false := by
  unfold iterFresh
  have : (it.i == -1) = false := by
    rw [beq_eq_false_iff_ne]
    omega
  rw [this]
  rfl

theorem Shape.set_iters {d : dict K V} (hs : Shape d) (n : Nat) : Shape { d with iters := n } :=
  ⟨hs.len0, hs.len1, hs.lt0, hs.lt1, hs.pos1⟩

theorem CursorOK.put_iters {d : dict K V} {it : dictIterator K V} (hc : CursorOK d it)
    (n : Nat) : CursorOK { d with iters := n } it :=
  ⟨hc.ht01, hc.ht1, hc.ige, by
    intro h
    obtain ⟨h1, pre, h2⟩ := hc.held h
    exact ⟨h1, pre, by rw [getHt_with_iters]; exact h2⟩⟩

theorem pending_with_iters (d : dict K V) (n : Nat) (it : dictIterator K V) :
    pending { d with iters := n } it = pending d it := by
  unfold pending
  rw [getHt_with_iters]

theorem passBudget_with_iters (d : dict K V) (n : Nat) (it : dictIterator K V) :
    passBudget { d with iters := n } it = passBudget d it := by
  unfold passBudget
  rw [getHt_with_iters]

theorem nextLoop_spec : ∀ (fuel : Nat) (d : dict K V) (it : dictIterator K V),
    Shape d → CursorOK d it → passBudget d it ≤ fuel →
    ∃ it1, dictIteratorNextLoop fuel d it =
        some ({ d with iters := if iterFresh it then (d.iters + 1) % 2 ^ 64 else d.iters }, it1,
          (pending d it).head?) ∧
      CursorOK d it1 ∧ pending d it1 = (pending d it).tail ∧ 0 ≤ it1.i ∧
      (∀ e, (pending d it).head? = some e →
        ∃ pre, (getHt d it1.ht).entries[it1.i.toNat]? = some (pre ++ e :: it1.nextEntry) ∧
          it1.entry = e :: it1.nextEntry) := by
  intro fuel
  induction fuel with
  | zero =>
    intro d it _ _ hb
    unfold passBudget at hb
    omega
  | succ f ih =>
    intro d it hs hc hb
    cases he : it.entry with
    | cons a l =>
      obtain ⟨hi0, pre, hpre⟩ := hc.held (by rw [he]; simp)
      have hnf : iterFresh it = false := iterFresh_false hi0
      have hadv := iterAdvance_held d it a l he
      have hdd : ({ d with iters := if iterFresh it then (d.iters + 1) % 2 ^ 64 else d.iters } :
          dict K V) = d := by rw [hnf]; rfl
      rw [hdd]
      cases hn : it.nextEntry with
      | cons e rest =>
        refine ⟨{ it with entry := e :: rest, nextEntry := rest }, ?_, ⟨hc.ht01, hc.ht1, hc.ige, ?_⟩,
          ?_, hi0, ?_⟩
        · simp only [dictIteratorNextLoop, hadv, hn]
          simp [pending, he, hn]
        · intro _
          refine ⟨hi0, pre ++ [e], ?_⟩
          rw [hpre, hn]
          simp
        · simp [pending, he, hn]
        · intro e2 he2
          have : e2 = e := by
            simp [pending, he, hn] at he2
            exact he2.symm
          subst this
          exact ⟨pre, by rw [hpre, hn], rfl⟩
      | nil =>
        have hc2 : CursorOK d { it with entry := it.nextEntry } :=
          ⟨hc.ht01, hc.ht1, hc.ige, by intro h; rw [hn] at h; exact absurd rfl h⟩
        have hp2 : pending d { it with entry := it.nextEntry } = pending d it := by
          simp [pending, he, hn]
        have hb2 : passBudget d { it with entry := it.nextEntry } ≤ f := by
          simp only [passBudget, he, hn] at hb ⊢
          omega
        obtain ⟨it1, h1, h2, h3, h4, h5⟩ := ih d _ hs hc2 hb2
        have hnf2 : iterFresh ({ it with entry := it.nextEntry } : dictIterator K V) = false :=
          iterFresh_false hi0
        rw [hnf2] at h1
        rw [hp2] at h1 h3 h5
        refine ⟨it1, ?_, h2, h3, h4, h5⟩
        simp only [dictIteratorNextLoop, hadv, hn]
        simp only [hn, Bool.false_eq_true, if_false] at h1
        exact h1
    | nil =>
      have hi1 : 0 ≤ it.i + 1 := by have := hc.ige; omega
      have hnf1 : ∀ (x : dictIterator K V), x.i = it.i + 1 → iterFresh x = false :=
        fun x hx => iterFresh_false (by rw [hx]; exact hi1)
      by_cases hlt : (it.i + 1).toNat < (getHt d it.ht).size
      · obtain ⟨ch, hch, hadv⟩ := iterAdvance_slot hs hc.ige he hlt
        have hlen := getHt_len hs it.ht
        have hdrop : (getHt d it.ht).entries.drop (it.i + 1).toNat =
            ch :: (getHt d it.ht).entries.drop ((it.i + 1).toNat + 1) := by
          obtain ⟨hx, hy⟩ := List.getElem?_eq_some.1 hch
          rw [List.drop_eq_getElem_cons hx, hy]
        have hidx : (it.i + 1 + 1).toNat = (it.i + 1).toNat + 1 := by omega
        cases hcc : ch with
        | cons e rest =>
          refine ⟨{ it with i := it.i + 1, entry := e :: rest, nextEntry := rest }, ?_,
            ⟨hc.ht01, hc.ht1, by simp only; omega, ?_⟩, ?_, hi1, ?_⟩
          · simp only [dictIteratorNextLoop, hadv, hcc]
            simp [pending, he, hdrop, hcc]
          · intro _
            refine ⟨hi1, [e], ?_⟩
            simp only
            rw [hch, hcc]
            rfl
          · simp [pending, he, hdrop, hcc, hidx]
          · intro e2 he2
            have : e2 = e := by
              simp [pending, he, hdrop, hcc] at he2
              exact he2.symm
            subst this
            exact ⟨[], by simp only; rw [hch, hcc]; rfl, rfl⟩
        | nil =>
          subst hcc
          have hc2 : CursorOK ({ d with iters := if iterFresh it then (d.iters + 1) % 2 ^ 64
              else d.iters } : dict K V) { it with i := it.i + 1, entry := [] } :=
            ⟨hc.ht01, hc.ht1, by simp only; omega, by intro h; exact absurd rfl h⟩
          have hp2 : pending d { it with i := it.i + 1, entry := [] } = pending d it := by
            simp [pending, he, hdrop, hidx]
          have hb2 : passBudget d { it with i := it.i + 1, entry := [] } ≤ f := by
            simp only [passBudget, he, hidx] at hb ⊢
            omega
          obtain ⟨it1, h1, h2, h3, h4, h5⟩ := ih _ _ (hs.set_iters _) hc2
            (by rw [passBudget_with_iters]; exact hb2)
          rw [hnf1 { it with i := it.i + 1, entry := [] } rfl] at h1
          simp only [Bool.false_eq_true, if_false] at h1
          simp only [pending_with_iters] at h1 h3 h5
          rw [hp2] at h1 h3 h5
          refine ⟨it1, ?_, ⟨h2.ht01, h2.ht1, h2.ige, by
              intro h
              obtain ⟨ha, pre, hb⟩ := h2.held h
              exact ⟨ha, pre, by rw [getHt_with_iters] at hb; exact hb⟩⟩, h3, h4, ?_⟩
          · simp only [dictIteratorNextLoop, hadv]
            exact h1
          · intro e he2
            obtain ⟨pre, hpre, hent⟩ := h5 e he2
            exact ⟨pre, by rw [getHt_with_iters] at hpre; exact hpre, hent⟩
      · have hge : (getHt d it.ht).size ≤ (it.i + 1).toNat := by omega
        have hlen := getHt_len hs it.ht
        have hdrop : (getHt d it.ht).entries.drop (it.i + 1).toNat = [] :=
          List.drop_eq_nil_of_le (by omega)
        by_cases hsw : it.ht = 0 ∧ d.rehash ≠ -1
        · obtain ⟨ch, hch, hadv⟩ := iterAdvance_switch hs hc.ige he hge hsw.1 hsw.2
          have hdrop1 : d.ht1.entries = ch :: d.ht1.entries.drop 1 := by
            obtain ⟨hx, hy⟩ := List.getElem?_eq_some.1 hch
            have := List.drop_eq_getElem_cons hx
            rw [hy] at this
            simpa using this
          have hg1 : getHt d 1 = d.ht1 := rfl
          have h0 := hsw.1
          rw [h0] at hlen hge hdrop
          cases hcc : ch with
          | cons e rest =>
            refine ⟨{ it with ht := 1, i := 0, entry := e :: rest, nextEntry := rest }, ?_,
              ⟨Or.inr rfl, fun _ => hsw.2, by simp only; omega, ?_⟩, ?_, le_refl _, ?_⟩
            · simp only [dictIteratorNextLoop, hadv, hcc]
              have : pending d it = e :: (rest ++ (d.ht1.entries.drop 1).flatten) := by
                simp only [pending, he, h0, hdrop, hsw, and_self, if_true, List.flatten_nil,
                  List.nil_append, not_false_eq_true, ne_eq]
                conv_lhs => rw [hdrop1, hcc]
                simp
              rw [this]
              rfl
            · intro _
              refine ⟨le_refl _, [e], ?_⟩
              show (getHt d 1).entries[(0 : Int).toNat]? = some ([e] ++ rest)
              rw [hg1]
              simp only [Int.toNat_zero]
              rw [hch, hcc]
              rfl
            · have : pending d it = e :: (rest ++ (d.ht1.entries.drop 1).flatten) := by
                simp only [pending, he, h0, hdrop, hsw, and_self, if_true, List.flatten_nil,
                  List.nil_append, not_false_eq_true, ne_eq]
                conv_lhs => rw [hdrop1, hcc]
                simp
              rw [this]
              simp [pending, hg1]
            · intro e2 he2
              have hpd : pending d it = e :: (rest ++ (d.ht1.entries.drop 1).flatten) := by
                simp only [pending, he, h0, hdrop, hsw, and_self, if_true, List.flatten_nil,
                  List.nil_append, not_false_eq_true, ne_eq]
                conv_lhs => rw [hdrop1, hcc]
                simp
              rw [hpd] at he2
              have : e2 = e := by simpa using he2.symm
              subst this
              refine ⟨[], ?_, rfl⟩
              show (getHt d 1).entries[(0 : Int).toNat]? = some ([] ++ e2 :: rest)
              rw [hg1]
              simp only [Int.toNat_zero]
              rw [hch, hcc]
              rfl
          | nil =>
            subst hcc
            have hc2 : CursorOK ({ d with iters := if iterFresh it then (d.iters + 1) % 2 ^ 64
                else d.iters } : dict K V) { it with ht := 1, i := 0, entry := [] } :=
              ⟨Or.inr rfl, fun _ => hsw.2, by simp only; omega, by intro h; exact absurd rfl h⟩
            have hp2 : pending d { it with ht := 1, i := 0, entry := [] } = pending d it := by
              simp only [pending, he, h0, hdrop, hsw, and_self, if_true, List.flatten_nil,
                List.nil_append, not_false_eq_true, ne_eq, hg1]
              conv_rhs => rw [hdrop1]
              simp
            have hb2 : passBudget d { it with ht := 1, i := 0, entry := [] } ≤ f := by
              have hr := hsw.2
              have hp1 := hs.pos1 hr
              simp [passBudget, he, h0, hr, hg1] at hb ⊢
              omega
            obtain ⟨it1, h1, h2, h3, h4, h5⟩ := ih _ _ (hs.set_iters _) hc2
              (by rw [passBudget_with_iters]; exact hb2)
            have hnf2 : iterFresh ({ it with ht := 1, i := 0, entry := [] } : dictIterator K V) =
                false := iterFresh_false (le_refl _)
            rw [hnf2] at h1
            simp only [Bool.false_eq_true, if_false] at h1
            simp only [pending_with_iters] at h1 h3 h5
            rw [hp2] at h1 h3 h5
            refine ⟨it1, ?_, ⟨h2.ht01, h2.ht1, h2.ige, by
                intro h
                obtain ⟨ha, pre, hb⟩ := h2.held h
                exact ⟨ha, pre, by rw [getHt_with_iters] at hb; exact hb⟩⟩, h3, h4, ?_⟩
            · simp only [dictIteratorNextLoop, hadv]
              exact h1
            · intro e he2
              obtain ⟨pre, hpre, hent⟩ := h5 e he2
              exact ⟨pre, by rw [getHt_with_iters] at hpre; exact hpre, hent⟩
        · have hadv := iterAdvance_stop hs hc.ige he hge hsw
          have hpd : pending d it = [] := by
            simp [pending, he, hdrop, hsw]
          have hidx : (it.i + 1 + 1).toNat = (it.i + 1).toNat + 1 := by omega
          refine ⟨{ it with i := it.i + 1 }, ?_, ⟨hc.ht01, hc.ht1, by simp only; omega, ?_⟩, ?_,
            hi1, ?_⟩
          · simp only [dictIteratorNextLoop, hadv, hpd]
            rfl
          · intro h
            simp only at h
            exact absurd he h
          · rw [hpd]
            have : (getHt d it.ht).entries.drop ((it.i + 1).toNat + 1) = [] :=
              List.drop_eq_nil_of_le (by omega)
            simp [pending, he, hsw, hidx, this]
          · intro e he2
            rw [hpd] at he2
            cases he2

theorem WF.shape {hf : K → Nat} {kc : K → K → Bool} {d : dict K V} (hw : WF hf kc d)
    (h0 : d.ht0.size < 2 ^ 63) (h1 : d.ht1.size < 2 ^ 63) : Shape d :=
  ⟨hw.t0.len, hw.t1.len, h0, h1, fun hr => (hw.busy hr).2.2.2.1⟩

theorem dictIteratorNext_spec {d : dict K V} {it : dictIterator K V} (hs : Shape d)
    (hc : CursorOK d it) :
    ∃ it1, dictIteratorNext d it =
        some ({ d with iters := if iterFresh it then (d.iters + 1) % 2 ^ 64 else d.iters }, it1,
          (pending d it).head?) ∧
      CursorOK d it1 ∧ pending d it1 = (pending d it).tail ∧ 0 ≤ it1.i ∧
      (∀ e, (pending d it).head? = some e →
        ∃ pre, (getHt d it1.ht).entries[it1.i.toNat]? = some (pre ++ e :: it1.nextEntry) ∧
          it1.entry = e :: it1.nextEntry) := by
  apply nextLoop_spec _ d it hs hc
  unfold passBudget
  have hsz : (getHt d it.ht).size ≤ d.ht0.size + (if it.ht = 0 ∧ d.rehash ≠ -1 then 0 else d.ht1.size) := by
    rcases hc.ht01 with h | h
    · have : (getHt d it.ht).size = d.ht0.size := by rw [h]; rfl
      rw [this]
      omega
    · have : (getHt d it.ht).size = d.ht1.size := by rw [h]; rfl
      rw [this, if_neg (by rw [h]; simp)]
      omega
  cases it.entry with
  | nil => simp only; split_ifs at hsz ⊢ <;> omega
  | cons a l => simp only; split_ifs at hsz ⊢ <;> omega

theorem allEntries_at (d : dict K V) (t i : Nat) (ch : List (dictEntry K V))
    (ht01 : t = 0 ∨ t = 1) (hch : (getHt d t).entries[i]? = some ch) :
    ∃ A B, (∀ ch1 fl, allEntries (setHt d t (withSlot (getHt d t) i ch1 fl)) = A ++ ch1 ++ B) ∧
      allEntries d = A ++ ch ++ B ∧
      B = ((getHt d t).entries.drop (i + 1)).flatten ++
        (if t = 0 then d.ht1.entries.flatten else []) := by
  obtain ⟨hi, _⟩ := List.getElem?_eq_some.1 hch
  rcases ht01 with h | h
  · subst h
    have hch0 : d.ht0.entries[i]? = some ch := hch
    have hi0 : i < d.ht0.entries.length := hi
    refine ⟨(d.ht0.entries.take i).flatten,
      (d.ht0.entries.drop (i + 1)).flatten ++ d.ht1.entries.flatten, ?_, ?_, ?_⟩
    · intro ch1 fl
      show ((d.ht0.entries.set i ch1).flatten ++ d.ht1.entries.flatten) = _
      rw [flatten_set _ _ _ hi0]
      simp
    · unfold allEntries
      rw [flatten_split _ _ _ hch0]
      simp
    · simp [getHt]
  · subst h
    have hch1 : d.ht1.entries[i]? = some ch := hch
    have hi1 : i < d.ht1.entries.length := hi
    refine ⟨d.ht0.entries.flatten ++ (d.ht1.entries.take i).flatten,
      (d.ht1.entries.drop (i + 1)).flatten, ?_, ?_, ?_⟩
    · intro ch1 fl
      show (d.ht0.entries.flatten ++ (d.ht1.entries.set i ch1).flatten) = _
      rw [flatten_set _ _ _ hi1]
      simp
    · unfold allEntries
      rw [flatten_split _ _ _ hch1]
      simp
    · simp [getHt]

theorem chain_pairwise {hf : K → Nat} {kc : K → K → Bool} {d : dict K V} (hw : WF hf kc d)
    (t i : Nat) (ch : List (dictEntry K V)) (ht01 : t = 0 ∨ t = 1)
    (hch : (getHt d t).entries[i]? = some ch) :
    ch.Pairwise (fun a b => kc a.key b.key = false) := by
  obtain ⟨A, B, _, h2, _⟩ := allEntries_at d t i ch ht01 hch
  have := hw.uniq
  rw [h2] at this
  exact (List.pairwise_append.1 (List.pairwise_append.1 this).1).2.1

theorem rehashStepIfRehashing_idle (d : dict K V) (h : d.iters ≠ 0 ∨ d.rehash = -1) :
    rehashStepIfRehashing d = some d := by
  unfold rehashStepIfRehashing
  by_cases hr : d.rehash = -1
  · rw [dictRehashing_false.2 hr]
    rfl
  · rw [dictRehashing_true.2 hr]
    rcases h with h | h
    · simp [rehashStep, h]
    · exact absurd h hr

theorem dictEntryDelete_at {hf : K → Nat} {kc : K → K → Bool} {d : dict K V}
    (hL : Lawful d.type hf kc) (hw : WF hf kc d) (hidle : d.iters ≠ 0 ∨ d.rehash = -1)
    (t i : Nat) (pre : List (dictEntry K V)) (e : dictEntry K V) (post : List (dictEntry K V))
    (ht01 : t = 0 ∨ t = 1) (hch : (getHt d t).entries[i]? = some (pre ++ e :: post))
    (nf : Bool) :
    dictEntryDelete d e.key nf =
      some (setHt d t (withSlot (getHt d t) i (pre ++ post) ((getHt d t).filled - 1)), some e) := by
  have hpw := chain_pairwise hw t i _ ht01 hch
  have hpre : ∀ x ∈ pre, kc e.key x.key = false := by
    intro x hx
    have := (List.pairwise_append.1 hpw).2.2 x hx e (by simp)
    exact hL.rel_symm this
  have hslot : hf e.key &&& (getHt d t).mask = i :=
    (hw.tableOK t).slot i _ hch e (by simp)
  have hmemt : e ∈ (getHt d t).entries.flatten := mem_flatten_of_slot _ _ _ e hch (by simp)
  have hnz : ¬ (d.ht0.filled = 0 ∧ d.ht1.filled = 0) := by
    rintro ⟨h0, h1⟩
    have hl0 := hw.t0.filled
    have hl1 := hw.t1.filled
    rw [h0] at hl0
    rw [h1] at hl1
    rcases ht01 with h | h
    · subst h
      have : d.ht0.entries.flatten = [] := List.length_eq_zero.1 hl0.symm
      have hm : e ∈ d.ht0.entries.flatten := hmemt
      rw [this] at hm
      cases hm
    · subst h
      have : d.ht1.entries.flatten = [] := List.length_eq_zero.1 hl1.symm
      have hm : e ∈ d.ht1.entries.flatten := hmemt
      rw [this] at hm
      cases hm
  have hfound : deleteInTable d t e.key (hf e.key) = some (some
      (setHt d t (withSlot (getHt d t) i (pre ++ post) ((getHt d t).filled - 1)), e)) := by
    have h1 := chainSearch_at kc e.key pre e post hpre (hL.refl _)
    have h5 : (pre ++ e :: post)[pre.length]? = some e := getElem?_length_append _ _ _
    have h6 : (pre ++ e :: post).eraseIdx pre.length = pre ++ post :=
      eraseIdx_length_append _ _ _
    simp only [deleteInTable, hslot, hch, hL.cmp_eq, h1, h5, h6]
    try rfl
  unfold dictEntryDelete
  rw [if_neg hnz, rehashStepIfRehashing_idle d hidle]
  simp only [dictHashKeyGet, hL.hash_eq]
  rcases ht01 with h | h
  · subst h
    rw [hfound]
  · subst h
    have hr : d.rehash ≠ -1 := by
      intro hr
      have := hw.idle hr
      have hm : e ∈ d.ht1.entries.flatten := hmemt
      rw [this] at hm
      simp [resetht] at hm
    have hb := hw.busy hr
    obtain ⟨c0, hc0⟩ := slot_exists hw.t0 hb.2.2.1 (hf e.key)
    have hc0g : (getHt d 0).entries[hf e.key &&& (getHt d 0).mask]? = some c0 := hc0
    rcases deleteInTable_spec d 0 e.key (hf e.key) hL.cmp_eq c0 hc0g with
      ⟨h0, _⟩ | ⟨p2, e2, q2, hce, hke, _, _⟩
    · rw [h0]
      simp only [dictRehashing_true.2 hr, hfound]
      rfl
    · exfalso
      have hm0 : e2 ∈ d.ht0.entries.flatten :=
        mem_flatten_of_slot _ _ c0 e2 hc0 (by rw [hce]; simp)
      have hm1 : e ∈ d.ht1.entries.flatten := hmemt
      have := (List.pairwise_append.1 hw.uniq).2.2 e2 hm0 e hm1
      rw [hL.symm _ _ hke] at this
      cases this

/-! ## A full iteration, with deletions of the entry just returned -/

theorem pending_eq_of_held {hf : K → Nat} {kc : K → K → Bool} {d : dict K V}
    {it : dictIterator K V} (hw : WF hf kc d) (a : dictEntry K V) (l : List (dictEntry K V))
    (he : it.entry = a :: l) (t i : Nat)
    (ht : it.ht = t) (hi : (it.i + 1).toNat = i + 1) :
    pending d it = it.nextEntry ++ (((getHt d t).entries.drop (i + 1)).flatten ++
      (if t = 0 then d.ht1.entries.flatten else [])) := by
  have h2 : (if t = 0 ∧ d.rehash ≠ -1 then d.ht1.entries.flatten else []) =
      (if t = 0 then d.ht1.entries.flatten else []) := by
    by_cases h0 : t = 0
    · by_cases hr : d.rehash = -1
      · have := hw.idle hr
        simp [h0, hr, this, resetht]
      · simp [h0, hr]
    · simp [h0]
  simp only [pending, he, ht, hi, h2, List.append_assoc]

theorem iterate_spec {hf : K → Nat} {kc : K → K → Bool} (del : dictEntry K V → Bool) :
    ∀ (L : List (dictEntry K V)) (fuel : Nat) (d : dict K V) (it : dictIterator K V)
      (done : List (dictEntry K V)),
    Lawful d.type hf kc → WF hf kc d → Shape d → CursorOK d it →
    ((∀ e, del e = false) ∨
      (if iterFresh it then (d.iters + 1) % 2 ^ 64 ≠ 0 else d.iters ≠ 0)) →
    pending d it = L → L.length + 1 ≤ fuel → allEntries d = done ++ L →
    ∃ d1 it1, iterateDeleting del fuel d it = some (d1, it1, L) ∧
      allEntries d1 = done ++ L.filter (fun e => !del e) ∧ WF hf kc d1 ∧ Shape d1 ∧
      d1.type = d.type ∧ 0 ≤ it1.i := by
  intro L
  induction L with
  | nil =>
    intro fuel d it done hL hw hs hc _ hp hfuel hall
    obtain ⟨f, rfl⟩ : ∃ f, fuel = f + 1 := ⟨fuel - 1, by simp at hfuel; omega⟩
    obtain ⟨it1, h1, _, _, h4, _⟩ := dictIteratorNext_spec hs hc
    rw [hp] at h1
    refine ⟨{ d with iters := if iterFresh it then (d.iters + 1) % 2 ^ 64 else d.iters }, it1, ?_,
      ?_, hw.with_iters _, hs.set_iters _, rfl, h4⟩
    · simp only [iterateDeleting, h1, List.head?_nil]
    · simpa using hall
  | cons e rest ih =>
    intro fuel d it done hL hw hs hc hsusp hp hfuel hall
    obtain ⟨f, rfl⟩ : ∃ f, fuel = f + 1 := ⟨fuel - 1, by simp at hfuel; omega⟩
    obtain ⟨it1, h1, h2, h3, h4, h5⟩ := dictIteratorNext_spec hs hc
    rw [hp] at h1 h3 h5
    simp only [List.head?_cons, List.tail_cons] at h1 h3 h5
    obtain ⟨pre, hpre, hent⟩ := h5 e rfl
    have hnf : iterFresh it1 = false := iterFresh_false h4
    have hsusp1 : (∀ e, del e = false) ∨
        ({ d with iters := if iterFresh it then (d.iters + 1) % 2 ^ 64 else d.iters } :
          dict K V).iters ≠ 0 := by
      rcases hsusp with h | h
      · exact Or.inl h
      · right
        show (if iterFresh it then (d.iters + 1) % 2 ^ 64 else d.iters) ≠ 0
        split_ifs at h ⊢ <;> exact h
    generalize hdn : ({ d with iters := if iterFresh it then (d.iters + 1) % 2 ^ 64
      else d.iters } : dict K V) = dn at h1 hsusp1
    have hwn : WF hf kc dn := by rw [← hdn]; exact hw.with_iters _
    have hsn : Shape dn := by rw [← hdn]; exact hs.set_iters _
    have hcn : CursorOK dn it1 := by rw [← hdn]; exact h2.put_iters _
    have hpn : pending dn it1 = rest := by rw [← hdn, pending_with_iters]; exact h3
    have htn : dn.type = d.type := by rw [← hdn]
    have hLn : Lawful dn.type hf kc := by rw [htn]; exact hL
    have halln : allEntries dn = done ++ e :: rest := by rw [← hdn]; exact hall
    have hpren : (getHt dn it1.ht).entries[it1.i.toNat]? = some (pre ++ e :: it1.nextEntry) := by
      rw [← hdn, getHt_with_iters]; exact hpre
    cases hde : del e with
    | false =>
      obtain ⟨d1, it2, g1, g2, g3, g4, g5, g6⟩ := ih f dn it1 (done ++ [e]) hLn hwn hsn hcn
        (by
          rcases hsusp1 with h | h
          · exact Or.inl h
          · right; rw [hnf]; simpa using h)
        hpn (by simp at hfuel ⊢; omega) (by rw [halln]; simp)
      refine ⟨d1, it2, ?_, ?_, g3, g4, g5.trans htn, g6⟩
      · simp only [iterateDeleting, h1, hde, g1, Bool.false_eq_true, if_false]
      · rw [g2]
        simp [List.filter_cons, hde]
    | true =>
      have hit : dn.iters ≠ 0 := by
        rcases hsusp1 with h | h
        · rw [h e] at hde; cases hde
        · exact h
      have hdel := dictEntryDelete_at hLn hwn (Or.inl hit) it1.ht it1.i.toNat pre e it1.nextEntry
        hcn.ht01 hpren false
      obtain ⟨hwf2, _⟩ := delete_slot hLn hwn it1.ht it1.i.toNat pre e it1.nextEntry hpren
      obtain ⟨A, B, hA1, hA2, hB⟩ := allEntries_at dn it1.ht it1.i.toNat _ hcn.ht01 hpren
      have hA3 := hA1 (pre ++ it1.nextEntry) ((getHt dn it1.ht).filled - 1)
      have hidx : (it1.i + 1).toNat = it1.i.toNat + 1 := by omega
      have hpend := pending_eq_of_held hwn e it1.nextEntry hent it1.ht it1.i.toNat rfl hidx
      rw [← hB, hpn] at hpend
      have hdone : A ++ pre = done := by
        have h6 : (A ++ pre) ++ (e :: rest) = done ++ (e :: rest) := by
          rw [← halln, hA2, hpend]
          simp
        exact List.append_cancel_right h6
      have hlen2 : (getHt dn it1.ht).entries.length = (getHt dn it1.ht).size := getHt_len hsn _
      have hlt : it1.i.toNat < (getHt dn it1.ht).entries.length :=
        (List.getElem?_eq_some.1 hpren).1
      generalize hd2 : setHt dn it1.ht (withSlot (getHt dn it1.ht) it1.i.toNat
        (pre ++ it1.nextEntry) ((getHt dn it1.ht).filled - 1)) = d2 at hdel hwf2 hA3
      have hg2 : getHt d2 it1.ht = withSlot (getHt dn it1.ht) it1.i.toNat
          (pre ++ it1.nextEntry) ((getHt dn it1.ht).filled - 1) := by
        rw [← hd2, getHt_setHt]
      have hr2 : d2.rehash = dn.rehash := by rw [← hd2, setHt_rehash]
      have ht2 : d2.type = dn.type := by rw [← hd2, setHt_type]
      have hi2 : d2.iters = dn.iters := by rw [← hd2, setHt_iters]
      have hs2 : Shape d2 := by
        have hsz0 : d2.ht0.size = dn.ht0.size ∧ d2.ht0.entries.length = dn.ht0.entries.length ∧
            d2.ht1.size = dn.ht1.size ∧ d2.ht1.entries.length = dn.ht1.entries.length := by
          rw [← hd2]
          unfold setHt
          split <;> simp [withSlot, getHt, *]
        refine ⟨?_, ?_, ?_, ?_, ?_⟩
        · rw [hsz0.1, hsz0.2.1]; exact hsn.len0
        · rw [hsz0.2.2.1, hsz0.2.2.2]; exact hsn.len1
        · rw [hsz0.1]; exact hsn.lt0
        · rw [hsz0.2.2.1]; exact hsn.lt1
        · rw [hsz0.2.2.1, hr2]; exact hsn.pos1
      have hc2 : CursorOK d2 it1 := by
        refine ⟨hcn.ht01, by rw [hr2]; exact hcn.ht1, hcn.ige, fun _ => ⟨h4, pre, ?_⟩⟩
        rw [hg2]
        simp only [withSlot]
        rw [List.getElem?_set, if_pos rfl, if_pos hlt]
      have hall2 : allEntries d2 = done ++ rest := by
        rw [hA3, hpend, ← hdone]
        simp
      have hp2 : pending d2 it1 = rest := by
        have := pending_eq_of_held hwf2 e it1.nextEntry hent it1.ht it1.i.toNat rfl hidx
        rw [this, hpend, hg2]
        simp only [withSlot]
        have hdrop : (List.drop (it1.i.toNat + 1) ((getHt dn it1.ht).entries.set it1.i.toNat
            (pre ++ it1.nextEntry))) = List.drop (it1.i.toNat + 1) (getHt dn it1.ht).entries := by
          rw [List.drop_set_of_lt _ _ (by omega)]
        rw [hdrop, hB]
        congr 2
        split
        · rename_i h0
          rw [← hd2]
          simp [setHt, h0]
        · rfl
      obtain ⟨d1, it2, g1, g2, g3, g4, g5, g6⟩ := ih f d2 it1 done (by rw [ht2]; exact hLn) hwf2
        hs2 hc2 (Or.inr (by rw [hnf]; simpa [hi2] using hit)) hp2
        (by simp at hfuel ⊢; omega) hall2
      refine ⟨d1, it2, ?_, ?_, g3, g4, (g5.trans ht2).trans htn, g6⟩
      · simp only [iterateDeleting, h1, hde, hdel, g1, if_true]
      · rw [g2]
        simp [List.filter_cons, hde]

theorem iterateAll_eq : ∀ (fuel : Nat) (d : dict K V) (it : dictIterator K V),
    iterateAll fuel d it = iterateDeleting (fun _ => false) fuel d it := by
  intro fuel
  induction fuel with
  | zero => intro d it; rfl
  | succ f ih =>
    intro d it
    unfold iterateAll iterateDeleting
    cases h : dictIteratorNext d it with
    | none => rfl
    | some p =>
      obtain ⟨d1, it1, r⟩ := p
      cases r with
      | none => rfl
      | some e => simp [ih]

theorem cursorOK_reset (d : dict K V) : CursorOK d (iteratorReset : dictIterator K V) :=
  ⟨Or.inl rfl, fun h => by simp [iteratorReset] at h, by simp [iteratorReset],
    fun h => absurd rfl h⟩

theorem pending_reset {hf : K → Nat} {kc : K → K → Bool} {d : dict K V} (hw : WF hf kc d) :
    pending d (iteratorReset : dictIterator K V) = allEntries d := by
  by_cases hr : d.rehash = -1
  · have := hw.idle hr
    simp [pending, iteratorReset, getHt, allEntries, hr, this, resetht]
  · simp [pending, iteratorReset, getHt, allEntries, hr]

theorem filter_not_false {α : Type} (l : List α) : l.filter (fun _ => !false) = l := by
  simp

/-- C6 (iteration completeness): on a reachable dictionary, rehashing or not, whose tables
have fewer than 2^63 slots, the calls of `dictIteratorNext` on a fresh cursor return the
entries of all chains of the first table followed by those of the second, each once (their
keys are pairwise different), and then NULL; their number is `dictFilled`; and after
`dictIteratorRewind` the cursor is fresh again and a second iteration returns the same
entries. -/
theorem iteration_complete {hf : K → Nat} {kc : K → K → Bool} {ty : dictType K V}
    {d : dict K V} (hL : Lawful ty hf kc) (hR : Reachable ty d)
    (h0 : d.ht0.size < 2 ^ 63) (h1 : d.ht1.size < 2 ^ 63) :
    ∃ d1 it1, iterateAll (dictFilled d + 1) d iteratorReset = some (d1, it1, allEntries d) ∧
      (allEntries d).length = dictFilled d ∧
      (allEntries d).Pairwise (fun a b => kc a.key b.key = false) ∧
      (dictIteratorRewind d1 it1).2 = iteratorReset ∧
      ∃ d2 it2, iterateAll (dictFilled d + 1) (dictIteratorRewind d1 it1).1
        (dictIteratorRewind d1 it1).2 = some (d2, it2, allEntries d) := by
  obtain ⟨hw, ht⟩ := reachable_wf hL hR
  have hLd : Lawful d.type hf kc := ht ▸ hL
  have hs := hw.shape h0 h1
  have hlen := dictFilled_eq_length hw
  obtain ⟨d1, it1, g1, g2, g3, g4, g5, g6⟩ := iterate_spec (fun _ => false) (allEntries d)
    (dictFilled d + 1) d iteratorReset [] hLd hw hs (cursorOK_reset d) (Or.inl (fun _ => rfl))
    (pending_reset hw) (by omega) rfl
  simp only [List.nil_append, filter_not_false] at g2
  have hnf := iterFresh_false g6
  have hrw : dictIteratorRewind d1 it1 =
      ({ d1 with iters := (d1.iters + 2 ^ 64 - 1) % 2 ^ 64 }, iteratorReset) := by
    simp [dictIteratorRewind, hnf]
  have key : ∀ n : Nat, ∃ d2 it2, iterateDeleting (fun _ => false) (dictFilled d + 1)
      { d1 with iters := n } iteratorReset = some (d2, it2, allEntries d) := by
    intro n
    have hw2 := g3.with_iters n
    have hall2 : allEntries ({ d1 with iters := n } : dict K V) = allEntries d := g2
    obtain ⟨d2, it2, k1, _⟩ := iterate_spec (fun _ => false) (allEntries d)
      (dictFilled d + 1) { d1 with iters := n } iteratorReset []
      (by show Lawful d1.type hf kc; rw [g5]; exact hLd) hw2 (g4.set_iters _) (cursorOK_reset _)
      (Or.inl (fun _ => rfl)) (by rw [pending_reset hw2, hall2]) (by omega) (by rw [hall2]; rfl)
    exact ⟨d2, it2, k1⟩
  obtain ⟨d2, it2, k1⟩ := key ((d1.iters + 2 ^ 64 - 1) % 2 ^ 64)
  refine ⟨d1, it1, by rw [iterateAll_eq]; exact g1, hlen.symm, hw.uniq, by rw [hrw], d2, it2, ?_⟩
  rw [hrw, iterateAll_eq]
  exact k1

/-- C6 witness: the dictionary `natBusy`, in the middle of a rehash, with entries in both
tables. -/
theorem iteration_complete_witness :
    Lawful natType natHash natCmp ∧ Reachable natType natBusy ∧
    natBusy.ht0.size < 2 ^ 63 ∧ natBusy.ht1.size < 2 ^ 63 ∧
    ∃ d1 it1, iterateAll (dictFilled natBusy + 1) natBusy iteratorReset =
        some (d1, it1, allEntries natBusy) ∧
      (allEntries natBusy).length = dictFilled natBusy ∧
      (allEntries natBusy).Pairwise (fun a b => natCmp a.key b.key = false) ∧
      (dictIteratorRewind d1 it1).2 = iteratorReset ∧
      ∃ d2 it2, iterateAll (dictFilled natBusy + 1) (dictIteratorRewind d1 it1).1
        (dictIteratorRewind d1 it1).2 = some (d2, it2, allEntries natBusy) :=
  ⟨natLawful, natBusy_reachable, by decide, by decide,
    iteration_complete natLawful natBusy_reachable (by decide) (by decide)⟩

/-- C7 (iterator delete tolerance): on a reachable dictionary whose tables have fewer than
2^63 slots and whose counter `iters` does not wrap, if after each `dictIteratorNext` on a
fresh cursor the caller deletes, or not, the entry just returned (`dictEntryDelete` on its
key), the iteration still returns every entry that was live at the start once, in the
order of the chains, and then NULL, and afterwards the dictionary holds exactly the entries
that were not deleted. -/
theorem iterator_delete_tolerant {hf : K → Nat} {kc : K → K → Bool} {ty : dictType K V}
    {d : dict K V} (hL : Lawful ty hf kc) (hR : Reachable ty d)
    (h0 : d.ht0.size < 2 ^ 63) (h1 : d.ht1.size < 2 ^ 63) (hit : d.iters + 1 < 2 ^ 64)
    (del : dictEntry K V → Bool) :
    ∃ d1 it1, iterateDeleting del (dictFilled d + 1) d iteratorReset =
        some (d1, it1, allEntries d) ∧
      allEntries d1 = (allEntries d).filter (fun e => !del e) ∧
      dictFilled d1 = ((allEntries d).filter (fun e => !del e)).length := by
  obtain ⟨hw, ht⟩ := reachable_wf hL hR
  have hLd : Lawful d.type hf kc := ht ▸ hL
  have hs := hw.shape h0 h1
  have hlen := dictFilled_eq_length hw
  obtain ⟨d1, it1, g1, g2, g3, _⟩ := iterate_spec del (allEntries d)
    (dictFilled d + 1) d iteratorReset [] hLd hw hs (cursorOK_reset d)
    (Or.inr (by
      have : iterFresh (iteratorReset : dictIterator K V) = true := rfl
      rw [this, if_pos rfl, Nat.mod_eq_of_lt hit]
      omega))
    (pending_reset hw) (by omega) rfl
  simp only [List.nil_append] at g2
  exact ⟨d1, it1, g1, g2, by rw [dictFilled_eq_length g3, g2]⟩

/-- C7 witness: on `natBusy` the caller deletes the entries with an even key. -/
theorem iterator_delete_tolerant_witness :
    Lawful natType natHash natCmp ∧ Reachable natType natBusy ∧
    natBusy.ht0.size < 2 ^ 63 ∧ natBusy.ht1.size < 2 ^ 63 ∧ natBusy.iters + 1 < 2 ^ 64 ∧
    ∃ d1 it1, iterateDeleting (fun e => e.key % 2 == 0) (dictFilled natBusy + 1) natBusy
        iteratorReset = some (d1, it1, allEntries natBusy) ∧
      allEntries d1 = (allEntries natBusy).filter (fun e => !(e.key % 2 == 0)) ∧
      dictFilled d1 = ((allEntries natBusy).filter (fun e => !(e.key % 2 == 0))).length :=
  ⟨natLawful, natBusy_reachable, by decide, by decide, by decide,
    iterator_delete_tolerant natLawful natBusy_reachable (by decide) (by decide) (by decide)
      (fun e => e.key % 2 == 0)⟩

/-- C8 counterexample: `natFull` is reachable, not rehashing and holds the key 0 in a first
table that is full (4 entries in 4 slots); `dictAdd` of the key 0 returns -1 and
`dictAddKeyOrGetExistingEntry` returns NULL, yet the dictionary they leave is `natStarted`:
a second table of 8 slots has been allocated and the rehash cursor has gone from -1 to 0. -/
theorem colliding_add_starts_rehash :
    Reachable natType natFull ∧ dictRehashing natFull = false ∧
    (∃ e ∈ allEntries natFull, natCmp 0 e.key = true) ∧
    dictAdd natFull 0 99 = some (natStarted, -1) ∧
    dictAddKeyOrGetExistingEntry natFull 0 true = some (natStarted, none, some ⟨0, 0, 0⟩) ∧
    natFull.rehash = -1 ∧ natStarted.rehash = 0 ∧
    natFull.ht1.size = 0 ∧ natStarted.ht1.size = 8 ∧ natFull.ht1.entries = [] ∧
    natStarted.ht1.entries = [[], [], [], [], [], [], [], []] :=
  ⟨natFull_reachable, rfl, ⟨⟨0, some 0⟩, by decide, rfl⟩, by rfl, by rfl, rfl, rfl, rfl, rfl,
    rfl, rfl⟩

/-- C8 as amended: on a reachable dictionary that is not rehashing and holds fewer than
2^62 entries, an insertion of a key that is present returns the duplicate indication
(`dictAdd` returns -1, `dictAddKeyOrGetExistingEntry` returns NULL and reports the existing
entry) and leaves the first table (size, mask, fill, chains), the policy and `iters` as
they were; when the first table is not full (`filled < size`) the whole dictionary is
unchanged, and when it is full the call has allocated an empty second table of `2^j` slots
with `2 * filled <= 2^j` and set the rehash cursor to 0. -/
theorem colliding_add_effect {hf : K → Nat} {kc : K → K → Bool} {ty : dictType K V}
    {d : dict K V} (hL : Lawful ty hf kc) (hR : Reachable ty d) (k : K) (v : V)
    (hidle : d.rehash = -1) (hfill : d.ht0.filled + d.ht1.filled < 2 ^ 62)
    (hpres : ∃ e ∈ allEntries d, kc k e.key = true) :
    ∃ d1 ex e, dictAdd d k v = some (d1, -1) ∧
      dictAddKeyOrGetExistingEntry d k true = some (d1, none, some ex) ∧
      deref d1 ex = some e ∧ kc k e.key = true ∧
      d1.ht0 = d.ht0 ∧ d1.type = d.type ∧ d1.iters = d.iters ∧
      (d.ht0.filled < d.ht0.size → d1 = d) ∧
      (d.ht0.size ≤ d.ht0.filled → ∃ j, 2 ≤ j ∧ j ≤ 63 ∧ 2 * d.ht0.filled ≤ 2 ^ j ∧
        d1.ht1 = newTable (2 ^ j) ∧ d1.rehash = 0) := by
  obtain ⟨hw, ht⟩ := reachable_wf hL hR
  have hLd : Lawful d.type hf kc := ht ▸ hL
  have hstep : rehashStepIfRehashing d = some d := rehashStepIfRehashing_idle d (Or.inr hidle)
  obtain ⟨e0, he0, hk0⟩ := hpres
  obtain ⟨d1, r, h1, hw1, ht1, hi1, hall, hcase⟩ := getExistingOrIndex_spec hLd hw k true
  obtain ⟨d2, r2, h2, _, _, _, _, hcase2⟩ := getExistingOrIndex_spec hLd hw k false
  rw [h1] at h2
  simp only [Option.some.injEq, Prod.mk.injEq] at h2
  obtain ⟨hd2, hr2⟩ := h2
  subst hd2
  subst hr2
  have hnofail : ¬ (2 ^ 62 ≤ d.ht0.filled) := by omega
  have hnoabs : ¬ (∀ e ∈ allEntries d, kc k e.key = false) := by
    intro h
    rw [h e0 he0] at hk0
    cases hk0
  have hgT : ∃ t i pre e post, (getHt d1 t).entries[i]? = some (pre ++ e :: post) ∧
      kc k e.key = true ∧
      getExistingOrIndex d k (hf k) true = some (d1, -1, some ⟨t, i, pre.length⟩) := by
    rcases hcase with ⟨_, _, hb, _⟩ | ⟨_, t, i, pre, e, post, _, hc, hke, hg⟩ | ⟨_, hno, _⟩
    · exact absurd hb hnofail
    · exact ⟨t, i, pre, e, post, hc, hke, by simpa using hg⟩
    · exact absurd hno hnoabs
  have hgF : getExistingOrIndex d k (hf k) false = some (d1, -1, none) := by
    rcases hcase2 with ⟨_, _, hb, _⟩ | ⟨_, t, i, pre, e, post, _, hc, hke, hg⟩ | ⟨_, hno, _⟩
    · exact absurd hb hnofail
    · simpa using hg
    · exact absurd hno hnoabs
  obtain ⟨t, i, pre, e, post, hc, hke, hgT⟩ := hgT
  have haddF : dictAddKeyOrGetExistingEntry d k false = some (d1, none, none) := by
    simp only [dictAddKeyOrGetExistingEntry, hstep, dictHashKeyGet, hLd.hash_eq, hgF, if_true]
  have haddT : dictAddKeyOrGetExistingEntry d k true =
      some (d1, none, some ⟨t, i, pre.length⟩) := by
    simp only [dictAddKeyOrGetExistingEntry, hstep, dictHashKeyGet, hLd.hash_eq, hgT, if_true]
  have hderef : deref d1 ⟨t, i, pre.length⟩ = some e := by
    simp only [deref, hc, getElem?_length_append]
  have hshape : d1.ht0 = d.ht0 ∧ (d.ht0.filled < d.ht0.size → d1 = d) ∧
      (d.ht0.size ≤ d.ht0.filled → ∃ j, 2 ≤ j ∧ j ≤ 63 ∧ 2 * d.ht0.filled ≤ 2 ^ j ∧
        d1.ht1 = newTable (2 ^ j) ∧ d1.rehash = 0) := by
    rcases tryExpand_cases hw with ⟨hr, _⟩ | ⟨_, hs, _⟩ | ⟨_, _, hlt, h⟩ |
      ⟨_, _, hge, j, hj2, hj63, hjb, h⟩ | ⟨_, _, _, hb, _⟩
    · exact absurd hidle hr
    · exfalso
      have hlen := hw.t0.len
      rw [hs] at hlen
      have hnil : d.ht0.entries = [] := List.length_eq_zero.1 hlen
      have h1' := hw.idle hidle
      simp only [allEntries, hnil, h1', resetht, List.flatten_nil, List.append_nil] at he0
      cases he0
    · rw [h1] at h
      simp only [Option.some.injEq, Prod.mk.injEq] at h
      rw [h.1]
      exact ⟨rfl, fun _ => rfl, fun hge => by omega⟩
    · rw [h1] at h
      simp only [Option.some.injEq, Prod.mk.injEq] at h
      rw [h.1]
      exact ⟨rfl, fun hlt => by omega, fun _ => ⟨j, hj2, hj63, (hjb (by omega)).1, rfl, rfl⟩⟩
    · exact absurd hb hnofail
  refine ⟨d1, ⟨t, i, pre.length⟩, e, ?_, haddT, hderef, hke, hshape.1, ht1, hi1, hshape.2.1,
    hshape.2.2⟩
  simp only [dictAdd, haddF]

/-- C8 witness (amended claim): the key 0 is added again to the full dictionary `natFull`. -/
theorem colliding_add_effect_witness :
    Lawful natType natHash natCmp ∧ Reachable natType natFull ∧ natFull.rehash = -1 ∧
    natFull.ht0.filled + natFull.ht1.filled < 2 ^ 62 ∧
    (∃ e ∈ allEntries natFull, natCmp 0 e.key = true) ∧
    ∃ d1 ex e, dictAdd natFull 0 99 = some (d1, -1) ∧
      dictAddKeyOrGetExistingEntry natFull 0 true = some (d1, none, some ex) ∧
      deref d1 ex = some e ∧ natCmp 0 e.key = true ∧
      d1.ht0 = natFull.ht0 ∧ d1.type = natFull.type ∧ d1.iters = natFull.iters ∧
      (natFull.ht0.filled < natFull.ht0.size → d1 = natFull) ∧
      (natFull.ht0.size ≤ natFull.ht0.filled → ∃ j, 2 ≤ j ∧ j ≤ 63 ∧
        2 * natFull.ht0.filled ≤ 2 ^ j ∧ d1.ht1 = newTable (2 ^ j) ∧ d1.rehash = 0) :=
  ⟨natLawful, natFull_reachable, rfl, by decide, ⟨⟨0, some 0⟩, by decide, rfl⟩,
    colliding_add_effect natLawful natFull_reachable 0 99 rfl (by decide)
      ⟨⟨0, some 0⟩, by decide, rfl⟩⟩

theorem natBusyIter_reachable : Reachable natType natBusyIter :=
  Reachable.iterNext natBusy iteratorReset natBusyIter
    { i := 0, entry := [⟨0, some 0⟩], nextEntry := [], ht := 0 } (some ⟨0, some 0⟩)
    (Reachable.iterCreate natBusy natBusy (some iteratorReset) natBusy_reachable (by rfl))
    (by rfl)

/-- C9, the code at the failing input: `natBusyIter` is the reachable state after
`dictIteratorCreate` and one `dictIteratorNext` on a rehashing dictionary, so its
active-iterator count is 1 and its rehash cursor is 0.  `dictFind` leaves the cursor where it
is (its guard `rehashStep` tests `iters`), but `dictRehashms(d, 100)` calls `rehash` without
that test: it relocates the four slots of the first table, swaps the tables and sets the
cursor to -1 while the iterator is still active. -/
theorem rehashms_ignores_active_iterator :
    Reachable natType natBusyIter ∧
    dictIteratorCreate natBusy = some (natBusy, some iteratorReset) ∧
    dictIteratorNext natBusy iteratorReset =
      some (natBusyIter, { i := 0, entry := [⟨0, some 0⟩], nextEntry := [], ht := 0 },
        some ⟨0, some 0⟩) ∧
    0 < natBusyIter.iters ∧ natBusyIter.rehash = 0 ∧
    dictFind natBusyIter 1 = some (natBusyIter, some ⟨1, some 10⟩) ∧
    dictRehashms (fun _ => 0) natBusyIter 100 = some (natDoneIter, 0) ∧
    natDoneIter.rehash = -1 ∧ 0 < natDoneIter.iters ∧
    natBusyIter.ht0.entries = [[⟨0, some 0⟩], [⟨1, some 10⟩], [⟨2, some 20⟩], [⟨3, some 30⟩]] ∧
    natDoneIter.ht0.entries = [[⟨0, some 0⟩], [⟨1, some 10⟩], [⟨2, some 20⟩], [⟨3, some 30⟩],
      [⟨4, some 40⟩], [], [], []] :=
  ⟨natBusyIter_reachable, by rfl, by rfl, by decide, rfl, by rfl, by rfl, rfl, by decide, rfl, rfl⟩

/-- C10 counterexample: on the reachable rehashing dictionary `natBusy` the call
`dictRehashms(d, 100)` relocates all four occupied slots of the first table and completes
the rehash, and returns 0. -/
theorem rehashms_returns_zero_after_work :
    Reachable natType natBusy ∧ natBusy.rehash = 0 ∧
    natBusy.ht0.entries = [[⟨0, some 0⟩], [⟨1, some 10⟩], [⟨2, some 20⟩], [⟨3, some 30⟩]] ∧
    natBusy.ht1.entries = [[], [], [], [], [⟨4, some 40⟩], [], [], []] ∧
    dictRehashms (fun _ => 0) natBusy 100 = some (natDone, 0) ∧
    natDone.rehash = -1 ∧
    natDone.ht0.entries = [[⟨0, some 0⟩], [⟨1, some 10⟩], [⟨2, some 20⟩], [⟨3, some 30⟩],
      [⟨4, some 40⟩], [], [], []] :=
  ⟨natBusy_reachable, rfl, rfl, rfl, by rfl, rfl, rfl⟩

theorem dictRehashmsLoop_spec {hf : K → Nat} {kc : K → K → Bool} (clock : Nat → Nat) (ms : Int) :
    ∀ (fuel : Nat) (d : dict K V) (t : Nat) (cnt : Int),
    Lawful d.type hf kc → WF hf kc d →
    ((d.rehash = -1 ∧ 1 ≤ fuel) ∨ (d.rehash ≠ -1 ∧ d.ht0.size - d.rehash.toNat < fuel)) →
    cnt + 100 * ((d.ht0.size - d.rehash.toNat : Nat) : Int) ≤ INT_MAX →
    ∃ d1 c d0 r0, rehash d 100 = some (d0, r0) ∧
      dictRehashmsLoop clock ms fuel d t cnt = some (d1, c) ∧
      (∃ n : Nat, c = cnt + 100 * (n : Int)) ∧
      (r0 = 0 → c = cnt ∧ d1 = d0) ∧ (r0 ≠ 0 → cnt + 100 ≤ c ∧ d.rehash ≠ -1) ∧
      (r0 = 0 ∨ r0 = 1) ∧ (r0 = 0 → d0.rehash = -1) := by
  intro fuel
  induction fuel with
  | zero =>
    intro d t cnt _ _ hfu _
    rcases hfu with ⟨_, h⟩ | ⟨_, h⟩ <;> omega
  | succ f ih =>
    intro d t cnt hL hw hfu hcnt
    obtain ⟨d2, r, h1, hw2, ht2, _, _, hr01, hr0, hr1, _, _⟩ := rehash_spec hL hw 100
    rcases hr01 with rfl | rfl
    · refine ⟨d2, cnt, d2, 0, h1, ?_, ⟨0, by simp⟩, fun _ => ⟨rfl, rfl⟩,
        fun h => absurd rfl h, Or.inl rfl, hr0⟩
      simp only [dictRehashmsLoop, h1]
      simp
    · obtain ⟨hd2, hd, hsz, hle, hlt, _⟩ := hr1 rfl
      have hlt2 := hlt (by norm_num)
      have hb := hw.busy hd
      have hb2 := hw2.busy hd2
      have hfu2 : d.ht0.size - d.rehash.toNat < f + 1 := by
        rcases hfu with ⟨h, _⟩ | ⟨_, h⟩
        · exact absurd h hd
        · exact h
      have hno : ¬ (cnt + 100 > INT_MAX) := by
        have : 1 ≤ d.ht0.size - d.rehash.toNat := by omega
        have : (1 : Int) ≤ ((d.ht0.size - d.rehash.toNat : Nat) : Int) := by exact_mod_cast this
        omega
      by_cases hck : clock t > asUInt64 ((clock 0 : Int) + ms)
      · refine ⟨d2, cnt + 100, d2, 1, h1, ?_, ⟨1, by simp⟩, fun h => absurd h (by decide),
          fun _ => ⟨le_refl _, hd⟩, Or.inr rfl, fun h => absurd h (by decide)⟩
        simp only [dictRehashmsLoop, h1]
        simp [hno, hck]
      · have hL2 : Lawful d2.type hf kc := by rw [ht2]; exact hL
        have hrel : d2.ht0.size - d2.rehash.toNat + 1 ≤ d.ht0.size - d.rehash.toNat := by omega
        have hcnt2 : cnt + 100 + 100 * ((d2.ht0.size - d2.rehash.toNat : Nat) : Int) ≤ INT_MAX := by
          have : ((d2.ht0.size - d2.rehash.toNat : Nat) : Int) + 1 ≤
              ((d.ht0.size - d.rehash.toNat : Nat) : Int) := by exact_mod_cast hrel
          omega
        obtain ⟨d3, c3, d0, r0, _, h3, ⟨n, hn⟩, _, _, _, _⟩ :=
          ih d2 (t + 1) (cnt + 100) hL2 hw2 (Or.inr ⟨hd2, by omega⟩) hcnt2
        refine ⟨d3, c3, d2, 1, h1, ?_, ⟨n + 1, by rw [hn]; push_cast; ring⟩,
          fun h => absurd h (by decide), fun _ => ⟨by rw [hn]; omega, hd⟩, Or.inr rfl,
          fun h => absurd h (by decide)⟩
        simp only [dictRehashmsLoop, h1]
        simp [hno, hck, h3]

theorem dictRehashmsLoop_count {hf : K → Nat} {kc : K → K → Bool} (clock : Nat → Nat)
    (ms : Int) : ∀ (fuel : Nat) (d : dict K V) (t : Nat) (cnt : Int),
    Lawful d.type hf kc → WF hf kc d →
    ((d.rehash = -1 ∧ 1 ≤ fuel) ∨ (d.rehash ≠ -1 ∧ d.ht0.size - d.rehash.toNat < fuel)) →
    cnt + 100 * ((d.ht0.size - d.rehash.toNat : Nat) : Int) ≤ INT_MAX →
    ∃ d1 c n dn, dictRehashmsLoop clock ms fuel d t cnt = some (d1, c) ∧
      unfinishedBatches n d = some dn ∧ c = cnt + 100 * (n : Int) ∧
      ((rehash dn 100 = some (d1, 0) ∧ d1.rehash = -1) ∨
        (1 ≤ n ∧ d1 = dn ∧ clock (t + n - 1) > asUInt64 ((clock 0 : Int) + ms))) ∧
      ∀ j, j + 1 < n → clock (t + j) ≤ asUInt64 ((clock 0 : Int) + ms) := by
  intro fuel
  induction fuel with
  | zero =>
    intro d t cnt _ _ hfu _
    rcases hfu with ⟨_, h⟩ | ⟨_, h⟩ <;> omega
  | succ f ih =>
    intro d t cnt hL hw hfu hcnt
    obtain ⟨d2, r, h1, hw2, ht2, _, _, hr01, hr0, hr1, _, _⟩ := rehash_spec hL hw 100
    rcases hr01 with rfl | rfl
    · refine ⟨d2, cnt, 0, d, ?_, rfl, by simp, Or.inl ⟨h1, hr0 rfl⟩, fun j hj => by omega⟩
      simp only [dictRehashmsLoop, h1]
      simp
    · obtain ⟨hd2, hd, hsz, hle, hlt, _⟩ := hr1 rfl
      have hlt2 := hlt (by norm_num)
      have hb := hw.busy hd
      have hb2 := hw2.busy hd2
      have hfu2 : d.ht0.size - d.rehash.toNat < f + 1 := by
        rcases hfu with ⟨h, _⟩ | ⟨_, h⟩
        · exact absurd h hd
        · exact h
      have hno : ¬ (cnt + 100 > INT_MAX) := by
        have : 1 ≤ d.ht0.size - d.rehash.toNat := by omega
        have : (1 : Int) ≤ ((d.ht0.size - d.rehash.toNat : Nat) : Int) := by exact_mod_cast this
        omega
      have hone : unfinishedBatches 1 d = some d2 := by
        simp [unfinishedBatches, h1]
      by_cases hck : clock t > asUInt64 ((clock 0 : Int) + ms)
      · refine ⟨d2, cnt + 100, 1, d2, ?_, hone, by simp, Or.inr ⟨le_refl _, rfl, by simpa using hck⟩,
          fun j hj => by omega⟩
        simp only [dictRehashmsLoop, h1]
        simp [hno, hck]
      · have hL2 : Lawful d2.type hf kc := by rw [ht2]; exact hL
        have hrel : d2.ht0.size - d2.rehash.toNat + 1 ≤ d.ht0.size - d.rehash.toNat := by omega
        have hcnt2 : cnt + 100 + 100 * ((d2.ht0.size - d2.rehash.toNat : Nat) : Int) ≤ INT_MAX := by
          have : ((d2.ht0.size - d2.rehash.toNat : Nat) : Int) + 1 ≤
              ((d.ht0.size - d.rehash.toNat : Nat) : Int) := by exact_mod_cast hrel
          omega
        obtain ⟨d3, c3, n, dn, h3, hn1, hn2, hn3, hn4⟩ :=
          ih d2 (t + 1) (cnt + 100) hL2 hw2 (Or.inr ⟨hd2, by omega⟩) hcnt2
        refine ⟨d3, c3, n + 1, dn, ?_, ?_, by rw [hn2]; push_cast; ring, ?_, ?_⟩
        · simp only [dictRehashmsLoop, h1]
          simp [hno, hck, h3]
        · simp only [unfinishedBatches, h1]
          simpa using hn1
        · rcases hn3 with h | ⟨k1, k2, k3⟩
          · exact Or.inl h
          · refine Or.inr ⟨by omega, k2, ?_⟩
            rw [show t + (n + 1) - 1 = t + 1 + n - 1 by omega]
            exact k3
        · intro j hj
          cases j with
          | zero => simpa using hck
          | succ j =>
            have := hn4 j (by omega)
            rw [show t + (j + 1) = t + 1 + j by omega]
            exact this

/-- C10 as amended: `dictRehashms(d, ms)` returns 100 times the number `n` of calls
`rehash(d, 100)` it made that returned 1 (rehash not finished), whatever the clock does:
the first `n` batches, made one after the other from `d`, each returned 1 and lead to the
dictionary `dn`; after each of the first `n - 1` of them the clock had not passed
`start + ms`; and the call ended either because one more batch, on `dn`, returned 0 (that
batch is not counted and its result, not rehashing, is the dictionary left) or because
after the `n`-th batch the clock had passed `start + ms` (the dictionary left is `dn`).
So the result is 0 exactly when the first batch already returns 0, and a positive result
means the dictionary was rehashing at the call. -/
theorem rehashms_counts_unfinished_batches {hf : K → Nat} {kc : K → K → Bool}
    {ty : dictType K V} {d : dict K V} (hL : Lawful ty hf kc) (hR : Reachable ty d)
    (clock : Nat → Nat) (ms : Int) (hsz : 100 * d.ht0.size ≤ 2 ^ 31 - 1) :
    ∃ d1 c n dn d0 r0, dictRehashms clock d ms = some (d1, c) ∧
      unfinishedBatches n d = some dn ∧ c = 100 * (n : Int) ∧
      ((rehash dn 100 = some (d1, 0) ∧ d1.rehash = -1) ∨
        (1 ≤ n ∧ d1 = dn ∧ clock n > asUInt64 ((clock 0 : Int) + ms))) ∧
      (∀ j, 1 ≤ j → j < n → clock j ≤ asUInt64 ((clock 0 : Int) + ms)) ∧
      rehash d 100 = some (d0, r0) ∧ (c = 0 ↔ r0 = 0) ∧
      (c = 0 → d1 = d0 ∧ d1.rehash = -1) ∧ (0 < c → d.rehash ≠ -1) := by
  obtain ⟨hw, hty⟩ := reachable_wf hL hR
  have hL2 : Lawful d.type hf kc := by rw [hty]; exact hL
  have hfu : (d.rehash = -1 ∧ 1 ≤ d.ht0.size + 1) ∨
      (d.rehash ≠ -1 ∧ d.ht0.size - d.rehash.toNat < d.ht0.size + 1) := by
    by_cases h : d.rehash = -1
    · exact Or.inl ⟨h, by omega⟩
    · exact Or.inr ⟨h, by omega⟩
  have hcnt : (0 : Int) + 100 * ((d.ht0.size - d.rehash.toNat : Nat) : Int) ≤ INT_MAX := by
    have h1 : d.ht0.size - d.rehash.toNat ≤ d.ht0.size := Nat.sub_le _ _
    have h2 : ((d.ht0.size - d.rehash.toNat : Nat) : Int) ≤ (d.ht0.size : Int) := by
      exact_mod_cast h1
    have h3 : (100 : Int) * (d.ht0.size : Int) ≤ 2 ^ 31 - 1 := by
      norm_num at hsz ⊢
      omega
    simp only [INT_MAX]
    omega
  obtain ⟨d1, c, d0, r0, h1, h2, _, h0, hne, h01, hidle⟩ :=
    dictRehashmsLoop_spec clock ms (d.ht0.size + 1) d 1 0 hL2 hw hfu hcnt
  obtain ⟨d1x, cx, n, dn, k1, k2, k3, k4, k5⟩ :=
    dictRehashmsLoop_count clock ms (d.ht0.size + 1) d 1 0 hL2 hw hfu hcnt
  rw [h2] at k1
  simp only [Option.some.injEq, Prod.mk.injEq] at k1
  obtain ⟨hdx, hcx⟩ := k1
  subst hdx
  subst hcx
  refine ⟨d1, c, n, dn, d0, r0, h2, k2, by rw [k3]; ring, ?_, ?_, h1, ?_, ?_, ?_⟩
  · rcases k4 with h | ⟨m1, m2, m3⟩
    · exact Or.inl h
    · refine Or.inr ⟨m1, m2, ?_⟩
      rw [show 1 + n - 1 = n by omega] at m3
      exact m3
  · intro j hj1 hj2
    have := k5 (j - 1) (by omega)
    rw [show 1 + (j - 1) = j by omega] at this
    exact this
  · constructor
    · intro hc
      by_contra hr
      have := (hne hr).1
      omega
    · intro hr
      exact (h0 hr).1
  · intro hc
    have hr : r0 = 0 := by
      by_contra hr
      have := (hne hr).1
      omega
    obtain ⟨_, hd⟩ := h0 hr
    exact ⟨hd, by rw [hd]; exact hidle hr⟩
  · intro hc
    have hr : r0 ≠ 0 := by
      intro hr
      have := (h0 hr).1
      omega
    exact (hne hr).2

/-- C10 witness: on `natBusy` with a clock that stands still no batch returns 1: the first
batch moves the four slots, completes the rehash and returns 0, and the result is
`100 * 0`. -/
theorem rehashms_counts_unfinished_batches_witness :
    Lawful natType natHash natCmp ∧ Reachable natType natBusy ∧
    100 * natBusy.ht0.size ≤ 2 ^ 31 - 1 ∧
    (∃ d1 c n dn d0 r0, dictRehashms (fun _ => 0) natBusy 100 = some (d1, c) ∧
      unfinishedBatches n natBusy = some dn ∧ c = 100 * (n : Int) ∧
      ((rehash dn 100 = some (d1, 0) ∧ d1.rehash = -1) ∨
        (1 ≤ n ∧ d1 = dn ∧ (fun _ => 0) n > asUInt64 ((((fun _ => 0) 0 : Nat) : Int) + 100))) ∧
      (∀ j, 1 ≤ j → j < n → (fun _ => 0) j ≤ asUInt64 ((((fun _ => 0) 0 : Nat) : Int) + 100)) ∧
      rehash natBusy 100 = some (d0, r0) ∧ (c = 0 ↔ r0 = 0) ∧
      (c = 0 → d1 = d0 ∧ d1.rehash = -1) ∧ (0 < c → natBusy.rehash ≠ -1)) ∧
    dictRehashms (fun _ => 0) natBusy 100 = some (natDone, 100 * ((0 : Nat) : Int)) ∧
    unfinishedBatches 0 natBusy = some natBusy ∧ unfinishedBatches 1 natBusy = none ∧
    rehash natBusy 100 = some (natDone, 0) :=
  ⟨natLawful, natBusy_reachable, by decide,
    rehashms_counts_unfinished_batches natLawful natBusy_reachable (fun _ => 0) 100 (by decide),
    by rfl, rfl, by rfl, by rfl⟩

/-! ## The count of active cursors -/

theorem iterAdvance_index (d : dict K V) (it : dictIterator K V) (d1 : dict K V)
    (it1 : dictIterator K V) (b : Bool) (h : iterAdvance d it = some (d1, it1, b))
    (hi : -1 ≤ it.i) (hheld : it.entry ≠ [] → 0 ≤ it.i) : 0 ≤ it1.i := by
  unfold iterAdvance at h
  cases he : it.entry with
  | cons a l =>
    rw [he] at h
    simp only [Option.some.injEq, Prod.mk.injEq] at h
    rw [← h.2.1]
    exact hheld (by simp [he])
  | nil =>
    rw [he] at h
    simp only at h
    generalize (if iterFresh it = true then ({ d with iters := (d.iters + 1) % 2 ^ 64 } : dict K V)
      else d) = dd at h
    split at h
    · split at h
      · split at h
        · cases h
        · cases h; simp
      · cases h; simp; omega
    · split at h
      · cases h
      · split at h
        · cases h
        · cases h; simp; omega

theorem nextLoop_active : ∀ (fuel : Nat) (d : dict K V) (it : dictIterator K V)
    (d1 : dict K V) (it1 : dictIterator K V) (r : Option (dictEntry K V)),
    dictIteratorNextLoop fuel d it = some (d1, it1, r) → 0 ≤ it.i → d1 = d ∧ 0 ≤ it1.i := by
  intro fuel
  induction fuel with
  | zero => intro d it d1 it1 r h; cases h
  | succ f ih =>
    intro d it d1 it1 r h hi
    unfold dictIteratorNextLoop at h
    cases hstep : iterAdvance d it with
    | none => rw [hstep] at h; cases h
    | some res =>
      obtain ⟨d2, it2, b⟩ := res
      rw [hstep] at h
      have hd2 : d2 = d := by
        have := iterAdvance_dict d it d2 it2 b hstep
        rw [iterFresh_false hi] at this
        simpa using this
      have hi2 : 0 ≤ it2.i := iterAdvance_index d it d2 it2 b hstep (by omega) (fun _ => hi)
      cases b with
      | true =>
        simp only [Option.some.injEq, Prod.mk.injEq] at h
        obtain ⟨rfl, rfl, _⟩ := h
        exact ⟨hd2, hi2⟩
      | false =>
        simp only at h
        cases he : it2.entry with
        | cons e rest =>
          rw [he] at h
          simp only [Option.some.injEq, Prod.mk.injEq] at h
          obtain ⟨rfl, rfl, _⟩ := h
          exact ⟨hd2, hi2⟩
        | nil =>
          rw [he] at h
          simp only at h
          obtain ⟨h1, h2⟩ := ih d2 it2 d1 it1 r h hi2
          exact ⟨h1.trans hd2, h2⟩

theorem next_fresh (d : dict K V) (d1 : dict K V) (it1 : dictIterator K V)
    (r : Option (dictEntry K V)) (h : dictIteratorNext d iteratorReset = some (d1, it1, r)) :
    d1 = { d with iters := (d.iters + 1) % 2 ^ 64 } ∧ 0 ≤ it1.i := by
  unfold dictIteratorNext at h
  generalize d.ht0.size + d.ht1.size + 2 = fuel at h
  cases fuel with
  | zero => cases h
  | succ f =>
    unfold dictIteratorNextLoop at h
    cases hstep : iterAdvance d iteratorReset with
    | none => rw [hstep] at h; cases h
    | some res =>
      obtain ⟨d2, it2, b⟩ := res
      rw [hstep] at h
      have hd2 : d2 = { d with iters := (d.iters + 1) % 2 ^ 64 } := by
        have := iterAdvance_dict d iteratorReset d2 it2 b hstep
        simpa [iteratorReset, iterFresh] using this
      have hi2 : 0 ≤ it2.i :=
        iterAdvance_index d iteratorReset d2 it2 b hstep (by simp [iteratorReset])
          (fun hne => absurd rfl hne)
      cases b with
      | true =>
        simp only [Option.some.injEq, Prod.mk.injEq] at h
        obtain ⟨rfl, rfl, _⟩ := h
        exact ⟨hd2, hi2⟩
      | false =>
        simp only at h
        cases he : it2.entry with
        | cons e rest =>
          rw [he] at h
          simp only [Option.some.injEq, Prod.mk.injEq] at h
          obtain ⟨rfl, rfl, _⟩ := h
          exact ⟨hd2, hi2⟩
        | nil =>
          rw [he] at h
          simp only at h
          obtain ⟨h1, h2⟩ := nextLoop_active f d2 it2 d1 it1 r h hi2
          exact ⟨h1.trans hd2, h2⟩
theorem tryExpand_iters (d d1 : dict K V) (r : Int) (h : tryExpand d = some (d1, r)) :
    d1.iters = d.iters := by
  unfold tryExpand at h
  split at h
  · cases h; rfl
  · split at h
    · unfold expand at h
      split at h
      · cases h; rfl
      · split at h
        · cases h
        · split at h
          · cases h; rfl
          · split at h <;> (cases h; rfl)
    · split at h
      · unfold expand at h
        split at h
        · cases h; rfl
        · split at h
          · cases h
          · split at h
            · cases h; rfl
            · split at h <;> (cases h; rfl)
      · cases h; rfl

theorem countP_set_eq {α : Type} (p : α → Bool) (x y : α) :
    ∀ (cs : List α) (j : Nat), cs[j]? = some y →
    (cs.set j x).countP p + (if p y then 1 else 0) = cs.countP p + (if p x then 1 else 0) := by
  intro cs
  induction cs with
  | nil => intro j h; simp at h
  | cons a l ih =>
    intro j h
    cases j with
    | zero =>
      simp only [List.getElem?_cons_zero, Option.some.injEq] at h
      subst h
      simp only [List.set_cons_zero, List.countP_cons]
      omega
    | succ j =>
      simp only [List.getElem?_cons_succ] at h
      have := ih j h
      simp only [List.set_cons_succ, List.countP_cons]
      omega

theorem countP_eraseIdx_eq {α : Type} (p : α → Bool) (y : α) :
    ∀ (cs : List α) (j : Nat), cs[j]? = some y →
    (cs.eraseIdx j).countP p + (if p y then 1 else 0) = cs.countP p := by
  intro cs
  induction cs with
  | nil => intro j h; simp at h
  | cons a l ih =>
    intro j h
    cases j with
    | zero =>
      simp only [List.getElem?_cons_zero, Option.some.injEq] at h
      subst h
      simp only [List.eraseIdx_cons_zero, List.countP_cons]
    | succ j =>
      simp only [List.getElem?_cons_succ] at h
      have := ih j h
      simp only [List.eraseIdx_cons_succ, List.countP_cons]
      omega

theorem countP_lt_of_mem {α : Type} (p : α → Bool) (cs : List α) (y : α) (hy : y ∈ cs)
    (hp : p y = false) : cs.countP p < cs.length := by
  induction cs with
  | nil => simp at hy
  | cons a l ih =>
    rcases List.mem_cons.1 hy with rfl | h
    · have := List.countP_le_length p (l := l)
      simp only [List.countP_cons, hp, List.length_cons]
      simp
      omega
    · have := ih h
      simp only [List.countP_cons, List.length_cons]
      split <;> omega

theorem countP_pos_of_mem {α : Type} (p : α → Bool) (cs : List α) (y : α) (hy : y ∈ cs)
    (hp : p y = true) : 1 ≤ cs.countP p := by
  have := List.countP_pos_iff.2 ⟨y, hy, hp⟩
  omega

theorem activeCursors_fresh (it : dictIterator K V) (u : Bool)
    (h : (u = false → it = iteratorReset) ∧ (u = true → 0 ≤ it.i)) :
    (!iterFresh it) = u := by
  cases u with
  | false => rw [h.1 rfl]; rfl
  | true => rw [iterFresh_false (h.2 rfl)]; rfl

theorem iterSys_inv {d0 d : dict K V} {cs : List (dictIterator K V × Bool)}
    (h0 : d0.iters < 2 ^ 64) (hS : IterSys d0 d cs) :
    d.iters = (d0.iters + activeCursors cs) % 2 ^ 64 ∧
    ∀ c ∈ cs, (c.2 = false → c.1 = iteratorReset) ∧ (c.2 = true → 0 ≤ c.1.i) := by
  induction hS with
  | start =>
    refine ⟨?_, by simp⟩
    simp only [activeCursors, List.countP_nil, Nat.add_zero]
    omega
  | create d d1 cs it _ hc ih =>
    obtain ⟨hi, hcs⟩ := ih
    unfold dictIteratorCreate at hc
    cases ht : tryExpand d with
    | none => rw [ht] at hc; cases hc
    | some res =>
      obtain ⟨d2, r⟩ := res
      rw [ht] at hc
      simp only at hc
      split at hc
      · cases hc
      · simp only [Option.some.injEq, Prod.mk.injEq] at hc
        obtain ⟨rfl, rfl⟩ := hc
        have hit := tryExpand_iters d d2 r ht
        refine ⟨?_, ?_⟩
        · rw [hit, hi]
          simp [activeCursors, List.countP_append, iteratorReset, iterFresh]
        · intro c hc
          rcases List.mem_append.1 hc with h | h
          · exact hcs c h
          · simp only [List.mem_singleton] at h
            subst h
            exact ⟨fun _ => rfl, fun h => by cases h⟩
  | createNull d d1 cs _ hc ih =>
    obtain ⟨hi, hcs⟩ := ih
    unfold dictIteratorCreate at hc
    cases ht : tryExpand d with
    | none => rw [ht] at hc; cases hc
    | some res =>
      obtain ⟨d2, r⟩ := res
      rw [ht] at hc
      simp only at hc
      split at hc
      · simp only [Option.some.injEq, Prod.mk.injEq] at hc
        obtain ⟨rfl, _⟩ := hc
        exact ⟨by rw [tryExpand_iters d d2 r ht, hi], hcs⟩
      · cases hc
  | next d d1 cs j it it1 u r _ hj hn ih =>
    obtain ⟨hi, hcs⟩ := ih
    have hmem : (it, u) ∈ cs := List.mem_iff_getElem?.2 ⟨j, hj⟩
    have hinv := hcs _ hmem
    have hcnt := countP_set_eq (fun c : dictIterator K V × Bool => !iterFresh c.1) (it1, true)
      (it, u) cs j hj
    have hold := activeCursors_fresh it u hinv
    simp only [hold] at hcnt
    have hres : (u = false → d1.iters = (d.iters + 1) % 2 ^ 64) ∧ (u = true → d1 = d) ∧
        0 ≤ it1.i := by
      cases u with
      | false =>
        have hreset : it = iteratorReset := hinv.1 rfl
        rw [hreset] at hn
        obtain ⟨h1, h2⟩ := next_fresh d d1 it1 r hn
        exact ⟨fun _ => by rw [h1], fun h => (by cases h), h2⟩
      | true =>
        obtain ⟨h1, h2⟩ := nextLoop_active _ d it d1 it1 r hn (hinv.2 rfl)
        exact ⟨fun h => (by cases h), fun _ => h1, h2⟩
    obtain ⟨hr1, hr2, hr3⟩ := hres
    have hnew : (!iterFresh it1) = true := by rw [iterFresh_false hr3]; rfl
    simp only [hnew] at hcnt
    refine ⟨?_, ?_⟩
    · simp only [activeCursors] at hi ⊢
      cases u with
      | false =>
        rw [hr1 rfl, hi]
        simp only [Bool.false_eq_true, ite_false, ite_true] at hcnt
        omega
      | true =>
        rw [hr2 rfl, hi]
        simp only [ite_true] at hcnt
        omega
    · intro c hc
      rcases List.mem_or_eq_of_mem_set hc with h | h
      · exact hcs c h
      · subst h
        exact ⟨fun h => (by cases h), fun _ => hr3⟩
  | rewind d cs j it u _ hj ih =>
    obtain ⟨hi, hcs⟩ := ih
    have hmem : (it, u) ∈ cs := List.mem_iff_getElem?.2 ⟨j, hj⟩
    have hinv := hcs _ hmem
    have hcnt := countP_set_eq (fun c : dictIterator K V × Bool => !iterFresh c.1)
      (iteratorReset, false) (it, u) cs j hj
    have hold := activeCursors_fresh it u hinv
    simp only [hold] at hcnt
    have hnew : (!iterFresh (iteratorReset : dictIterator K V)) = false := rfl
    simp only [hnew] at hcnt
    have hpos : u = true → 1 ≤ activeCursors cs := fun hu =>
      countP_pos_of_mem _ cs (it, u) hmem (by rw [hold]; exact hu)
    refine ⟨?_, ?_⟩
    · simp only [activeCursors] at hi hpos ⊢
      simp only [dictIteratorRewind]
      cases u with
      | false =>
        have hf : (!iterFresh it) = false := hold
        simp only [hf, Bool.false_eq_true, ite_false] at hcnt ⊢
        rw [hi]
        omega
      | true =>
        have hf : (!iterFresh it) = true := hold
        have := hpos rfl
        simp only [hf, ite_true, Bool.false_eq_true, ite_false] at hcnt ⊢
        rw [hi]
        omega
    · intro c hc
      rcases List.mem_or_eq_of_mem_set hc with h | h
      · exact hcs c h
      · subst h
        exact ⟨fun _ => rfl, fun h => by cases h⟩
  | destroy d cs j it u _ hj ih =>
    obtain ⟨hi, hcs⟩ := ih
    have hmem : (it, u) ∈ cs := List.mem_iff_getElem?.2 ⟨j, hj⟩
    have hinv := hcs _ hmem
    have hcnt := countP_eraseIdx_eq (fun c : dictIterator K V × Bool => !iterFresh c.1)
      (it, u) cs j hj
    have hold := activeCursors_fresh it u hinv
    simp only [hold] at hcnt
    refine ⟨?_, ?_⟩
    · simp only [activeCursors] at hi ⊢
      simp only [dictIteratorDestroy]
      cases u with
      | false =>
        have hf : (!iterFresh it) = false := hold
        simp only [hf, Bool.false_eq_true, ite_false] at hcnt ⊢
        rw [hi]
        omega
      | true =>
        have hf : (!iterFresh it) = true := hold
        simp only [hf, ite_true] at hcnt ⊢
        rw [hi]
        omega
    · intro c hc
      exact hcs c (List.mem_of_mem_eraseIdx hc)
/-- C11 (active-iterator accounting): from a dictionary with `iters == 0` and no cursor,
after any sequence of `dictIteratorCreate`, `dictIteratorNext`, `dictIteratorRewind` and
`dictIteratorDestroy` on fewer than 2^64 live cursors, a cursor passes the Fresh test of
the code exactly when it has had no `dictIteratorNext` since it was created or last rewound,
and `d->iters` is the number of live cursors that are not Fresh.  Hence create followed by
destroy leaves `iters` unchanged, the first `dictIteratorNext` on a cursor adds exactly 1,
further calls add nothing, and rewind or destroy of a cursor that is not Fresh finds
`iters >= 1` and subtracts exactly 1. -/
theorem iterator_accounting {d0 d : dict K V} {cs : List (dictIterator K V × Bool)}
    (h0 : d0.iters = 0) (hS : IterSys d0 d cs) (hlen : cs.length < 2 ^ 64) :
    (∀ c ∈ cs, iterFresh c.1 = !c.2) ∧
    d.iters = activeCursors cs ∧
    (∀ d1 it, dictIteratorCreate d = some (d1, some it) →
      d1.iters = d.iters ∧ iterFresh it = true ∧ dictIteratorDestroy d1 it = d1) ∧
    (∀ (j : Nat) (it : dictIterator K V) (u : Bool), cs[j]? = some (it, u) →
      (u = false →
        (∀ d1 it1 r, dictIteratorNext d it = some (d1, it1, r) →
          d1.iters = d.iters + 1 ∧ iterFresh it1 = false) ∧
        dictIteratorDestroy d it = d ∧ (dictIteratorRewind d it).1 = d) ∧
      (u = true →
        (∀ d1 it1 r, dictIteratorNext d it = some (d1, it1, r) →
          d1 = d ∧ iterFresh it1 = false) ∧
        1 ≤ d.iters ∧ (dictIteratorDestroy d it).iters = d.iters - 1 ∧
        (dictIteratorRewind d it).1.iters = d.iters - 1 ∧
        iterFresh (dictIteratorRewind d it).2 = true)) := by
  obtain ⟨hi, hcs⟩ := iterSys_inv (by omega) hS
  have hle : activeCursors cs ≤ cs.length := List.countP_le_length _
  have hiters : d.iters = activeCursors cs := by
    rw [hi, h0, Nat.zero_add]
    exact Nat.mod_eq_of_lt (by omega)
  have hfresh : ∀ c ∈ cs, (!iterFresh c.1) = c.2 := fun c hc =>
    activeCursors_fresh c.1 c.2 (hcs c hc)
  refine ⟨?_, hiters, ?_, ?_⟩
  · intro c hc
    rw [← hfresh c hc]
    simp
  · intro d1 it hc
    unfold dictIteratorCreate at hc
    cases ht : tryExpand d with
    | none => rw [ht] at hc; cases hc
    | some res =>
      obtain ⟨d2, r⟩ := res
      rw [ht] at hc
      simp only at hc
      split at hc
      · cases hc
      · simp only [Option.some.injEq, Prod.mk.injEq] at hc
        obtain ⟨rfl, rfl⟩ := hc
        exact ⟨tryExpand_iters d d2 r ht, rfl, rfl⟩
  · intro j it u hj
    have hmem : (it, u) ∈ cs := List.mem_iff_getElem?.2 ⟨j, hj⟩
    have hinv := hcs _ hmem
    have hold : (!iterFresh it) = u := hfresh _ hmem
    constructor
    · intro hu
      subst hu
      have hreset : it = iteratorReset := hinv.1 rfl
      have hlt : activeCursors cs < cs.length :=
        countP_lt_of_mem _ cs (it, false) hmem hold
      refine ⟨?_, ?_, ?_⟩
      · intro d1 it1 r hn
        rw [hreset] at hn
        obtain ⟨h1, h2⟩ := next_fresh d d1 it1 r hn
        refine ⟨?_, iterFresh_false h2⟩
        rw [h1]
        show (d.iters + 1) % 2 ^ 64 = d.iters + 1
        exact Nat.mod_eq_of_lt (by omega)
      · rw [hreset]; rfl
      · rw [hreset]; rfl
    · intro hu
      subst hu
      have hnf : iterFresh it = false := iterFresh_false (hinv.2 rfl)
      have hpos : 1 ≤ activeCursors cs := countP_pos_of_mem _ cs (it, true) hmem hold
      have hdec : (d.iters + 2 ^ 64 - 1) % 2 ^ 64 = d.iters - 1 := by omega
      refine ⟨?_, by omega, ?_, ?_, rfl⟩
      · intro d1 it1 r hn
        obtain ⟨h1, h2⟩ := nextLoop_active _ d it d1 it1 r hn (hinv.2 rfl)
        exact ⟨h1, iterFresh_false h2⟩
      · simp only [dictIteratorDestroy, hnf]
        exact hdec
      · simp only [dictIteratorRewind, hnf]
        exact hdec

/-- C11 witness: on the rehashing dictionary `natBusy`, one cursor created and advanced
once. -/
theorem iterator_accounting_witness :
    natBusy.iters = 0 ∧
    IterSys natBusy natBusyIter
      [({ i := 0, entry := [⟨0, some 0⟩], nextEntry := [], ht := 0 }, true)] ∧
    natBusyIter.iters = activeCursors
      [(({ i := 0, entry := [⟨0, some 0⟩], nextEntry := [], ht := 0 } : dictIterator Nat Nat),
        true)] ∧
    natBusyIter.iters = 1 :=
  ⟨rfl,
    IterSys.next natBusy natBusyIter [(iteratorReset, false)] 0 iteratorReset
      { i := 0, entry := [⟨0, some 0⟩], nextEntry := [], ht := 0 } false (some ⟨0, some 0⟩)
      (IterSys.create natBusy natBusy [] iteratorReset IterSys.start (by rfl)) rfl (by rfl),
    (@iterator_accounting Nat Nat natBusy natBusyIter _ rfl
      (IterSys.next natBusy natBusyIter [(iteratorReset, false)] 0 iteratorReset
        { i := 0, entry := [⟨0, some 0⟩], nextEntry := [], ht := 0 } false (some ⟨0, some 0⟩)
        (IterSys.create natBusy natBusy [] iteratorReset IterSys.start (by rfl)) rfl (by rfl))
      (by decide)).2.1,
    rfl⟩

/-! ## Construction, the expansion rule and capacity rounding -/

/-- C12: `dictCreate(type)` returns NULL exactly when `type->hashFn` or `type->keyCmp` is
missing; otherwise it returns a dictionary whose two tables are uninitialised (size 0,
mask 0, filled 0, no bucket array), whose rehash cursor is -1, whose active-iterator count
is 0 and whose policy is a copy of `type`. -/
theorem create_null_iff_missing (ty : dictType K V) :
    (dictCreate ty = none ↔ ty.hashFn = none ∨ ty.keyCmp = none) ∧
    (ty.hashFn ≠ none → ty.keyCmp ≠ none → ∃ d, dictCreate ty = some d) ∧
    ∀ d, dictCreate ty = some d →
      d.ht0.size = 0 ∧ d.ht0.mask = 0 ∧ d.ht0.filled = 0 ∧ d.ht0.entries = [] ∧
      d.ht1.size = 0 ∧ d.ht1.mask = 0 ∧ d.ht1.filled = 0 ∧ d.ht1.entries = [] ∧
      d.rehash = -1 ∧ d.iters = 0 ∧ d.type = ty ∧ dictRehashing d = false := by
  have key : dictCreate ty = none ↔ ty.hashFn = none ∨ ty.keyCmp = none := by
    unfold dictCreate
    cases ty.hashFn <;> cases ty.keyCmp <;> simp
  refine ⟨key, ?_, ?_⟩
  · intro h1 h2
    cases hc : dictCreate ty with
    | none => rcases key.1 hc with h | h <;> contradiction
    | some d => exact ⟨d, rfl⟩
  · intro d hd
    unfold dictCreate at hd
    split at hd
    · cases hd
    · simp only [Option.some.injEq] at hd
      subst hd
      exact ⟨rfl, rfl, rfl, rfl, rfl, rfl, rfl, rfl, rfl, rfl, rfl, rfl⟩

theorem pow_least (a j : Nat) (h : 2 ^ (j - 1) < a) (m : Nat) (hm : a ≤ 2 ^ m) :
    2 ^ j ≤ 2 ^ m := by
  apply Nat.pow_le_pow_right (by norm_num)
  by_contra hc
  have hle : m ≤ j - 1 := by omega
  have := Nat.pow_le_pow_right (show 0 < 2 by norm_num) hle
  omega

/-- C13 (demand-driven expansion): on a reachable dictionary with `T0.filled < 2^62`,
`tryExpand` returns 0; when the dictionary is rehashing nothing changes; when it is not,
(a) with `T0.size == 0` the first table becomes an empty table of 4 slots and the cursor
stays -1, (b) with `T0.size > 0` and `T0.filled >= T0.size` the second table becomes an
empty table of `2^j` slots, `2^j` the least power of two that is at least `2 * T0.filled`
(so at least `2 * T0.size`), the cursor becomes 0 and the first table is untouched,
(c) otherwise nothing changes. -/
theorem expansion_rule {hf : K → Nat} {kc : K → K → Bool} {ty : dictType K V} {d : dict K V}
    (hL : Lawful ty hf kc) (hR : Reachable ty d) (hfill : d.ht0.filled < 2 ^ 62) :
    (d.rehash ≠ -1 → tryExpand d = some (d, 0)) ∧
    (d.rehash = -1 → d.ht0.size = 0 →
      tryExpand d = some ({ d with ht0 :=
        { entries := [[], [], [], []], size := 4, mask := 3, filled := 0 } }, 0)) ∧
    (d.rehash = -1 → 0 < d.ht0.size → d.ht0.size ≤ d.ht0.filled →
      ∃ j, tryExpand d = some ({ d with
          ht1 := { entries := List.replicate (2 ^ j) [], size := 2 ^ j, mask := 2 ^ j - 1,
                   filled := 0 },
          rehash := 0 }, 0) ∧
        2 * d.ht0.filled ≤ 2 ^ j ∧ (∀ m, 2 * d.ht0.filled ≤ 2 ^ m → 2 ^ j ≤ 2 ^ m) ∧
        2 * d.ht0.size ≤ 2 ^ j) ∧
    (d.rehash = -1 → 0 < d.ht0.size → d.ht0.filled < d.ht0.size → tryExpand d = some (d, 0)) := by
  obtain ⟨hw, _⟩ := reachable_wf hL hR
  rcases tryExpand_cases hw with ⟨h1, h2⟩ | ⟨h1, h2, h3⟩ | ⟨h1, h2, h3, h4⟩ |
    ⟨h1, h2, h3, j, hj2, hj63, hj, h4⟩ | ⟨h1, h2, h3, h4, h5⟩
  · exact ⟨fun _ => h2, fun h => absurd h h1, fun h => absurd h h1, fun h => absurd h h1⟩
  · refine ⟨fun h => absurd h1 h, fun _ _ => ?_, fun _ h => by omega, fun _ h => by omega⟩
    rw [h3]
    rfl
  · exact ⟨fun h => absurd h1 h, fun _ h => by omega, fun _ _ h => by omega, fun _ _ _ => h4⟩
  · refine ⟨fun h => absurd h1 h, fun _ h => by omega, fun _ _ _ => ?_, fun _ _ h => by omega⟩
    obtain ⟨hj1, hj3⟩ := hj hfill
    refine ⟨j, ?_, hj1, pow_least _ j hj3, by omega⟩
    rw [h4]
    have hm : (2 ^ j + 2 ^ 64 - 1) % 2 ^ 64 = 2 ^ j - 1 := by
      have hpos : 0 < 2 ^ j := Nat.two_pow_pos j
      have hlt : 2 ^ j ≤ 2 ^ 63 := Nat.pow_le_pow_right (by norm_num) hj63
      omega
    simp only [newTable, hm]
  · omega

/-- C13 witness: the full dictionary `natFull` (4 entries in 4 slots). -/
theorem expansion_rule_witness :
    Lawful natType natHash natCmp ∧ Reachable natType natFull ∧ natFull.ht0.filled < 2 ^ 62 ∧
    (natFull.rehash = -1 → 0 < natFull.ht0.size → natFull.ht0.size ≤ natFull.ht0.filled →
      ∃ j, tryExpand natFull = some ({ natFull with
          ht1 := { entries := List.replicate (2 ^ j) [], size := 2 ^ j, mask := 2 ^ j - 1,
                   filled := 0 },
          rehash := 0 }, 0) ∧
        2 * natFull.ht0.filled ≤ 2 ^ j ∧ (∀ m, 2 * natFull.ht0.filled ≤ 2 ^ m → 2 ^ j ≤ 2 ^ m) ∧
        2 * natFull.ht0.size ≤ 2 ^ j) ∧
    tryExpand natFull = some (natStarted, 0) :=
  ⟨natLawful, natFull_reachable, by decide,
    (expansion_rule natLawful natFull_reachable (by decide)).2.2.1, by rfl⟩

/-- C14 (capacity rounding): `limitedHTSize` returns for every input; below
`LONG_MAX = 2^63 - 1` the result is the least power of two that is at least `max(size, 4)`
(so it is at least `size`, at least 4 and less than `2 * max(size, 4)`), and from `LONG_MAX`
on it is the saturated value `2^63`. -/
theorem capacity_rounding (size : Nat) :
    ∃ r, limitedHTSize size = some r ∧
      (size < 2 ^ 63 - 1 → (∃ j, r = 2 ^ j) ∧ size ≤ r ∧ 4 ≤ r ∧ max size 4 ≤ r ∧
        r < 2 * max size 4 ∧ ∀ m, max size 4 ≤ 2 ^ m → r ≤ 2 ^ m) ∧
      (2 ^ 63 - 1 ≤ size → r = 2 ^ 63) := by
  obtain ⟨j, hj2, hj63, hj, hsmall⟩ := limitedHTSize_spec size
  refine ⟨2 ^ j, hj, ?_, ?_⟩
  · intro hs
    obtain ⟨h1, h2⟩ := hsmall (by simp only [LONG_MAX]; exact hs)
    have h4 : 4 ≤ 2 ^ j := by
      have := Nat.pow_le_pow_right (show 0 < 2 by norm_num) hj2
      omega
    have hmax : max size 4 ≤ 2 ^ j := max_le h1 h4
    refine ⟨⟨j, rfl⟩, h1, h4, hmax, ?_, ?_⟩
    · rcases h2 with h | h
      · subst h
        have : 4 ≤ max size 4 := le_max_right _ _
        omega
      · have hpow : 2 ^ j = 2 * 2 ^ (j - 1) := by
          rw [← pow_succ']
          congr 1
          omega
        have : size ≤ max size 4 := le_max_left _ _
        omega
    · intro m hm
      rcases h2 with h | h
      · subst h
        have : 4 ≤ max size 4 := le_max_right _ _
        omega
      · exact pow_least size j h m (le_trans (le_max_left _ _) hm)
  · intro hs
    have : limitedHTSize size = some (2 ^ 63) := by
      simp only [limitedHTSize, LONG_MAX]
      rw [if_pos hs]
      norm_num
    rw [hj] at this
    exact Option.some.inj this

/-! ## Invariants of the reachable states -/

/-- C16 (table shape): in every reachable state each of `T0.size` and `T1.size` is 0 or a
power of two that is at least 4, `mask == size - 1` whenever `size > 0`, and the dictionary
is rehashing (cursor different from -1) exactly when `T1.size > 0`. -/
theorem table_shape {hf : K → Nat} {kc : K → K → Bool} {ty : dictType K V} {d : dict K V}
    (hL : Lawful ty hf kc) (hR : Reachable ty d) :
    (d.ht0.size = 0 ∨ ∃ k, 4 ≤ 2 ^ k ∧ d.ht0.size = 2 ^ k) ∧
    (d.ht1.size = 0 ∨ ∃ k, 4 ≤ 2 ^ k ∧ d.ht1.size = 2 ^ k) ∧
    (0 < d.ht0.size → d.ht0.mask = d.ht0.size - 1) ∧
    (0 < d.ht1.size → d.ht1.mask = d.ht1.size - 1) ∧
    (d.rehash ≠ -1 ↔ 0 < d.ht1.size) ∧ (dictRehashing d = true ↔ 0 < d.ht1.size) := by
  obtain ⟨hw, _⟩ := reachable_wf hL hR
  have hpow : ∀ ht : dictht K V, TableOK hf ht →
      (ht.size = 0 ∨ ∃ k, 4 ≤ 2 ^ k ∧ ht.size = 2 ^ k) := by
    intro ht h
    rcases h.pow2 with h0 | ⟨k, hk2, _, hk⟩
    · exact Or.inl h0
    · refine Or.inr ⟨k, ?_, hk⟩
      have := Nat.pow_le_pow_right (show 0 < 2 by norm_num) hk2
      omega
  have hiff : d.rehash ≠ -1 ↔ 0 < d.ht1.size := by
    constructor
    · intro h
      exact (hw.busy h).2.2.2.1
    · intro h hr
      have := hw.idle hr
      rw [this] at h
      simp [resetht] at h
  refine ⟨hpow _ hw.t0, hpow _ hw.t1, fun _ => hw.t0.mask, fun _ => hw.t1.mask, hiff, ?_⟩
  rw [dictRehashing_true]
  exact hiff

/-- C16 witness: the rehashing dictionary `natBusy`. -/
theorem table_shape_witness :
    Lawful natType natHash natCmp ∧ Reachable natType natBusy ∧
    (natBusy.rehash ≠ -1 ↔ 0 < natBusy.ht1.size) ∧ natBusy.ht0.size = 2 ^ 2 ∧
    natBusy.ht1.size = 2 ^ 3 :=
  ⟨natLawful, natBusy_reachable, (table_shape natLawful natBusy_reachable).2.2.2.2.1, rfl, rfl⟩

theorem TableOK.chainsOK {hf : K → Nat} {ht : dictht K V} (h : TableOK hf ht) :
    ChainsOK hf ht := ⟨h.filled, h.slot⟩

/-- C17 (chain well-formedness): in every reachable state, for each of the two tables,
`filled` is the number of entries linked from the chain heads and every entry in the chain
at slot `i` has `hashFn(key) & mask == i`; the same holds after `rehash(d, n)` for every
`n` (which returns, and includes the table swap when the rehash completes) and after every
insertion, update and deletion. -/
theorem chains_well_formed {hf : K → Nat} {kc : K → K → Bool} {ty : dictType K V}
    {d : dict K V} (hL : Lawful ty hf kc) (hR : Reachable ty d) :
    ChainsOK hf d.ht0 ∧ ChainsOK hf d.ht1 ∧
    (∀ n, ∃ d1 r, rehash d n = some (d1, r) ∧ ChainsOK hf d1.ht0 ∧ ChainsOK hf d1.ht1) ∧
    (∀ k v, ∃ d1 r, dictAdd d k v = some (d1, r) ∧ ChainsOK hf d1.ht0 ∧ ChainsOK hf d1.ht1) ∧
    (∀ k v d1 r, dictUpdateOrAdd d k v = some (d1, r) →
      ChainsOK hf d1.ht0 ∧ ChainsOK hf d1.ht1) ∧
    (∀ k nf, ∃ d1 r, dictEntryDelete d k nf = some (d1, r) ∧
      ChainsOK hf d1.ht0 ∧ ChainsOK hf d1.ht1) := by
  obtain ⟨hw, ht⟩ := reachable_wf hL hR
  have hLd : Lawful d.type hf kc := ht ▸ hL
  refine ⟨hw.t0.chainsOK, hw.t1.chainsOK, ?_, ?_, ?_, ?_⟩
  · intro n
    obtain ⟨d1, r, h1, hw1, _⟩ := rehash_spec hLd hw n
    exact ⟨d1, r, h1, hw1.t0.chainsOK, hw1.t1.chainsOK⟩
  · intro k v
    obtain ⟨d1, r, h1, hw1, _⟩ := dictAdd_spec hLd hw k v
    exact ⟨d1, r, h1, hw1.t0.chainsOK, hw1.t1.chainsOK⟩
  · intro k v d1 r h
    obtain ⟨hw1, _⟩ := reachable_wf hL (Reachable.update d k v d1 r hR h)
    exact ⟨hw1.t0.chainsOK, hw1.t1.chainsOK⟩
  · intro k nf
    obtain ⟨d1, r, h1, hw1, _⟩ := dictEntryDelete_spec hLd hw k nf
    exact ⟨d1, r, h1, hw1.t0.chainsOK, hw1.t1.chainsOK⟩

/-- C17 witness: the rehashing dictionary `natBusy`, whose two tables both hold entries. -/
theorem chains_well_formed_witness :
    Lawful natType natHash natCmp ∧ Reachable natType natBusy ∧
    ChainsOK natHash natBusy.ht0 ∧ ChainsOK natHash natBusy.ht1 ∧
    natBusy.ht0.filled = 4 ∧ natBusy.ht1.filled = 1 :=
  ⟨natLawful, natBusy_reachable, (chains_well_formed natLawful natBusy_reachable).1,
    (chains_well_formed natLawful natBusy_reachable).2.1, rfl, rfl⟩

/-! ## The work done by one call of `rehash` -/

theorem split_at_first {α : Type} (x : α) : ∀ (m : Nat) (L : List α) (c : α),
    (∀ j, j < m → L[j]? = some x) → L[m]? = some c →
    L = List.replicate m x ++ c :: L.drop (m + 1) := by
  intro m
  induction m with
  | zero =>
    intro L c _ hc
    cases L with
    | nil => simp at hc
    | cons a l =>
      simp only [List.getElem?_cons_zero, Option.some.injEq] at hc
      subst hc
      simp
  | succ m ih =>
    intro L c hpre hc
    cases L with
    | nil => simp at hc
    | cons a l =>
      have ha : a = x := by simpa using hpre 0 (by omega)
      subst ha
      simp only [List.getElem?_cons_succ] at hc
      have := ih l c (fun j hj => by simpa using hpre (j + 1) (by omega)) hc
      simp only [List.replicate_succ, List.cons_append, List.drop_succ_cons]
      rw [← this]

theorem take_eq_replicate {α : Type} (x : α) : ∀ (m : Nat) (L : List α),
    (∀ j, j < m → L[j]? = some x) → L.take m = List.replicate m x := by
  intro m
  induction m with
  | zero => intro L _; simp
  | succ m ih =>
    intro L hpre
    cases L with
    | nil => simpa using hpre 0 (by omega)
    | cons a l =>
      have ha : a = x := by simpa using hpre 0 (by omega)
      subst ha
      simp only [List.take_succ_cons, List.replicate_succ]
      rw [ih l (fun j hj => by simpa using hpre (j + 1) (by omega))]

theorem countP_replicate_nil (p : List (dictEntry K V) → Bool) (m : Nat) :
    (List.replicate m ([] : List (dictEntry K V))).countP p = if p [] then m else 0 := by
  induction m with
  | zero => simp
  | succ m ih =>
    simp only [List.replicate_succ, List.countP_cons, ih]
    split <;> simp

theorem rehashChain_prepends (chain : List (dictEntry K V)) :
    ∀ (d d1 : dict K V), rehashChain d chain = some d1 →
    ∀ (i : Nat) (c : List (dictEntry K V)), d.ht1.entries[i]? = some c →
      ∃ pre, d1.ht1.entries[i]? = some (pre ++ c) := by
  induction chain with
  | nil =>
    intro d d1 h i c hc
    simp only [rehashChain, Option.some.injEq] at h
    subst h
    exact ⟨[], by simpa using hc⟩
  | cons e rest ih =>
    intro d d1 h i c hc
    unfold rehashChain at h
    cases hh : dictHashKeyGet d e.key with
    | none => rw [hh] at h; cases h
    | some hv =>
      rw [hh] at h
      simp only at h
      cases hs : d.ht1.entries[hv &&& d.ht1.mask]? with
      | none => rw [hs] at h; cases h
      | some c0 =>
        rw [hs] at h
        simp only at h
        by_cases hi : hv &&& d.ht1.mask = i
        · have hc0 : c0 = c := by
            rw [hi, hc] at hs
            exact (Option.some.inj hs).symm
          obtain ⟨pre, hpre⟩ := ih _ d1 h i (e :: c) (by
            show (d.ht1.entries.set (hv &&& d.ht1.mask) (e :: c0))[i]? = some (e :: c)
            rw [List.getElem?_set, if_pos hi, hc0]
            have := (List.getElem?_eq_some.1 hc).1
            rw [← hi] at this
            rw [if_pos this])
          exact ⟨pre ++ [e], by simpa using hpre⟩
        · exact ih _ d1 h i c (by
            show (d.ht1.entries.set (hv &&& d.ht1.mask) (e :: c0))[i]? = some c
            rw [List.getElem?_set, if_neg hi]
            exact hc)

theorem cursor_lt_of_filled {hf : K → Nat} {kc : K → K → Bool} {d : dict K V}
    (hw : WF hf kc d) (hr : d.rehash ≠ -1) (hz : d.ht0.filled ≠ 0) :
    d.rehash < d.ht0.size ∧ d.rehash.toNat < d.ht0.size ∧ asUInt64 d.rehash < d.ht0.size := by
  obtain ⟨hb0, hb1, hb2, hb3, hb4⟩ := hw.busy hr
  obtain ⟨q, hq⟩ := Int.eq_ofNat_of_zero_le hb0
  have hpre : ∀ j, j < q → d.ht0.entries[j]? = some [] := fun j hj => hb4 j (by omega)
  have hlen := hw.t0.len
  have hqlt : q < d.ht0.size := by
    by_contra hc
    have hq2 : q = d.ht0.size := by omega
    have htake := take_flatten_nil d.ht0.entries q hpre (by omega)
    rw [List.take_of_length_le (by omega)] at htake
    have := hw.t0.filled
    rw [htake] at this
    exact hz this
  have h63 := hw.t0.le_pow
  refine ⟨by omega, by omega, ?_⟩
  rw [asUInt64_of_nonneg _ hb0 (by omega)]
  omega
theorem take_split {α : Type} (x : α) (L : List α) (m k : Nat) (c : α)
    (hpre : ∀ j, j < m → L[j]? = some x) (hc : L[m]? = some c) (hk : m + 1 ≤ k) :
    L.take k = List.replicate m x ++ c :: (L.drop (m + 1)).take (k - (m + 1)) := by
  conv_lhs => rw [split_at_first x m L c hpre hc]
  rw [List.take_append_eq_append_take]
  simp only [List.length_replicate]
  rw [List.take_of_length_le (by simp; omega)]
  congr 1
  obtain ⟨t, ht⟩ : ∃ t, k - m = t + 1 := ⟨k - m - 1, by omega⟩
  rw [ht, List.take_succ_cons]
  congr 2
  omega

theorem rehashLoop_work {hf : K → Nat} {kc : K → K → Bool} :
    ∀ (n : Nat) (d : dict K V) (cnt : Int), Lawful d.type hf kc → WF hf kc d → d.rehash ≠ -1 →
    1 ≤ cnt → ∀ (d1 : dict K V) (b : Bool), rehashLoop n d cnt = some (d1, b) →
      (∀ j : Nat, d1.rehash.toNat ≤ j → d1.ht0.entries[j]? = d.ht0.entries[j]?) ∧
      (∀ (i : Nat) (c : List (dictEntry K V)), d.ht1.entries[i]? = some c →
        ∃ pre, d1.ht1.entries[i]? = some (pre ++ c)) ∧
      (d1.ht1.entries.flatten).Perm
        ((slotsBetween d d.rehash d1.rehash).flatten ++ d.ht1.entries.flatten) ∧
      (((slotsBetween d d.rehash d1.rehash).countP List.isEmpty : Nat) : Int) ≤ cnt ∧
      (slotsBetween d d.rehash d1.rehash).countP (fun c => !c.isEmpty) ≤ n ∧
      d1.ht0.filled ≤ d.ht0.filled := by
  intro n
  induction n with
  | zero =>
    intro d cnt _ _ _ hc d1 b h
    simp only [rehashLoop, Option.some.injEq, Prod.mk.injEq] at h
    obtain ⟨rfl, _⟩ := h
    refine ⟨fun _ _ => rfl, fun i c hc => ⟨[], by simpa using hc⟩, by simp [slotsBetween],
      by simp [slotsBetween]; omega, by simp [slotsBetween], le_refl _⟩
  | succ n ih =>
    intro d cnt hL hw hr hcnt d1 b h
    by_cases hz : d.ht0.filled = 0
    · simp only [rehashLoop, hz, if_true, Option.some.injEq, Prod.mk.injEq] at h
      obtain ⟨rfl, _⟩ := h
      refine ⟨fun _ _ => rfl, fun i c hc => ⟨[], by simpa using hc⟩, by simp [slotsBetween],
        by simp [slotsBetween]; omega, by simp [slotsBetween], le_refl _⟩
    · obtain ⟨hb0, hb1, hb2, hb3, hb4⟩ := hw.busy hr
      obtain ⟨q, hq⟩ := Int.eq_ofNat_of_zero_le hb0
      have hpre : ∀ j, j < q → d.ht0.entries[j]? = some [] := fun j hj => hb4 j (by omega)
      have hlen := hw.t0.len
      have htake := take_flatten_nil d.ht0.entries q hpre (by omega)
      have hsplit : d.ht0.entries.flatten = (d.ht0.entries.drop q).flatten := by
        conv_lhs => rw [← List.take_append_drop q d.ht0.entries]
        rw [List.flatten_append, htake, List.nil_append]
      have hne : (d.ht0.entries.drop q).flatten ≠ [] := by
        intro h
        rw [h] at hsplit
        have := hw.t0.filled
        rw [hsplit] at this
        exact hz this
      have hassert : d.ht0.size > asUInt64 d.rehash := (cursor_lt_of_filled hw hr hz).2.2
      obtain ⟨m, b0, hs1, hs2, hs3, hs4, hs5, hs6⟩ := skipEmpty_spec _ hne d.rehash cnt
      have hm : q + m < d.ht0.size := by
        simp only [List.length_drop] at hs2
        omega
      have hpre2 : ∀ j, j < q + m → d.ht0.entries[j]? = some [] := by
        intro j hj
        by_cases hjq : j < q
        · exact hpre j hjq
        · have := hs3 (j - q) (by omega)
          rw [List.getElem?_drop] at this
          rwa [show q + (j - q) = j by omega] at this
      have hcur : d.rehash + (m : Int) = ((q + m : Nat) : Int) := by
        rw [hq]; simp
      have htn : d.rehash.toNat = q := by rw [hq]; simp
      cases b0 with
      | true =>
        have heq : rehashLoop (n + 1) d cnt = some ({ d with rehash := d.rehash + m }, true) := by
          simp only [rehashLoop, if_neg hz, hassert, not_true_eq_false, if_false, htn, hs1]
        rw [heq] at h
        simp only [Option.some.injEq, Prod.mk.injEq] at h
        obtain ⟨rfl, _⟩ := h
        have hm1 := hs5 rfl
        have hcm : cnt = (m : Int) := by
          have := (hs6 m hm1 (le_refl _)).2 ⟨rfl, rfl⟩
          omega
        have hsl : slotsBetween d d.rehash (d.rehash + m) = List.replicate m [] := by
          simp only [slotsBetween, htn, hcur]
          rw [show ((q + m : Nat) : Int).toNat - q = m by omega]
          exact take_eq_replicate [] m _ hs3
        refine ⟨fun _ _ => rfl, fun i c hc => ⟨[], by simpa using hc⟩, ?_, ?_, ?_, le_refl _⟩
        · rw [hsl, flatten_replicate_nil]
          simp
        · rw [hsl, countP_replicate_nil]
          simp [hcm]
        · rw [hsl, countP_replicate_nil]
          simp
      | false =>
        obtain ⟨ch, hch, hchne⟩ := hs4 rfl
        have hch0 := hch
        rw [List.getElem?_drop] at hch
        obtain ⟨d2, hr1, hr2, hr3, hr4, hr5, hr6, hr7, hr8, hr9⟩ :=
          relocate_spec hL hw hr (q + m) hm hpre2 ch hch
        obtain ⟨d2x, hx1, _, _, _, _, _, _, hx8⟩ :=
          @rehashChain_spec K V hf ch { d with rehash := ((q + m : Nat) : Int) } hL.hash_eq hw.t1 hb3
        have hd2x : d2 = d2x := by
          rw [hr1] at hx1
          exact Option.some.inj hx1
        subst hd2x
        have hL2 : Lawful d2.type hf kc := by rw [hr3]; exact hL
        have hidx : ((q + m : Nat) : Int).toNat = q + m := by omega
        have heq : rehashLoop (n + 1) d cnt =
            rehashLoop n { d2 with ht0 := { d2.ht0 with entries := d2.ht0.entries.set (q + m) [] }, rehash := ((q + m : Nat) : Int) + 1 } (cnt - m) := by
          simp only [rehashLoop, if_neg hz, hassert, not_true_eq_false, if_false, htn, hs1]
          simp only [hcur, hidx, hch, hr1]
        rw [heq] at h
        have hcnt2 : 1 ≤ cnt - (m : Int) := by
          by_contra hc
          have hmc : cnt.toNat ≤ m := by omega
          have := (hs6 cnt.toNat (by omega) hmc).1 (by omega)
          cases this.1
        obtain ⟨d3, b3, hi1, _, _, _, _, _, _, _, hi9, _, _⟩ :=
          rehashLoop_spec n { d2 with ht0 := { d2.ht0 with entries := d2.ht0.entries.set (q + m) [] }, rehash := ((q + m : Nat) : Int) + 1 } (cnt - m) hL2 hr2 (by simp only; omega)
        rw [h] at hi1
        simp only [Option.some.injEq, Prod.mk.injEq] at hi1
        obtain ⟨hd3, _⟩ := hi1
        subst hd3
        simp only at hi9
        obtain ⟨k1, k2, k3, k4, k5, k6⟩ :=
          ih { d2 with ht0 := { d2.ht0 with entries := d2.ht0.entries.set (q + m) [] }, rehash := ((q + m : Nat) : Int) + 1 } (cnt - m) hL2 hr2
            (by simp only; omega) hcnt2 d1 b h
        simp only at k1 k2 k3 k4 k5 k6
        have ha1 : q + m + 1 ≤ d1.rehash.toNat := by omega
        have hsl : slotsBetween d d.rehash d1.rehash =
            List.replicate m [] ++ ch ::
              slotsBetween { d2 with ht0 := { d2.ht0 with entries := d2.ht0.entries.set (q + m) [] }, rehash := ((q + m : Nat) : Int) + 1 } (((q + m : Nat) : Int) + 1) d1.rehash := by
          have hcast : (((q + m : Nat) : Int) + 1).toNat = q + m + 1 := by omega
          simp only [slotsBetween, htn, hr8, hcast]
          rw [take_split [] (d.ht0.entries.drop q) m (d1.rehash.toNat - q) ch hs3 hch0 (by omega)]
          rw [List.drop_drop, List.drop_set_of_lt _ _ (by omega)]
          rw [show d1.rehash.toNat - q - (m + 1) = d1.rehash.toNat - (q + m + 1) by omega,
            show q + (m + 1) = q + m + 1 by omega]
        refine ⟨?_, ?_, ?_, ?_, ?_, ?_⟩
        · intro j hj
          rw [k1 j hj, hr8, List.getElem?_set, if_neg (by omega)]
        · intro i c hc
          obtain ⟨pre, hpre⟩ := rehashChain_prepends ch _ d2 hr1 i c hc
          obtain ⟨pre2, hpre2⟩ := k2 i (pre ++ c) hpre
          exact ⟨pre2 ++ pre, by simpa using hpre2⟩
        · rw [hsl]
          refine k3.trans ?_
          simp only [List.flatten_append, flatten_replicate_nil, List.nil_append,
            List.flatten_cons, List.append_assoc]
          refine (List.Perm.append_left _ hx8).trans ?_
          rw [← List.append_assoc, ← List.append_assoc]
          exact List.Perm.append_right _ List.perm_append_comm
        · rw [hsl]
          have hce : ch.isEmpty = false := by
            cases ch with
            | nil => exact absurd rfl hchne
            | cons a l => rfl
          simp only [List.countP_append, countP_replicate_nil, List.countP_cons, List.isEmpty_nil,
            hce, Bool.false_eq_true, if_false, if_true, Nat.add_zero]
          push_cast at k4 ⊢
          omega
        · rw [hsl]
          have hce : ch.isEmpty = false := by
            cases ch with
            | nil => exact absurd rfl hchne
            | cons a l => rfl
          simp only [List.countP_append, countP_replicate_nil, List.countP_cons, List.isEmpty_nil,
            hce, Bool.not_true, Bool.not_false, Bool.false_eq_true, if_false, if_true, Nat.zero_add]
          omega
        · omega
theorem countP_isEmpty_add (L : List (List (dictEntry K V))) :
    L.countP List.isEmpty + L.countP (fun c => !c.isEmpty) = L.length := by
  induction L with
  | nil => rfl
  | cons a l ih =>
    simp only [List.countP_cons, List.length_cons]
    cases a.isEmpty <;> simp <;> omega

theorem filled_sum_of_perm {hf : K → Nat} {kc : K → K → Bool} {d d1 : dict K V}
    (hw : WF hf kc d) (hw1 : WF hf kc d1) (hp : (allEntries d1).Perm (allEntries d)) :
    d1.ht0.filled + d1.ht1.filled = d.ht0.filled + d.ht1.filled := by
  have := hp.length_eq
  simp only [allEntries, List.length_append] at this
  rw [hw.t0.filled, hw.t1.filled, hw1.t0.filled, hw1.t1.filled]
  exact this

theorem rehash_eq_of_loop (d : dict K V) (n : Nat) (d1 : dict K V) (b : Bool)
    (hr : d.rehash ≠ -1) (h : rehashLoop n d ((n : Int) * 10) = some (d1, b)) :
    rehash d n = some (if b = false ∧ d1.ht0.filled = 0 then
      ({ d1 with ht0 := d1.ht1, ht1 := resetht, rehash := -1 }, 0) else (d1, 1)) := by
  have hrt : dictRehashing d = true := dictRehashing_true.2 hr
  cases b with
  | true => simp [rehash, hrt, h]
  | false =>
    by_cases hz : d1.ht0.filled = 0
    · simp [rehash, hrt, h, hz]
    · simp [rehash, hrt, h, hz]

/-- C18 (bounded rehash work): on a reachable rehashing dictionary one call `rehash(d, n)`
with `n >= 1` returns; if `d1` is the state when its loop ends (before the tables are
swapped, if they are), the slots the cursor has gone over hold at most `10 * n` empty and
at most `n` non-empty slots, so the cursor has advanced by at most `11 * n`; every slot
gone over is left empty and the other slots of the first table are untouched; every old
chain of the second table is a suffix of the new chain of its slot and the second table
holds, besides its old entries, exactly the entries of the slots gone over; and
`T0.filled + T1.filled` is the same after the call as before. -/
theorem bounded_rehash_work {hf : K → Nat} {kc : K → K → Bool} {ty : dictType K V}
    {d : dict K V} (hL : Lawful ty hf kc) (hR : Reachable ty d) (hbusy : d.rehash ≠ -1)
    (n : Nat) (hn : 1 ≤ n) :
    ∃ d1 b, rehashLoop n d ((n : Int) * 10) = some (d1, b) ∧
      rehash d n = some (if b = false ∧ d1.ht0.filled = 0 then
        ({ d1 with ht0 := d1.ht1, ht1 := resetht, rehash := -1 }, 0) else (d1, 1)) ∧
      d.rehash ≤ d1.rehash ∧ d1.rehash ≤ d.rehash + 11 * (n : Int) ∧
      (slotsBetween d d.rehash d1.rehash).length = d1.rehash.toNat - d.rehash.toNat ∧
      (slotsBetween d d.rehash d1.rehash).countP List.isEmpty ≤ 10 * n ∧
      (slotsBetween d d.rehash d1.rehash).countP (fun c => !c.isEmpty) ≤ n ∧
      (∀ j : Nat, (j : Int) < d1.rehash → d1.ht0.entries[j]? = some []) ∧
      (∀ j : Nat, d1.rehash.toNat ≤ j → d1.ht0.entries[j]? = d.ht0.entries[j]?) ∧
      (∀ (i : Nat) (c : List (dictEntry K V)), d.ht1.entries[i]? = some c →
        ∃ pre, d1.ht1.entries[i]? = some (pre ++ c)) ∧
      (d1.ht1.entries.flatten).Perm
        ((slotsBetween d d.rehash d1.rehash).flatten ++ d.ht1.entries.flatten) ∧
      d1.ht0.filled + d1.ht1.filled = d.ht0.filled + d.ht1.filled ∧
      ∀ d2 r, rehash d n = some (d2, r) →
        d2.ht0.filled + d2.ht1.filled = d.ht0.filled + d.ht1.filled ∧
        d2.rehash ≤ d.rehash + 11 * (n : Int) := by
  obtain ⟨hw, hty⟩ := reachable_wf hL hR
  have hLd : Lawful d.type hf kc := hty ▸ hL
  obtain ⟨d1, b, h1, hw1, hr1, _, _, hp, hs0, _, hle, _, _⟩ :=
    rehashLoop_spec n d ((n : Int) * 10) hLd hw hbusy
  obtain ⟨k1, k2, k3, k4, k5, _⟩ :=
    rehashLoop_work n d ((n : Int) * 10) hLd hw hbusy (by omega) d1 b h1
  obtain ⟨hb0, _, _, _, _⟩ := hw.busy hbusy
  obtain ⟨hc0, hc1, _, _, hc4⟩ := hw1.busy hr1
  have hlen : (slotsBetween d d.rehash d1.rehash).length = d1.rehash.toNat - d.rehash.toNat := by
    simp only [slotsBetween, List.length_take, List.length_drop, hw.t0.len]
    omega
  have hadd := countP_isEmpty_add (slotsBetween d d.rehash d1.rehash)
  have hk4 : (slotsBetween d d.rehash d1.rehash).countP List.isEmpty ≤ 10 * n := by omega
  have hsum := filled_sum_of_perm hw hw1 hp
  have hadv : d1.rehash ≤ d.rehash + 11 * (n : Int) := by omega
  have hreq := rehash_eq_of_loop d n d1 b hbusy h1
  refine ⟨d1, b, h1, hreq, hle, hadv, hlen, hk4, k5, hc4, k1, k2, k3, hsum, ?_⟩
  intro d2 r h2
  rw [hreq] at h2
  by_cases hc : b = false ∧ d1.ht0.filled = 0
  · rw [if_pos hc] at h2
    simp only [Option.some.injEq, Prod.mk.injEq] at h2
    obtain ⟨rfl, _⟩ := h2
    refine ⟨?_, ?_⟩
    · show d1.ht1.filled + (resetht : dictht K V).filled = _
      rw [← hsum, hc.2]
      simp [resetht]
    · show (-1 : Int) ≤ _
      omega
  · rw [if_neg hc] at h2
    simp only [Option.some.injEq, Prod.mk.injEq] at h2
    obtain ⟨rfl, _⟩ := h2
    exact ⟨hsum, hadv⟩

/-- C18 witness: one unit of rehash on `natBusy` relocates the slot 0. -/
theorem bounded_rehash_work_witness :
    Lawful natType natHash natCmp ∧ Reachable natType natBusy ∧ natBusy.rehash ≠ -1 ∧
    (1 : Nat) ≤ 1 ∧
    ∃ d1 b, rehashLoop 1 natBusy (((1 : Nat) : Int) * 10) = some (d1, b) ∧
      natBusy.rehash ≤ d1.rehash ∧ d1.rehash ≤ natBusy.rehash + 11 * ((1 : Nat) : Int) ∧
      d1.ht0.filled + d1.ht1.filled = natBusy.ht0.filled + natBusy.ht1.filled :=
  ⟨natLawful, natBusy_reachable, by decide, le_refl _,
    by
      obtain ⟨d1, b, h1, _, h3, h4, _, _, _, _, _, _, _, h12, _⟩ :=
        bounded_rehash_work natLawful natBusy_reachable (by decide) 1 (le_refl _)
      exact ⟨d1, b, h1, h3, h4, h12⟩⟩

/-! ## Completion of a rehash -/

theorem exists_nonempty_of_flatten {α : Type} : ∀ (L : List (List α)), L.flatten ≠ [] →
    ∃ (j : Nat) (ch : List α), L[j]? = some ch ∧ ch ≠ [] := by
  intro L
  induction L with
  | nil => intro h; exact absurd rfl h
  | cons a l ih =>
    intro h
    by_cases ha : a = []
    · subst ha
      obtain ⟨j, ch, h1, h2⟩ := ih (by simpa using h)
      exact ⟨j + 1, ch, by simpa using h1, h2⟩
    · exact ⟨0, a, by simp, ha⟩

theorem dictValSet_second (d : dict K V) (r : EntryRef) (v : V) (d2 : dict K V)
    (h : dictValSet d r v = some d2) (ht : r.table = 1) :
    d2.ht0 = d.ht0 ∧ d2.rehash = d.rehash := by
  unfold dictValSet at h
  simp only at h
  split at h
  · cases h
  · split at h
    · cases h
    · simp only [Option.some.injEq] at h
      subst h
      rw [ht]
      exact ⟨rfl, rfl⟩

theorem rehashStep_filled {hf : K → Nat} {kc : K → K → Bool} {d : dict K V}
    (hL : Lawful d.type hf kc) (hw : WF hf kc d) (d0 : dict K V)
    (h0 : rehashStepIfRehashing d = some d0) (hr0 : d0.rehash ≠ -1) :
    d.rehash ≠ -1 ∧ d0.ht0.filled ≤ d.ht0.filled ∧ d.rehash ≤ d0.rehash ∧
    d0.ht0.size = d.ht0.size := by
  have hr : d.rehash ≠ -1 := by
    intro hr
    rw [rehashStepIfRehashing_idle d (Or.inr hr)] at h0
    cases h0
    exact hr0 hr
  refine ⟨hr, ?_⟩
  by_cases hi : d.iters = 0
  · obtain ⟨d1, b, h1, _, _, _, _, _, hs, _, hle, _, _⟩ :=
      rehashLoop_spec 1 d (((1 : Nat) : Int) * 10) hL hw hr
    obtain ⟨_, _, _, _, _, k6⟩ :=
      rehashLoop_work 1 d (((1 : Nat) : Int) * 10) hL hw hr (by norm_num) d1 b h1
    have hreq := rehash_eq_of_loop d 1 d1 b hr h1
    simp only [rehashStepIfRehashing, dictRehashing_true.2 hr, if_true, rehashStep, hi, hreq]
      at h0
    by_cases hc : b = false ∧ d1.ht0.filled = 0
    · rw [if_pos hc] at h0
      simp only [Option.some.injEq] at h0
      subst h0
      exact absurd rfl hr0
    · rw [if_neg hc] at h0
      simp only [Option.some.injEq] at h0
      subst h0
      exact ⟨k6, hle, hs⟩
  · rw [rehashStepIfRehashing_idle d (Or.inl hi)] at h0
    cases h0
    exact ⟨le_refl _, le_refl _, rfl⟩

theorem insert_into_second {hf : K → Nat} {kc : K → K → Bool} {d : dict K V}
    (hL : Lawful d.type hf kc) (hw : WF hf kc d) (k : K) (ex : Bool) (d0 : dict K V)
    (hs0 : rehashStepIfRehashing d = some d0) (hr0 : d0.rehash ≠ -1)
    (d1 : dict K V) (r ex1 : Option EntryRef)
    (h : dictAddKeyOrGetExistingEntry d k ex = some (d1, r, ex1)) :
    d1.ht0 = d0.ht0 ∧ d1.rehash = d0.rehash ∧ ∀ ref, r = some ref → ref.table = 1 := by
  obtain ⟨d0x, hs0x, hw0, ht0, _⟩ := rehashStepIfRehashing_spec hL hw
  rw [hs0] at hs0x
  have hdx : d0 = d0x := Option.some.inj hs0x
  subst hdx
  have hL0 : Lawful d0.type hf kc := by rw [ht0]; exact hL
  have hrt : dictRehashing d0 = true := dictRehashing_true.2 hr0
  obtain ⟨d2, r2, h1, _, _, _, _, hcase⟩ := getExistingOrIndex_spec hL0 hw0 k ex
  have hte : tryExpand d0 = some (d0, 0) := by
    simp [tryExpand, hrt]
  rw [hte] at h1
  simp only [Option.some.injEq, Prod.mk.injEq] at h1
  obtain ⟨hd2, hr2⟩ := h1
  subst hd2
  subst hr2
  have hpre : dictAddKeyOrGetExistingEntry d k ex =
      (match getExistingOrIndex d0 k (hf k) ex with
        | none => none
        | some (d2, i, ex2) =>
          if i = -1 then some (d2, none, ex2)
          else if i < 0 then none
          else
            match (getHt d2 (if dictRehashing d2 then 1 else 0)).entries[i.toNat]? with
            | none => none
            | some c =>
              some (setHt d2 (if dictRehashing d2 then 1 else 0)
                { (getHt d2 (if dictRehashing d2 then 1 else 0)) with
                  entries := (getHt d2 (if dictRehashing d2 then 1 else 0)).entries.set i.toNat
                    ({ key := dictKeySet d2 k, val := none } :: c),
                  filled := (getHt d2 (if dictRehashing d2 then 1 else 0)).filled + 1 },
                some ⟨if dictRehashing d2 then 1 else 0, i.toNat, 0⟩, ex2)) := by
    simp only [dictAddKeyOrGetExistingEntry, hs0, dictHashKeyGet, hL0.hash_eq]
    try rfl
  rw [hpre] at h
  rcases hcase with ⟨hx, _⟩ | ⟨_, t, i, pre, e, post, _, hc, hke, hg⟩ | ⟨_, hno, ch, hc, hg⟩
  · simp at hx
  · rw [hg] at h
    simp only [if_true, Option.some.injEq, Prod.mk.injEq] at h
    obtain ⟨rfl, rfl, _⟩ := h
    exact ⟨rfl, rfl, fun ref h => by cases h⟩
  · rw [hg] at h
    simp only [hrt, if_true] at h hc
    have hidx : ((hf k &&& (getHt d0 1).mask : Nat) : Int).toNat = hf k &&& (getHt d0 1).mask := by
      omega
    have hnn : ¬ ((hf k &&& (getHt d0 1).mask : Nat) : Int) = -1 := by omega
    have hn0 : ¬ ((hf k &&& (getHt d0 1).mask : Nat) : Int) < 0 := by omega
    simp only [hnn, hn0, if_false, hidx, hc, Option.some.injEq, Prod.mk.injEq] at h
    obtain ⟨rfl, rfl, _⟩ := h
    exact ⟨rfl, rfl, fun ref h => by cases h; rfl⟩
/-- C20 (rehash cursor safety): in every reachable state in which a rehash is in progress the
cursor is between 0 and `T0.size` and every slot of the first table below the cursor is
empty; when `T0.filled > 0` the cursor is strictly less than `T0.size` (the assertion of
`rehash` holds) and a non-empty slot lies at or after the cursor, so the empty-slot scan
stops inside the array, and `rehash(d, n)` returns for every `n`.  An insertion made while
the rehash goes on (after the rehash step that opens the call) links the new entry into the
second table and leaves the first table as that step left it, so `T0.filled` does not
increase. -/
theorem cursor_safety {hf : K → Nat} {kc : K → K → Bool} {ty : dictType K V} {d : dict K V}
    (hL : Lawful ty hf kc) (hR : Reachable ty d) (hbusy : d.rehash ≠ -1) :
    0 ≤ d.rehash ∧ d.rehash ≤ d.ht0.size ∧
    (∀ j : Nat, (j : Int) < d.rehash → d.ht0.entries[j]? = some []) ∧
    (0 < d.ht0.filled →
      d.rehash < d.ht0.size ∧ asUInt64 d.rehash < d.ht0.size ∧
      ∃ (j : Nat) (ch : List (dictEntry K V)), d.rehash.toNat ≤ j ∧ j < d.ht0.size ∧
        d.ht0.entries[j]? = some ch ∧ ch ≠ []) ∧
    (∀ n, ∃ d1 r, rehash d n = some (d1, r)) ∧
    ∃ d0, rehashStepIfRehashing d = some d0 ∧
      (d0.rehash ≠ -1 → d0.ht0.filled ≤ d.ht0.filled ∧
        (∀ k ex d1 r ex1, dictAddKeyOrGetExistingEntry d k ex = some (d1, r, ex1) →
          d1.ht0 = d0.ht0 ∧ d1.rehash = d0.rehash ∧ ∀ ref, r = some ref → ref.table = 1) ∧
        (∀ k v d1 r, dictAdd d k v = some (d1, r) →
          d1.ht0 = d0.ht0 ∧ d1.rehash = d0.rehash ∧ d1.ht0.filled ≤ d.ht0.filled)) := by
  obtain ⟨hw, hty⟩ := reachable_wf hL hR
  have hLd : Lawful d.type hf kc := hty ▸ hL
  obtain ⟨hb0, hb1, _, _, hb4⟩ := hw.busy hbusy
  refine ⟨hb0, hb1, hb4, ?_, ?_, ?_⟩
  · intro hpos
    have hz : d.ht0.filled ≠ 0 := by omega
    obtain ⟨h1, h2, h3⟩ := cursor_lt_of_filled hw hbusy hz
    refine ⟨h1, h3, ?_⟩
    obtain ⟨q, hq⟩ := Int.eq_ofNat_of_zero_le hb0
    have hpre : ∀ j, j < q → d.ht0.entries[j]? = some [] := fun j hj => hb4 j (by omega)
    have htake := take_flatten_nil d.ht0.entries q hpre (by rw [hw.t0.len]; omega)
    have hne : (d.ht0.entries.drop q).flatten ≠ [] := by
      intro h
      have hsplit : d.ht0.entries.flatten = [] := by
        conv_lhs => rw [← List.take_append_drop q d.ht0.entries]
        rw [List.flatten_append, htake, h]
        rfl
      have := hw.t0.filled
      rw [hsplit] at this
      exact hz this
    obtain ⟨j, ch, hj, hch⟩ := exists_nonempty_of_flatten _ hne
    rw [List.getElem?_drop] at hj
    have hlt := (List.getElem?_eq_some.1 hj).1
    rw [hw.t0.len] at hlt
    exact ⟨q + j, ch, by omega, hlt, hj, hch⟩
  · intro n
    obtain ⟨d1, r, h1, _⟩ := rehash_spec hLd hw n
    exact ⟨d1, r, h1⟩
  · obtain ⟨d0, hs0, _⟩ := rehashStepIfRehashing_spec hLd hw
    refine ⟨d0, hs0, fun hr0 => ?_⟩
    obtain ⟨_, hfl, _, _⟩ := rehashStep_filled hLd hw d0 hs0 hr0
    refine ⟨hfl, fun k ex d1 r ex1 h => insert_into_second hLd hw k ex d0 hs0 hr0 d1 r ex1 h, ?_⟩
    intro k v d1 r h
    unfold dictAdd at h
    cases ha : dictAddKeyOrGetExistingEntry d k false with
    | none => rw [ha] at h; cases h
    | some res =>
      obtain ⟨d2, r2, ex2⟩ := res
      obtain ⟨k1, k2, k3⟩ := insert_into_second hLd hw k false d0 hs0 hr0 d2 r2 ex2 ha
      rw [ha] at h
      cases r2 with
      | none =>
        simp only [Option.some.injEq, Prod.mk.injEq] at h
        obtain ⟨rfl, _⟩ := h
        exact ⟨k1, k2, by rw [k1]; exact hfl⟩
      | some e =>
        simp only at h
        cases hv : dictValSet d2 e v with
        | none => rw [hv] at h; cases h
        | some d3 =>
          rw [hv] at h
          simp only [Option.some.injEq, Prod.mk.injEq] at h
          obtain ⟨rfl, _⟩ := h
          obtain ⟨m1, m2⟩ := dictValSet_second d2 e v d3 hv (k3 e rfl)
          exact ⟨m1.trans k1, m2.trans k2, by rw [m1, k1]; exact hfl⟩

/-- C20 witness: the rehashing dictionary `natBusy`; on it `dictAdd` of the key 12 moves the
slot 0 and links the new entry into the second table. -/
theorem cursor_safety_witness :
    Lawful natType natHash natCmp ∧ Reachable natType natBusy ∧ natBusy.rehash ≠ -1 ∧
    0 ≤ natBusy.rehash ∧ natBusy.rehash ≤ natBusy.ht0.size ∧
    (∀ j : Nat, (j : Int) < natBusy.rehash → natBusy.ht0.entries[j]? = some []) ∧
    (0 < natBusy.ht0.filled →
      natBusy.rehash < natBusy.ht0.size ∧ asUInt64 natBusy.rehash < natBusy.ht0.size ∧
      ∃ (j : Nat) (ch : List (dictEntry Nat Nat)), natBusy.rehash.toNat ≤ j ∧
        j < natBusy.ht0.size ∧ natBusy.ht0.entries[j]? = some ch ∧ ch ≠ []) ∧
    (dictAdd natBusy 12 120).map (fun p => (p.1.ht0.entries, p.1.ht1.entries, p.1.rehash, p.2)) =
      some ([[], [⟨1, some 10⟩], [⟨2, some 20⟩], [⟨3, some 30⟩]],
        [[⟨0, some 0⟩], [], [], [], [⟨12, some 120⟩, ⟨4, some 40⟩], [], [], []], 1, 0) :=
  ⟨natLawful, natBusy_reachable, by decide,
    (cursor_safety natLawful natBusy_reachable (by decide)).1,
    (cursor_safety natLawful natBusy_reachable (by decide)).2.1,
    (cursor_safety natLawful natBusy_reachable (by decide)).2.2.1,
    (cursor_safety natLawful natBusy_reachable (by decide)).2.2.2.1, by rfl⟩

/-! ## The statistics report -/

theorem natDrained_reachable : Reachable natType natDrained :=
  Reachable.delete natHalf 2 false natDrained (some ⟨2, some 20⟩)
    (Reachable.delete natBusy 3 false natHalf (some ⟨3, some 30⟩) natBusy_reachable (by rfl))
    (by rfl)

set_option maxRecDepth 100000 in
/-- C15, the code at the failing input: `natDrained` is reachable (`natBusy` after
`dictEntryDelete` of the keys 3 and 2), it is rehashing and its first table is empty.  For a
buffer of 5 bytes (the first 5 of 256 bytes of memory that hold the value 170) the report
of the first table stores `Empt` and a NUL but returns 12, the length of the whole text
`Empty dict.\n`; `buf += l` then points 12 bytes from the start of the 5-byte buffer,
`len -= l` wraps around to `2^64 - 7`, and the report of the second table is written from the
offset 12 on, outside the buffer. -/
theorem stats_writes_past_buffer :
    Reachable natType natDrained ∧ dictRehashing natDrained = true ∧
    natDrained.ht0.filled = 0 ∧
    (∀ fl fp : Nat → Nat → List Nat,
      _dictGetStatsHt fl fp natDrained.ht0 (List.replicate 256 170) 0 5 0 =
        some (bytes "Empt" ++ [0] ++ List.replicate 251 170, 12)) ∧
    (5 + 2 ^ 64 - 12 % 2 ^ 64) % 2 ^ 64 = 2 ^ 64 - 7 ∧
    dictStats fixed2 percent2 natDrained (List.replicate 256 170) 5 =
      some (bytes "Empt" ++ [0] ++ List.replicate 7 170 ++
        bytes "Hash table 1:\n size: 8\n filled: 3\n different slots: 3\n max chain length: 1\n" ++
        bytes " avg chain length (counted): 1.00\n avg chain length (computed): 1.00\n" ++
        bytes " Chain length distribution:\n   0: 5 (62.50%)\n   1: 3 (37.50%)\n" ++ [0] ++
        List.replicate 37 170, 0) :=
  ⟨natDrained_reachable, rfl, rfl, fun _ _ => rfl, by decide, by rfl⟩

end LibDict
